import Mathlib

/-!
Verification development for the Binius-Rust binary-field polynomial
commitment scheme.  Rust source is shallowly embedded: `u16`/`u128`
values become `Nat` with explicit bounds, vectors become `List Nat`,
panics become `Option.none`, and loops become structural recursion
(with an explicit fuel argument where the Rust recursion is not
structural; the fuel is always chosen large enough that the embedded
function agrees with the source on every input the source terminates on).
-/

namespace Binius

/-! ### `binary_field16.rs`: the 16-bit binary tower field -/

/-- Fuel-structural base-2 logarithm (kernel-reducible, unlike
`Nat.log2`); `log2F fuel n = Nat.log2 n` whenever `fuel ≥ n`. -/
def log2F : Nat → Nat → Nat
  | 0, _ => 0
  | fuel + 1, n => if 2 ≤ n then log2F fuel (n / 2) + 1 else 0

theorem log2F_eq_log2 : ∀ fuel n, n ≤ fuel → log2F fuel n = Nat.log2 n := by
  intro fuel
  induction fuel with
  | zero =>
    intro n hn
    interval_cases n
    simp [log2F, Nat.log2]
  | succ f ih =>
    intro n hn
    rw [log2F, Nat.log2]
    by_cases h2 : 2 ≤ n
    · rw [if_pos h2, if_pos h2, ih (n / 2) (by omega)]
    · rw [if_neg h2, if_neg h2]

/-- Bit length of a machine integer: `16 - leading_zeros` for a `u16`
(`bit_length` in `binary_field16.rs`), generalised to `Nat`. -/
def bitLen (n : Nat) : Nat := if n = 0 then 0 else log2F n n + 1

theorem bitLen_eq (n : Nat) : bitLen n = if n = 0 then 0 else Nat.log2 n + 1 := by
  unfold bitLen
  rw [log2F_eq_log2 n n le_rfl]

/-- Worker for `bin_mul` in `binary_field16.rs` (tower-field Karatsuba
multiplication).  The Rust function recurses with `length` halving each
time; `fuel` makes that recursion structural.  Any `fuel ≥ length ≥ 1`
computes the same value as the source (the `fuel = 0` row is unreachable
then, because the `length ≤ 1` recursive calls always have an operand
`< 2` and stop in the base case). -/
def binMulF : Nat → Nat → Nat → Nat → Nat
  | 0, _, v1, v2 => v1 * v2
  | fuel + 1, length, v1, v2 =>
    if v1 < 2 ∨ v2 < 2 then v1 * v2
    else
      let halflen := length / 2
      let quarterlen := length / 4
      let halfmask := 2 ^ halflen - 1
      let l1 := v1 &&& halfmask
      let r1 := v1 >>> halflen
      let l2 := v2 &&& halfmask
      let r2 := v2 >>> halflen
      if l1 = 0 ∧ r1 = 1 then
        let out_r := binMulF fuel halflen (1 <<< quarterlen) r2 ^^^ l2
        r2 ^^^ (out_r <<< halflen)
      else
        let l1l2 := binMulF fuel halflen l1 l2
        let r1r2 := binMulF fuel halflen r1 r2
        let r1r2_high := binMulF fuel halflen (1 <<< quarterlen) r1r2
        let z3 := binMulF fuel halflen (l1 ^^^ r1) (l2 ^^^ r2)
        l1l2 ^^^ r1r2 ^^^ ((z3 ^^^ l1l2 ^^^ r1r2 ^^^ r1r2_high) <<< halflen)

/-- The length `bin_mul` derives when its `length` argument is `None`:
the smallest power of two that covers the bit length of the larger
operand, rounded up to a power of two. -/
def derivedLength (v1 v2 : Nat) : Nat := 2 ^ bitLen (bitLen (max v1 v2) - 1)

/-- `bin_mul(v1, v2, length)` from `binary_field16.rs`. -/
def bin_mul (v1 v2 : Nat) (length : Option Nat) : Nat :=
  if v1 < 2 ∨ v2 < 2 then v1 * v2
  else
    let l := match length with
      | some l => l
      | none => derivedLength v1 v2
    binMulF l l v1 v2

/-- Multiplication of two `BinaryFieldElement16` values (the `Mul`
instance in `binary_field16.rs`): `bin_mul` with derived length. -/
def b16Mul (v1 v2 : Nat) : Nat := bin_mul v1 v2 none

/-- Addition of two `BinaryFieldElement16` values: XOR. -/
def b16Add (v1 v2 : Nat) : Nat := v1 ^^^ v2

/-- `BinaryFieldElement16::pow` (binary exponentiation with the odd case
`a.pow(e % 2) * a.pow(e / 2).pow(2)`), fuel-structural; `fuel ≥ e + 1`
reproduces the source. -/
def b16PowF : Nat → Nat → Nat → Nat
  | 0, a, _ => a
  | fuel + 1, a, e =>
    if e = 0 then 1
    else if e = 1 then a
    else if e = 2 then b16Mul a a
    else b16Mul (b16PowF fuel a (e % 2)) (b16PowF fuel (b16PowF fuel a (e / 2)) 2)

/-- `BinaryFieldElement16::pow`. -/
def b16Pow (a e : Nat) : Nat := b16PowF (e + 1) a e

/-- `BinaryFieldElement16::inv`: `a^(2^L - 2)` with
`L = 1 <<< (16 - (bit_length(a) - 1).leading_zeros())
   = 2 ^ bitLen (bitLen a - 1)`.
(`inv(0)` is undefined in the source — the `u16` subtraction underflows —
here truncated `Nat` subtraction makes `b16Inv 0 = 1`; no claim uses it.) -/
def b16Inv (a : Nat) : Nat :=
  let l := 2 ^ bitLen (bitLen a - 1)
  b16Pow a (2 ^ l - 2)

-- Sanity checks mirroring the unit tests of `binary_field16.rs`.
example : b16Mul 3 5 = 15 := by decide
example : b16Mul 7 11 = 4 := by decide
example : b16Mul 8 2 = 12 := by decide
example : b16Mul 8 5 = 6 := by decide
example : b16Pow 2 3 = 1 := by decide
example : b16Inv 1 = 1 := by decide

/-! ### `utils.rs`: grid dimensioning -/

/-- `choose_row_length_and_count` from `utils.rs`. -/
def choose_row_length_and_count (log_evaluation_count : Nat) :
    Nat × Nat × Nat × Nat :=
  let log_row_length := (log_evaluation_count + 2) / 2
  let log_row_count := (log_evaluation_count - 1) / 2
  let row_length := 2 ^ log_row_length
  let row_count := 2 ^ log_row_count
  (log_row_length, log_row_count, row_length, row_count)

-- Sanity check mirroring `test_choose_row_length_and_count`.
example : choose_row_length_and_count 6 = (4, 2, 16, 4) := by decide

/-- Claim C10: for every `log_evaluation_count ≥ 1` the tuple returned by
`choose_row_length_and_count` satisfies
`log_row_length + log_row_count = log_evaluation_count`, hence
`row_length * row_count = 2 ^ log_evaluation_count`: the derived grid
holds exactly the input's bit count. -/
theorem choose_row_length_and_count_exact (n : Nat) (h : 1 ≤ n) :
    (choose_row_length_and_count n).1 + (choose_row_length_and_count n).2.1 = n ∧
    (choose_row_length_and_count n).2.2.1 * (choose_row_length_and_count n).2.2.2 =
      2 ^ n := by
  have hsum : (n + 2) / 2 + (n - 1) / 2 = n := by omega
  refine ⟨hsum, ?_⟩
  show 2 ^ ((n + 2) / 2) * 2 ^ ((n - 1) / 2) = 2 ^ n
  rw [← pow_add, hsum]

/-- Witness for C10 at `n = 6`. -/
theorem choose_row_length_and_count_exact_witness :
    (choose_row_length_and_count 6).1 + (choose_row_length_and_count 6).2.1 = 6 ∧
    (choose_row_length_and_count 6).2.2.1 * (choose_row_length_and_count 6).2.2.2 =
      2 ^ 6 :=
  choose_row_length_and_count_exact 6 (by decide)

/-! ### SHA-256 (the `sha2` crate dependency of `merkle_tree.rs`)

Bytes are `Nat` values `< 256`; words are `Nat` values reduced mod `2^32`.
Validated below against the repository's own `test_hash` vector. -/

/-- 32-bit right rotation. -/
def rotr32 (n x : Nat) : Nat := ((x >>> n) ||| (x <<< (32 - n))) % 2 ^ 32

def shaCh (x y z : Nat) : Nat := (x &&& y) ^^^ ((x ^^^ (2 ^ 32 - 1)) &&& z)

def shaMaj (x y z : Nat) : Nat := (x &&& y) ^^^ (x &&& z) ^^^ (y &&& z)

def bsig0 (x : Nat) : Nat := rotr32 2 x ^^^ rotr32 13 x ^^^ rotr32 22 x

def bsig1 (x : Nat) : Nat := rotr32 6 x ^^^ rotr32 11 x ^^^ rotr32 25 x

def ssig0 (x : Nat) : Nat := rotr32 7 x ^^^ rotr32 18 x ^^^ (x >>> 3)

def ssig1 (x : Nat) : Nat := rotr32 17 x ^^^ rotr32 19 x ^^^ (x >>> 10)

/-- The 64 SHA-256 round constants. -/
def shaK : List Nat :=
  [1116352408, 1899447441, 3049323471, 3921009573, 961987163, 1508970993,
   2453635748, 2870763221, 3624381080, 310598401, 607225278, 1426881987,
   1925078388, 2162078206, 2614888103, 3248222580, 3835390401, 4022224774,
   264347078, 604807628, 770255983, 1249150122, 1555081692, 1996064986,
   2554220882, 2821834349, 2952996808, 3210313671, 3336571891, 3584528711,
   113926993, 338241895, 666307205, 773529912, 1294757372, 1396182291,
   1695183700, 1986661051, 2177026350, 2456956037, 2730485921, 2820302411,
   3259730800, 3345764771, 3516065817, 3600352804, 4094571909, 275423344,
   430227734, 506948616, 659060556, 883997877, 958139571, 1322822218,
   1537002063, 1747873779, 1955562222, 2024104815, 2227730452, 2361852424,
   2428436474, 2756734187, 3204031479, 3329325298]

/-- The SHA-256 initial hash state. -/
def shaH0 : List Nat :=
  [1779033703, 3144134277, 1013904242, 2773480762,
   1359893119, 2600822924, 528734635, 1541459225]

/-- Group a byte list into big-endian 32-bit words. -/
def bytesToWordsBE : List Nat → List Nat
  | b0 :: b1 :: b2 :: b3 :: rest =>
    (((b0 * 256 + b1) * 256 + b2) * 256 + b3) :: bytesToWordsBE rest
  | _ => []

/-- One step of the SHA-256 message-schedule extension. -/
def scheduleStep (w : List Nat) : List Nat :=
  w ++ [(ssig1 (w.getD (w.length - 2) 0) + w.getD (w.length - 7) 0 +
         ssig0 (w.getD (w.length - 15) 0) + w.getD (w.length - 16) 0) % 2 ^ 32]

/-- Extend 16 message words to the 64-entry SHA-256 schedule. -/
def schedule (w16 : List Nat) : List Nat :=
  (List.range 48).foldl (fun w _ => scheduleStep w) w16

/-- One SHA-256 compression round on the 8-word working state. -/
def shaRound (st : List Nat) (k w : Nat) : List Nat :=
  match st with
  | [a, b, c, d, e, f, g, h] =>
    let t1 := (h + bsig1 e + shaCh e f g + k + w) % 2 ^ 32
    let t2 := (bsig0 a + shaMaj a b c) % 2 ^ 32
    [(t1 + t2) % 2 ^ 32, a, b, c, (d + t1) % 2 ^ 32, e, f, g]
  | other => other

/-- SHA-256 compression of one 64-byte block into the hash state. -/
def compressBlock (h : List Nat) (block : List Nat) : List Nat :=
  let w := schedule (bytesToWordsBE block)
  let st := (shaK.zip w).foldl (fun s kw => shaRound s kw.1 kw.2) h
  (h.zip st).map (fun p => (p.1 + p.2) % 2 ^ 32)

/-- SHA-256 padding: append `0x80`, zeros, and the 64-bit big-endian bit
length, reaching a multiple of 64 bytes. -/
def padMessage (msg : List Nat) : List Nat :=
  let bits := msg.length * 8
  let zeros := (119 - msg.length % 64) % 64
  msg ++ [128] ++ List.replicate zeros 0 ++
    [bits >>> 56 % 256, bits >>> 48 % 256, bits >>> 40 % 256, bits >>> 32 % 256,
     bits >>> 24 % 256, bits >>> 16 % 256, bits >>> 8 % 256, bits % 256]

/-- Split a list into chunks of `k` elements (`fuel ≥ length` exhausts
the list; the last chunk may be short). -/
def chunksF {α : Type} : Nat → Nat → List α → List (List α)
  | 0, _, _ => []
  | fuel + 1, k, l => if l.isEmpty then [] else l.take k :: chunksF fuel k (l.drop k)

/-- SHA-256 of a byte list, as 32 big-endian bytes. -/
def sha256 (msg : List Nat) : List Nat :=
  let blocks := chunksF (padMessage msg).length 64 (padMessage msg)
  let hfin := blocks.foldl compressBlock shaH0
  hfin.foldr (fun w acc =>
    w >>> 24 % 256 :: w >>> 16 % 256 :: w >>> 8 % 256 :: w % 256 :: acc) []

-- Validation against `test_hash` in `merkle_tree.rs`:
-- SHA-256 of [1,2,3].
example :
    sha256 [1, 2, 3] =
      [0x03, 0x90, 0x58, 0xc6, 0xf2, 0xc0, 0xcb, 0x49, 0x2c, 0x53, 0x3b, 0x0a,
       0x4d, 0x14, 0xef, 0x77, 0xcc, 0x0f, 0x78, 0xab, 0xcc, 0xce, 0xd5, 0x28,
       0x7d, 0x84, 0xa1, 0xa2, 0x01, 0x1c, 0xfb, 0x81] := by decide

/-! ### `merkle_tree.rs` -/

/-- `hash` from `merkle_tree.rs` (SHA-256). -/
def hash (x : List Nat) : List Nat := sha256 x

/-- Kernel-reducible `Nat.log2` (the source casts through `f64::log2`,
exact on the powers of two used for tree sizes). -/
def natLog2 (n : Nat) : Nat := log2F n n

theorem natLog2_eq (n : Nat) : natLog2 n = Nat.log2 n := log2F_eq_log2 n n le_rfl

/-- The node at index `i` of the Merkle tree over `vals` (`1 ≤ i`,
filled by the downward loop of `merkelize`): leaves at
`i ≥ N` hold `hash (vals[i - N])`, internal nodes hash the
concatenation of their children.  `fuel ≥ N` suffices. -/
def merkNodeF (vals : List (List Nat)) : Nat → Nat → List Nat
  | 0, _ => []
  | fuel + 1, i =>
    if vals.length ≤ i then hash (vals.getD (i - vals.length) [])
    else hash (merkNodeF vals fuel (2 * i) ++ merkNodeF vals fuel (2 * i + 1))

/-- `merkelize` from `merkle_tree.rs`: `none` when the leaf-count
power-of-two assertion fails, otherwise the flat `2·N`-entry tree with
index 0 unused, index 1 the root, and `i` the parent of `2i, 2i+1`. -/
def merkelize (vals : List (List Nat)) : Option (List (List Nat)) :=
  if vals.length &&& (vals.length - 1) ≠ 0 then none
  else some ((List.range (2 * vals.length)).map (fun i =>
    if i = 0 then [] else merkNodeF vals (vals.length + 1) i))

/-- `get_root` from `merkle_tree.rs`. -/
def get_root (tree : List (List Nat)) : List Nat := tree.getD 1 []

/-- `get_branch` from `merkle_tree.rs`. -/
def get_branch (tree : List (List Nat)) (pos : Nat) : List (List Nat) :=
  let offset_pos := pos + tree.length / 2
  let branch_length := natLog2 tree.length - 1
  (List.range branch_length).map (fun i => tree.getD ((offset_pos >>> i) ^^^ 1) [])

/-- `verify_branch` from `merkle_tree.rs`. -/
def verify_branch (root : List Nat) (pos : Nat) (val : List Nat)
    (branch : List (List Nat)) : Bool :=
  let res := branch.foldl
    (fun (p : List Nat × Nat) b =>
      (if p.2 &&& 1 = 1 then hash (b ++ p.1) else hash (p.1 ++ b), p.2 / 2))
    (hash val, pos)
  res.1 == root

-- Validation against `test_merkelize` / `test_verify_branch`.
set_option maxRecDepth 4000 in
example :
    (merkelize [[1, 2], [3, 4]]).map (fun t => t.getD 1 []) =
      some [0xbe, 0xd3, 0xd3, 0x3a, 0x81, 0x02, 0x6f, 0x7b, 0xe9, 0x3a, 0xef,
            0xad, 0x44, 0xc5, 0x89, 0x1c, 0x27, 0xfc, 0x82, 0x65, 0xaa, 0x15,
            0x27, 0x9a, 0x58, 0xe2, 0x87, 0x74, 0x4b, 0x7c, 0x77, 0x53] := by
  decide

set_option maxRecDepth 4000 in
example :
    (merkelize [[1, 2], [3, 4]]).map
      (fun t => verify_branch (get_root t) 1 [3, 4] (get_branch t 1)) =
      some true := by decide

/-! ### `challenger.rs` -/

/-- `get_challenges` from `challenger.rs`: `n` query indices derived from
the root.  (`i as u8` is `i % 256`; the `u16` modulus is
`extended_row_length % 2^16`, and a zero modulus — a panic in Rust — can
not occur under the bounds assumed by the claims.) -/
def get_challenges (root : List Nat) (extended_row_length num_challenges : Nat) :
    List Nat :=
  (List.range num_challenges).map (fun i =>
    let h := hash (root ++ [i % 256])
    (h.getD 0 0 + 256 * h.getD 1 0) % (extended_row_length % 2 ^ 16))

-- Validation against `test_get_challenges`.
example : get_challenges [1, 2, 3, 4] 8 2 = [6, 0] := by decide

/-- Claim C9: for every root, every `extLen` with `1 ≤ extLen < 2^16`,
and every count `n`, `get_challenges root extLen n` returns exactly `n`
indices; the `i`-th equals the little-endian `u16` formed from the first
two bytes of `SHA-256(root ‖ byte(i))` reduced mod `extLen`; and every
returned index lies in `[0, extLen)`.  (Determinism is immediate:
`get_challenges` is a pure function of `(root, extLen, n)`.) -/
theorem get_challenges_spec (root : List Nat) (extLen n : Nat)
    (h1 : 1 ≤ extLen) (h2 : extLen < 2 ^ 16) :
    (get_challenges root extLen n).length = n ∧
    (∀ i, i < n →
      (get_challenges root extLen n).getD i 0 =
        ((sha256 (root ++ [i % 256])).getD 0 0 +
          256 * (sha256 (root ++ [i % 256])).getD 1 0) % extLen) ∧
    ∀ c ∈ get_challenges root extLen n, c < extLen := by
  have hmod : extLen % 2 ^ 16 = extLen := Nat.mod_eq_of_lt h2
  have hlen : (get_challenges root extLen n).length = n := by
    simp [get_challenges]
  refine ⟨hlen, ?_, ?_⟩
  · intro i hi
    rw [List.getD_eq_getElem _ _ (by omega)]
    simp only [get_challenges, List.getElem_map, List.getElem_range, hash, hmod]
  · intro c hc
    simp only [get_challenges, List.mem_map] at hc
    obtain ⟨i, -, rfl⟩ := hc
    rw [hmod]
    exact Nat.mod_lt _ (by omega)

/-- Witness for C9 at the inputs of `test_get_challenges`. -/
theorem get_challenges_spec_witness :
    (get_challenges [1, 2, 3, 4] 8 2).length = 2 ∧
    (∀ i, i < 2 →
      (get_challenges [1, 2, 3, 4] 8 2).getD i 0 =
        ((sha256 ([1, 2, 3, 4] ++ [i % 256])).getD 0 0 +
          256 * (sha256 ([1, 2, 3, 4] ++ [i % 256])).getD 1 0) % 8) ∧
    ∀ c ∈ get_challenges [1, 2, 3, 4] 8 2, c < 8 :=
  get_challenges_spec [1, 2, 3, 4] 8 2 (by decide) (by decide)

theorem log2_two_mul (N : Nat) (h : 1 ≤ N) : Nat.log2 (2 * N) = Nat.log2 N + 1 := by
  conv_lhs => rw [Nat.log2]
  rw [if_pos (by omega)]
  have h2 : 2 * N / 2 = N := by omega
  rw [h2]

/-- Claim C5 is false as stated: in the 2-leaf tree of
`test_verify_branch`, the branch at position 1 has 1 sibling hash,
not `log2 2 − 1 = 0`. -/
theorem get_branch_length_counterexample :
    (merkelize [[1, 2], [3, 4]]).map (fun t => (get_branch t 1).length) = some 1 ∧
    Nat.log2 2 - 1 = 0 := by
  constructor
  · set_option maxRecDepth 4000 in decide
  · have h2 : Nat.log2 2 = 1 := by rw [← natLog2_eq]; decide
    omega

/-- Claim C5 (amended): every branch produced by `get_branch` for a
`merkelize` tree with `extLen ≥ 1` leaves consists of exactly
`log2 extLen` sibling hashes (not `log2 extLen − 1`), entry `i` being
the sibling of the `i`-th ancestor of leaf slot `extLen + pos` — i.e.
ordered from the leaf level up to just below the root. -/
theorem get_branch_length_order (vals tree : List (List Nat)) (pos : Nat)
    (hN : 1 ≤ vals.length) (ht : merkelize vals = some tree) :
    (get_branch tree pos).length = Nat.log2 vals.length ∧
    ∀ i, i < Nat.log2 vals.length →
      (get_branch tree pos).getD i [] =
        tree.getD (((pos + vals.length) >>> i) ^^^ 1) [] := by
  have htlen : tree.length = 2 * vals.length := by
    unfold merkelize at ht
    by_cases hpow : vals.length &&& (vals.length - 1) ≠ 0
    · rw [if_pos hpow] at ht; cases ht
    · rw [if_neg hpow] at ht
      cases ht
      simp
  have hbl : natLog2 tree.length - 1 = Nat.log2 vals.length := by
    rw [natLog2_eq, htlen, log2_two_mul _ hN]
    omega
  have hoff : pos + tree.length / 2 = pos + vals.length := by omega
  have hlen2 : (get_branch tree pos).length = Nat.log2 vals.length := by
    rw [get_branch, List.length_map, List.length_range, hbl]
  constructor
  · exact hlen2
  · intro i hi
    rw [List.getD_eq_getElem _ _ (by rw [hlen2]; omega)]
    simp only [get_branch, hbl, hoff, List.getElem_map, List.getElem_range]

/-- Witness for the amended C5 on the concrete 2-leaf tree. -/
theorem get_branch_length_order_witness :
    (get_branch ((merkelize [[1, 2], [3, 4]]).getD []) 1).length = Nat.log2 2 :=
  (get_branch_length_order [[1, 2], [3, 4]]
    ((merkelize [[1, 2], [3, 4]]).getD []) 1 (by decide)
    (by set_option maxRecDepth 4000 in decide)).1

/-! ### `utils.rs`: `transpose_bits` (claim C6) -/

theorem getD_range (n i d : Nat) (h : i < n) : (List.range n).getD i d = i := by
  rw [List.getD_eq_getElem _ _ (by simpa using h)]
  simp

theorem getD_replicate {α : Type} (n : Nat) (a d : α) (i : Nat) (h : i < n) :
    (List.replicate n a).getD i d = a := by
  rw [List.getD_eq_getElem _ _ (by simpa using h)]
  simp

/-- In-place update of cell `(r, c)` of a vector-of-vectors by `f`
(no-op out of range, as the loops below never leave the allocated
rectangle). -/
def upd2 (m : List (List Nat)) (r c : Nat) (f : Nat → Nat) : List (List Nat) :=
  m.set r ((m.getD r []).set c (f ((m.getD r []).getD c 0)))

theorem upd2_length (m : List (List Nat)) (r c : Nat) (f : Nat → Nat) :
    (upd2 m r c f).length = m.length := by
  simp [upd2]

theorem getD_set_self {α : Type} (l : List α) (i : Nat) (a d : α)
    (h : i < l.length) : (l.set i a).getD i d = a := by
  rw [List.getD_eq_getElem _ _ (by simpa using h)]
  exact List.getElem_set_self (by simpa using h)

theorem getD_set_ne {α : Type} (l : List α) (i j : Nat) (a d : α)
    (h : i ≠ j) : (l.set i a).getD j d = l.getD j d := by
  by_cases hj : j < l.length
  · rw [List.getD_eq_getElem _ _ (by simpa using hj),
      List.getD_eq_getElem _ _ hj]
    exact List.getElem_set_ne h (by simpa using hj)
  · rw [List.getD_eq_default _ _ (by simpa using not_lt.mp hj),
      List.getD_eq_default _ _ (by simpa using not_lt.mp hj)]

theorem upd2_getD (m : List (List Nat)) (r c : Nat) (f : Nat → Nat) (j : Nat) :
    (upd2 m r c f).getD j [] =
      if j = r ∧ r < m.length then
        (m.getD r []).set c (f ((m.getD r []).getD c 0))
      else m.getD j [] := by
  by_cases hr : r < m.length
  · by_cases hj : j = r
    · subst hj
      rw [if_pos ⟨rfl, hr⟩, upd2, getD_set_self _ _ _ _ hr]
    · rw [if_neg (by tauto), upd2, getD_set_ne _ _ _ _ _ (by omega)]
  · rw [if_neg (by tauto), upd2, List.set_eq_of_length_le (by omega)]

/-- `transpose_bits` from `utils.rs`: the input is an `r × c` matrix of
bits (`u8` values), the output is a `c × ⌈r/8⌉` byte matrix built by
`output[j][i/8] |= input[i][j] << ((r - 1 - i) % 8)` (`u8` arithmetic,
hence the `% 256`). -/
def transpose_bits (input : List (List Nat)) : List (List Nat) :=
  let r := input.length
  let cols := (input.getD 0 []).length
  (List.range r).foldl
    (fun o i =>
      (List.range cols).foldl
        (fun oo j =>
          upd2 oo j (i / 8)
            (fun b => b ||| ((input.getD i []).getD j 0 <<< ((r - 1 - i) % 8)) % 256))
        o)
    (List.replicate cols (List.replicate ((r + 7) / 8) 0))

-- Validation against `test_transpose_bits` (the first output row of the
-- transpose of the 2×32 bit matrix of `[[1,3],[9,15]]` is `[3]`).
example :
    (transpose_bits
        [[1, 0, 0, 0, 0, 0, 0, 0, 0, 0, 0, 0, 0, 0, 0, 0,
          1, 1, 0, 0, 0, 0, 0, 0, 0, 0, 0, 0, 0, 0, 0, 0],
         [1, 0, 0, 1, 0, 0, 0, 0, 0, 0, 0, 0, 0, 0, 0, 0,
          1, 1, 1, 1, 0, 0, 0, 0, 0, 0, 0, 0, 0, 0, 0, 0]]).getD 0 [] = [3] := by
  decide

/-- Claim C6 is false as stated: for the 2×1 bit matrix `[[1],[0]]`,
applying `transpose_bits` twice yields the 1×1 matrix `[[2]]`, which is
not the original matrix — it does not even have the original row count,
so no reading "up to padding to byte boundaries" can equate them
(padding cannot remove rows). -/
theorem transpose_bits_involution_counterexample :
    transpose_bits (transpose_bits [[1], [0]]) = [[2]] ∧
    transpose_bits (transpose_bits [[1], [0]]) ≠ [[1], [0]] ∧
    (transpose_bits (transpose_bits [[1], [0]])).length ≠
      ([[1], [0]] : List (List Nat)).length := by
  refine ⟨by decide, by decide, by decide⟩

/-- OR of `f 0, …, f (n-1)`. -/
def orRange (f : Nat → Nat) : Nat → Nat
  | 0 => 0
  | n + 1 => orRange f n ||| f n

theorem orRange_testBit (f : Nat → Nat) (n t : Nat) :
    (orRange f n).testBit t = true ↔ ∃ i, i < n ∧ (f i).testBit t = true := by
  induction n with
  | zero => simp [orRange]
  | succ m ih =>
    rw [orRange, Nat.testBit_lor, Bool.or_eq_true, ih]
    constructor
    · rintro (⟨i, hi, hb⟩ | hb)
      · exact ⟨i, by omega, hb⟩
      · exact ⟨m, by omega, hb⟩
    · rintro ⟨i, hi, hb⟩
      by_cases him : i = m
      · subst him; exact Or.inr hb
      · exact Or.inl ⟨i, by omega, hb⟩

/-- A single output row of `transpose_bits`, built by folding byte
updates over the input rows. -/
theorem foldl_set_or_spec (f : Nat → Nat) (len : Nat) :
    ∀ (k : Nat) (init : List Nat), (∀ i, i < k → i / 8 < len) →
      init.length = len →
      ((List.range k).foldl
          (fun row i => row.set (i / 8) (row.getD (i / 8) 0 ||| f i)) init).length
        = len ∧
      ∀ b, ((List.range k).foldl
          (fun row i => row.set (i / 8) (row.getD (i / 8) 0 ||| f i)) init).getD b 0
        = init.getD b 0 ||| orRange (fun i => if i / 8 = b then f i else 0) k := by
  intro k
  induction k with
  | zero => intro init _ hlen; exact ⟨hlen, fun b => by simp [orRange]⟩
  | succ m ih =>
    intro init hin hlen
    obtain ⟨ihlen, ihget⟩ := ih init (fun i hi => hin i (by omega)) hlen
    rw [List.range_succ, List.foldl_append]
    set prev := (List.range m).foldl
      (fun row i => row.set (i / 8) (row.getD (i / 8) 0 ||| f i)) init with hprev
    refine ⟨by simpa using ihlen, fun b => ?_⟩
    simp only [List.foldl_cons, List.foldl_nil]
    by_cases hb : b = m / 8
    · subst hb
      rw [getD_set_self _ _ _ _ (by rw [ihlen]; exact hin m (by omega)),
        ihget, orRange, if_pos rfl, Nat.or_assoc]
    · rw [getD_set_ne _ _ _ _ _ (by omega), ihget, orRange,
        if_neg (by omega), Nat.or_zero]

theorem foldl_upd2_rows (cv : Nat → Nat) (b : Nat) (cols : Nat) :
    ∀ o : List (List Nat),
      ((List.range cols).foldl (fun oo j => upd2 oo j b fun x => x ||| cv j) o).length
        = o.length ∧
      ∀ j, ((List.range cols).foldl (fun oo j => upd2 oo j b fun x => x ||| cv j) o).getD j []
        = if j < cols ∧ j < o.length then
            (o.getD j []).set b ((o.getD j []).getD b 0 ||| cv j)
          else o.getD j [] := by
  induction cols with
  | zero => intro o; exact ⟨rfl, fun j => by simp⟩
  | succ m ih =>
    intro o
    obtain ⟨ihlen, ihget⟩ := ih o
    rw [List.range_succ, List.foldl_append]
    simp only [List.foldl_cons, List.foldl_nil]
    set prev := (List.range m).foldl (fun oo j => upd2 oo j b fun x => x ||| cv j) o
      with hprev
    have hprevm : prev.getD m [] = o.getD m [] := by
      rw [ihget m, if_neg (by omega)]
    constructor
    · rw [upd2_length, ihlen]
    · intro j
      rw [upd2_getD, ihlen, hprevm]
      by_cases hj : j = m
      · subst hj
        by_cases hm : j < o.length
        · rw [if_pos ⟨rfl, hm⟩, if_pos ⟨by omega, hm⟩]
        · rw [if_neg (by tauto), ihget, if_neg (by omega), if_neg (by omega)]
      · rw [if_neg (by tauto), ihget]
        by_cases hjm : j < m ∧ j < o.length
        · rw [if_pos hjm, if_pos ⟨by omega, hjm.2⟩]
        · rw [if_neg hjm, if_neg (by omega)]

theorem foldl_outer_char (cv : Nat → Nat → Nat) (bfun : Nat → Nat) (cols : Nat) :
    ∀ (k : Nat) (o : List (List Nat)),
      ((List.range k).foldl
          (fun acc i => (List.range cols).foldl
            (fun oo j => upd2 oo j (bfun i) fun x => x ||| cv i j) acc) o).length
        = o.length ∧
      ∀ j, ((List.range k).foldl
          (fun acc i => (List.range cols).foldl
            (fun oo j => upd2 oo j (bfun i) fun x => x ||| cv i j) acc) o).getD j []
        = if j < cols ∧ j < o.length then
            (List.range k).foldl
              (fun row i => row.set (bfun i) (row.getD (bfun i) 0 ||| cv i j))
              (o.getD j [])
          else o.getD j [] := by
  intro k
  induction k with
  | zero => intro o; exact ⟨rfl, fun j => by simp⟩
  | succ m ih =>
    intro o
    obtain ⟨ihlen, ihget⟩ := ih o
    rw [List.range_succ, List.foldl_append]
    simp only [List.foldl_cons, List.foldl_nil]
    set prev := (List.range m).foldl
      (fun acc i => (List.range cols).foldl
        (fun oo j => upd2 oo j (bfun i) fun x => x ||| cv i j) acc) o with hprev
    obtain ⟨innlen, innget⟩ := foldl_upd2_rows (cv m) (bfun m) cols prev
    constructor
    · rw [innlen, ihlen]
    · intro j
      rw [innget j, ihlen, ihget j]
      by_cases hj : j < cols ∧ j < o.length
      · rw [if_pos hj, if_pos hj, if_pos hj, List.foldl_append]
        simp only [List.foldl_cons, List.foldl_nil]
      · rw [if_neg hj, if_neg hj, if_neg hj]

theorem shiftRight_and_one (x n : Nat) :
    (x >>> n) &&& 1 = if x.testBit n then 1 else 0 := by
  rw [Nat.shiftRight_eq_div_pow, Nat.and_one_is_mod, Nat.testBit_to_div_mod]
  rcases Nat.mod_two_eq_zero_or_one (x / 2 ^ n) with h | h <;> simp [h]

/-- Claim C6 (amended): `transpose_bits` is not an involution, but it is
the prescribed lossless bit transposition: for an `r × c` bit matrix `M`
(entries 0/1, `r ≥ 1`), the output has `c` rows of `⌈r/8⌉` bytes each
and bit `((r−1−i) mod 8)` of byte `i/8` of output row `j` equals
`M[i][j]` — so `M` is recoverable from `transpose_bits M` up to padding
to byte boundaries. -/
theorem transpose_bits_spec (input : List (List Nat)) (cols : Nat)
    (hr : 1 ≤ input.length)
    (hrect : ∀ row ∈ input, row.length = cols)
    (hbits : ∀ row ∈ input, ∀ x ∈ row, x ≤ 1) :
    (transpose_bits input).length = cols ∧
    (∀ j, j < cols → ((transpose_bits input).getD j []).length =
      (input.length + 7) / 8) ∧
    (∀ i j, i < input.length → j < cols →
      ((((transpose_bits input).getD j []).getD (i / 8) 0 >>>
        ((input.length - 1 - i) % 8)) &&& 1) = (input.getD i []).getD j 0) := by
  have hc0 : (input.getD 0 []).length = cols := by
    rw [List.getD_eq_getElem _ _ (by omega)]
    exact hrect _ (List.getElem_mem (by omega))
  set r := input.length with hrdef
  set bytes := (r + 7) / 8 with hbytes
  set cv : Nat → Nat → Nat :=
    fun i j => ((input.getD i []).getD j 0 <<< ((r - 1 - i) % 8)) % 256 with hcv
  obtain ⟨olen, oget⟩ := foldl_outer_char cv (fun i => i / 8) cols r
    (List.replicate cols (List.replicate bytes 0))
  have htb : transpose_bits input = (List.range r).foldl
      (fun acc i => (List.range cols).foldl
        (fun oo j => upd2 oo j (i / 8) fun x => x ||| cv i j) acc)
      (List.replicate cols (List.replicate bytes 0)) := by
    rw [transpose_bits, hc0]
  have hdiv : ∀ i, i < r → i / 8 < bytes := by intro i hi; omega
  have hrowchar : ∀ j, j < cols →
      (transpose_bits input).getD j [] = (List.range r).foldl
        (fun row i => row.set (i / 8) (row.getD (i / 8) 0 ||| cv i j))
        (List.replicate bytes 0) := by
    intro j hj
    rw [htb, oget j, if_pos ⟨hj, by simpa using hj⟩,
      getD_replicate _ _ _ _ hj]
  have hbit : ∀ i j, i < r → j < cols →
      ((((transpose_bits input).getD j []).getD (i / 8) 0 >>>
        ((r - 1 - i) % 8)) &&& 1) = (input.getD i []).getD j 0 := by
    intro i j hi hj
    obtain ⟨rlen, rget⟩ := foldl_set_or_spec (fun i => cv i j) bytes r
      (List.replicate bytes 0) hdiv (by simp)
    have hMle : (input.getD i []).getD j 0 ≤ 1 := by
      have hrow : input.getD i [] ∈ input := by
        rw [List.getD_eq_getElem _ _ hi]
        exact List.getElem_mem hi
      have hjr : j < (input.getD i []).length := by rw [hrect _ hrow]; exact hj
      exact hbits _ hrow _ (by
        rw [List.getD_eq_getElem _ _ hjr]
        exact List.getElem_mem hjr)
    rw [hrowchar j hj, rget (i / 8), getD_replicate _ _ _ _ (hdiv i hi), Nat.zero_or,
      shiftRight_and_one]
    have hcontrib : ∀ iq, iq < r →
        (((if iq / 8 = i / 8 then cv iq j else 0).testBit ((r - 1 - i) % 8) = true) ↔
          (iq = i ∧ (input.getD i []).getD j 0 = 1)) := by
      intro iq hiq
      by_cases heq : iq / 8 = i / 8
      · rw [if_pos heq]
        simp only [hcv]
        have hMq : (input.getD iq []).getD j 0 ≤ 1 := by
          have hrow : input.getD iq [] ∈ input := by
            rw [List.getD_eq_getElem _ _ hiq]
            exact List.getElem_mem hiq
          have hjr : j < (input.getD iq []).length := by rw [hrect _ hrow]; exact hj
          exact hbits _ hrow _ (by
            rw [List.getD_eq_getElem _ _ hjr]
            exact List.getElem_mem hjr)
        rcases Nat.le_one_iff_eq_zero_or_eq_one.mp hMq with h0 | h1
        · rw [h0]
          simp only [Nat.zero_shiftLeft, Nat.zero_mod]
          refine ⟨fun h => absurd h (by simp), ?_⟩
          rintro ⟨hiqi, hM1⟩
          subst hiqi
          omega
        · rw [h1]
          have hsh : (1 : Nat) <<< ((r - 1 - iq) % 8) = 2 ^ ((r - 1 - iq) % 8) := by
            rw [Nat.shiftLeft_eq, one_mul]
          rw [hsh, Nat.mod_eq_of_lt (by
            have : (r - 1 - iq) % 8 < 8 := Nat.mod_lt _ (by norm_num)
            calc 2 ^ ((r - 1 - iq) % 8) ≤ 2 ^ 7 :=
                  Nat.pow_le_pow_right (by norm_num) (by omega)
              _ < 256 := by norm_num)]
          by_cases hiqi : iq = i
          · subst hiqi
            exact ⟨fun _ => ⟨rfl, h1⟩, fun _ => Nat.testBit_two_pow_self⟩
          · rw [Nat.testBit_two_pow_of_ne (by omega)]
            refine ⟨fun h => absurd h (by simp), ?_⟩
            rintro ⟨h, -⟩
            exact absurd h hiqi
      · rw [if_neg heq]
        refine ⟨fun h => absurd h (by simp), ?_⟩
        rintro ⟨hiqi, -⟩
        subst hiqi
        exact absurd rfl heq
    rcases Nat.le_one_iff_eq_zero_or_eq_one.mp hMle with h0 | h1
    · rw [h0, if_neg]
      rw [orRange_testBit]
      push_neg
      intro iq hiq
      intro hbt
      obtain ⟨hiqi, hM1⟩ := (hcontrib iq hiq).mp hbt
      omega
    · rw [h1, if_pos]
      rw [orRange_testBit]
      exact ⟨i, hi, (hcontrib i hi).mpr ⟨rfl, h1⟩⟩
  refine ⟨by rw [htb, olen]; simp, ?_, hbit⟩
  intro j hj
  obtain ⟨rlen, rget⟩ := foldl_set_or_spec (fun i => cv i j) bytes r
    (List.replicate bytes 0) hdiv (by simp)
  rw [hrowchar j hj, rlen]

/-- Witness for the amended C6 at the 2×2 identity bit matrix. -/
theorem transpose_bits_spec_witness :
    (transpose_bits [[1, 0], [0, 1]]).length = 2 ∧
    (∀ j, j < 2 → ((transpose_bits [[1, 0], [0, 1]]).getD j []).length =
      (([[1, 0], [0, 1]] : List (List Nat)).length + 7) / 8) ∧
    (∀ i j, i < ([[1, 0], [0, 1]] : List (List Nat)).length → j < 2 →
      ((((transpose_bits [[1, 0], [0, 1]]).getD j []).getD (i / 8) 0 >>>
        ((([[1, 0], [0, 1]] : List (List Nat)).length - 1 - i) % 8)) &&& 1) =
        (([[1, 0], [0, 1]] : List (List Nat)).getD i []).getD j 0) :=
  transpose_bits_spec [[1, 0], [0, 1]] 2 (by decide) (by decide) (by decide)

/-! ### The abstract binary tower field: `bin_mul` is GF(2^(2^k)) multiplication -/

/-- Multiplication at tower level `k`: `bin_mul` at length `2^k`
(operands are `2^k`-bit values). -/
def tmul (k a b : Nat) : Nat := binMulF (2 ^ k) (2 ^ k) a b

theorem binMulF_base (f L a b : Nat) (h : a < 2 ∨ b < 2) :
    binMulF f L a b = a * b := by
  cases f with
  | zero => rfl
  | succ f => rw [binMulF, if_pos h]

theorem tmul_base (k a b : Nat) (h : a < 2 ∨ b < 2) : tmul k a b = a * b :=
  binMulF_base _ _ _ _ h

/-- The general Karatsuba combination of `bin_mul` at level `k+1`,
written with level-`k` multiplications. -/
def karat (k a b : Nat) : Nat :=
  let l1 := a &&& (2 ^ 2 ^ k - 1)
  let r1 := a >>> 2 ^ k
  let l2 := b &&& (2 ^ 2 ^ k - 1)
  let r2 := b >>> 2 ^ k
  let l1l2 := tmul k l1 l2
  let r1r2 := tmul k r1 r2
  let r1r2_high := tmul k (1 <<< (2 ^ (k + 1) / 4)) r1r2
  let z3 := tmul k (l1 ^^^ r1) (l2 ^^^ r2)
  l1l2 ^^^ r1r2 ^^^ ((z3 ^^^ l1l2 ^^^ r1r2 ^^^ r1r2_high) <<< 2 ^ k)

theorem two_pow_succ_div_two (k : Nat) : 2 ^ (k + 1) / 2 = 2 ^ k := by
  rw [pow_succ]
  omega

theorem two_pow_sq (k : Nat) : 2 ^ 2 ^ (k + 1) = 2 ^ 2 ^ k * 2 ^ 2 ^ k := by
  rw [← pow_add]
  congr 1
  rw [pow_succ]
  omega

theorem quarter_lt (k : Nat) : 2 ^ (k + 1) / 4 < 2 ^ k := by
  induction k with
  | zero => decide
  | succ m ih =>
    have h1 : 2 ^ (m + 2) = 2 * 2 ^ (m + 1) := by rw [pow_succ]; omega
    have h2 : 2 ^ (m + 1) = 2 * 2 ^ m := by rw [pow_succ]; omega
    omega

theorem and_mask_lt (a k : Nat) : a &&& (2 ^ k - 1) < 2 ^ k :=
  Nat.lt_of_le_of_lt Nat.and_le_right (by have := Nat.pos_pow_of_pos k (by norm_num : 0 < 2); omega)

theorem shiftRight_lt (a h : Nat) (ha : a < 2 ^ h * 2 ^ h) : a >>> h < 2 ^ h := by
  rw [Nat.shiftRight_eq_div_pow]
  exact Nat.div_lt_of_lt_mul (by omega)

theorem one_shiftLeft_lt (k : Nat) : 1 <<< (2 ^ (k + 1) / 4) < 2 ^ 2 ^ k := by
  rw [Nat.shiftLeft_eq, one_mul]
  exact Nat.pow_lt_pow_right (by norm_num) (quarter_lt k)

/-- Fuel-irrelevance and closure of `binMulF` at power-of-two lengths:
any fuel `≥ 2^k` computes `tmul k`, and the result is again a
`2^k`-bit value. -/
theorem binMulF_level :
    ∀ k f, 2 ^ k ≤ f → ∀ a b, a < 2 ^ 2 ^ k → b < 2 ^ 2 ^ k →
      binMulF f (2 ^ k) a b = tmul k a b ∧ binMulF f (2 ^ k) a b < 2 ^ 2 ^ k := by
  intro k
  induction k with
  | zero =>
    intro f _ a b ha hb
    have ha2 : a < 2 := by simpa using ha
    have hb2 : b < 2 := by simpa using hb
    have h : a < 2 ∨ b < 2 := Or.inl ha2
    rw [binMulF_base _ _ _ _ h, tmul_base _ _ _ h]
    refine ⟨rfl, ?_⟩
    have hmul : a * b ≤ 1 * 1 := Nat.mul_le_mul (by omega) (by omega)
    show a * b < 2 ^ 2 ^ 0
    norm_num
    omega
  | succ k ih =>
    intro f hf a b ha hb
    have hpos : 0 < 2 ^ 2 ^ (k + 1) := pow_pos (by norm_num) _
    by_cases hbase : a < 2 ∨ b < 2
    · rw [binMulF_base _ _ _ _ hbase, tmul_base _ _ _ hbase]
      refine ⟨rfl, ?_⟩
      rcases hbase with h | h
      · interval_cases a
        · simpa using hpos
        · simpa using hb
      · interval_cases b
        · simpa using hpos
        · simpa using ha
    · -- general and fast path: any sufficient fuel computes `karat`
      have hasq : a < 2 ^ 2 ^ k * 2 ^ 2 ^ k := by rw [← two_pow_sq]; exact ha
      have hbsq : b < 2 ^ 2 ^ k * 2 ^ 2 ^ k := by rw [← two_pow_sq]; exact hb
      have hl1 := and_mask_lt a (2 ^ k)
      have hl2 := and_mask_lt b (2 ^ k)
      have hr1 := shiftRight_lt a (2 ^ k) hasq
      have hr2 := shiftRight_lt b (2 ^ k) hbsq
      have hq := one_shiftLeft_lt k
      have hxa := Nat.xor_lt_two_pow hl1 hr1
      have hxb := Nat.xor_lt_two_pow hl2 hr2
      have hXL : tmul k (a &&& (2 ^ 2 ^ k - 1)) (b &&& (2 ^ 2 ^ k - 1)) < 2 ^ 2 ^ k :=
        (ih (2 ^ k) le_rfl _ _ hl1 hl2).2
      have hXR : tmul k (a >>> 2 ^ k) (b >>> 2 ^ k) < 2 ^ 2 ^ k :=
        (ih (2 ^ k) le_rfl _ _ hr1 hr2).2
      have hXH : tmul k (1 <<< (2 ^ (k + 1) / 4))
          (tmul k (a >>> 2 ^ k) (b >>> 2 ^ k)) < 2 ^ 2 ^ k :=
        (ih (2 ^ k) le_rfl _ _ hq hXR).2
      have hXZ : tmul k ((a &&& (2 ^ 2 ^ k - 1)) ^^^ a >>> 2 ^ k)
          ((b &&& (2 ^ 2 ^ k - 1)) ^^^ b >>> 2 ^ k) < 2 ^ 2 ^ k :=
        (ih (2 ^ k) le_rfl _ _ hxa hxb).2
      have h2kpos : 0 < 2 ^ k := pow_pos (by norm_num) k
      have key : ∀ g, 2 ^ k < g → binMulF g (2 ^ (k + 1)) a b = karat k a b := by
        intro g hg
        obtain ⟨f1, rfl⟩ : ∃ f1, g = f1 + 1 := ⟨g - 1, by omega⟩
        have hf1 : 2 ^ k ≤ f1 := by omega
        rw [binMulF, if_neg hbase]
        simp only [two_pow_succ_div_two k]
        by_cases hfast : a &&& (2 ^ 2 ^ k - 1) = 0 ∧ a >>> 2 ^ k = 1
        · rw [if_pos hfast]
          simp only [karat]
          rw [(ih f1 hf1 _ _ hq hr2).1]
          simp only [hfast.1, hfast.2, Nat.zero_xor]
          rw [tmul_base k 0 _ (Or.inl (by norm_num)),
            tmul_base k 1 _ (Or.inl (by norm_num)),
            tmul_base k 1 _ (Or.inl (by norm_num))]
          simp only [Nat.zero_mul, Nat.one_mul, Nat.zero_xor, Nat.xor_zero]
          congr 1
          congr 1
          rw [Nat.xor_assoc (b &&& (2 ^ 2 ^ k - 1)) (b >>> 2 ^ k) (b >>> 2 ^ k),
            Nat.xor_self, Nat.xor_zero, Nat.xor_comm]
        · rw [if_neg hfast]
          simp only [karat]
          rw [(ih f1 hf1 _ _ hl1 hl2).1, (ih f1 hf1 _ _ hr1 hr2).1,
            (ih f1 hf1 _ _ hq hXR).1, (ih f1 hf1 _ _ hxa hxb).1]
      have hbound : karat k a b < 2 ^ 2 ^ (k + 1) := by
        simp only [karat]
        have hY : ((tmul k ((a &&& (2 ^ 2 ^ k - 1)) ^^^ a >>> 2 ^ k)
              ((b &&& (2 ^ 2 ^ k - 1)) ^^^ b >>> 2 ^ k) ^^^
            tmul k (a &&& (2 ^ 2 ^ k - 1)) (b &&& (2 ^ 2 ^ k - 1)) ^^^
            tmul k (a >>> 2 ^ k) (b >>> 2 ^ k) ^^^
            tmul k (1 <<< (2 ^ (k + 1) / 4)) (tmul k (a >>> 2 ^ k) (b >>> 2 ^ k)))) <
            2 ^ 2 ^ k :=
          Nat.xor_lt_two_pow (Nat.xor_lt_two_pow (Nat.xor_lt_two_pow hXZ hXL) hXR) hXH
        have hshift : ∀ y : Nat, y < 2 ^ 2 ^ k →
            y <<< 2 ^ k < 2 ^ 2 ^ (k + 1) := by
          intro y hy
          rw [Nat.shiftLeft_eq, two_pow_sq]
          calc y * 2 ^ 2 ^ k < 2 ^ 2 ^ k * 2 ^ 2 ^ k :=
            Nat.mul_lt_mul_of_lt_of_le hy le_rfl (pow_pos (by norm_num) _)
            _ ≤ 2 ^ 2 ^ k * 2 ^ 2 ^ k := le_rfl
        refine Nat.xor_lt_two_pow (Nat.lt_of_lt_of_le (Nat.xor_lt_two_pow hXL hXR) ?_)
          (hshift _ hY)
        exact Nat.pow_le_pow_right (by norm_num) (Nat.pow_le_pow_right (by norm_num) (by omega))
      have hp21 : 0 < 2 ^ (k + 1) := pow_pos (by norm_num) _
      have hlt : 2 ^ k < 2 ^ (k + 1) := Nat.pow_lt_pow_right (by norm_num) (Nat.lt_succ_self k)
      have h1 : binMulF f (2 ^ (k + 1)) a b = karat k a b := key f (by omega)
      have h2 : tmul (k + 1) a b = karat k a b := key (2 ^ (k + 1)) hlt
      rw [h1, h2]
      exact ⟨rfl, hbound⟩

theorem tmul_eq_of_fuel (k f a b : Nat) (hf : 2 ^ k ≤ f)
    (ha : a < 2 ^ 2 ^ k) (hb : b < 2 ^ 2 ^ k) :
    binMulF f (2 ^ k) a b = tmul k a b :=
  (binMulF_level k f hf a b ha hb).1

theorem tmul_lt (k a b : Nat) (ha : a < 2 ^ 2 ^ k) (hb : b < 2 ^ 2 ^ k) :
    tmul k a b < 2 ^ 2 ^ k :=
  (binMulF_level k (2 ^ k) le_rfl a b ha hb).2

/-- Unfold `tmul` at level `k+1` into the general Karatsuba combination
of level-`k` multiplications (the fast path and base cases agree with
it). -/
theorem tmul_succ (k a b : Nat) (ha : a < 2 ^ 2 ^ (k + 1)) (hb : b < 2 ^ 2 ^ (k + 1))
    (hbase : ¬(a < 2 ∨ b < 2)) :
    tmul (k + 1) a b = karat k a b := by
  have hasq : a < 2 ^ 2 ^ k * 2 ^ 2 ^ k := by rw [← two_pow_sq]; exact ha
  have hbsq : b < 2 ^ 2 ^ k * 2 ^ 2 ^ k := by rw [← two_pow_sq]; exact hb
  have hl1 := and_mask_lt a (2 ^ k)
  have hl2 := and_mask_lt b (2 ^ k)
  have hr1 := shiftRight_lt a (2 ^ k) hasq
  have hr2 := shiftRight_lt b (2 ^ k) hbsq
  have hq := one_shiftLeft_lt k
  have hxa := Nat.xor_lt_two_pow hl1 hr1
  have hxb := Nat.xor_lt_two_pow hl2 hr2
  have hXR : tmul k (a >>> 2 ^ k) (b >>> 2 ^ k) < 2 ^ 2 ^ k := tmul_lt _ _ _ hr1 hr2
  have h2kpos : 0 < 2 ^ k := pow_pos (by norm_num) k
  obtain ⟨f1, hf1eq⟩ : ∃ f1, 2 ^ (k + 1) = f1 + 1 := ⟨2 ^ (k + 1) - 1, by
    have := pow_pos (show 0 < 2 by norm_num) (k + 1); omega⟩
  have hf1 : 2 ^ k ≤ f1 := by
    have : 2 ^ k < 2 ^ (k + 1) := Nat.pow_lt_pow_right (by norm_num) (Nat.lt_succ_self k)
    omega
  show binMulF (2 ^ (k + 1)) (2 ^ (k + 1)) a b = karat k a b
  rw [hf1eq, binMulF, if_neg hbase]
  simp only [← hf1eq, two_pow_succ_div_two k]
  by_cases hfast : a &&& (2 ^ 2 ^ k - 1) = 0 ∧ a >>> 2 ^ k = 1
  · rw [if_pos hfast]
    simp only [karat]
    rw [tmul_eq_of_fuel k f1 _ _ hf1 hq hr2]
    simp only [hfast.1, hfast.2, Nat.zero_xor]
    rw [tmul_base k 0 _ (Or.inl (by norm_num)),
      tmul_base k 1 _ (Or.inl (by norm_num)),
      tmul_base k 1 _ (Or.inl (by norm_num))]
    simp only [Nat.zero_mul, Nat.one_mul, Nat.zero_xor, Nat.xor_zero]
    congr 1
    congr 1
    rw [Nat.xor_assoc (b &&& (2 ^ 2 ^ k - 1)) (b >>> 2 ^ k) (b >>> 2 ^ k),
      Nat.xor_self, Nat.xor_zero, Nat.xor_comm]
  · rw [if_neg hfast]
    simp only [karat]
    rw [tmul_eq_of_fuel k f1 _ _ hf1 hl1 hl2, tmul_eq_of_fuel k f1 _ _ hf1 hr1 hr2,
      tmul_eq_of_fuel k f1 _ _ hf1 hq hXR, tmul_eq_of_fuel k f1 _ _ hf1 hxa hxb]

/-- Small operands: level `k+1` multiplication agrees with level `k`. -/
theorem tmul_widen (k a b : Nat) (ha : a < 2 ^ 2 ^ k) (hb : b < 2 ^ 2 ^ k) :
    tmul (k + 1) a b = tmul k a b := by
  by_cases hbase : a < 2 ∨ b < 2
  · rw [tmul_base _ _ _ hbase, tmul_base _ _ _ hbase]
  · have hmono : (2 : Nat) ^ 2 ^ k ≤ 2 ^ 2 ^ (k + 1) :=
      Nat.pow_le_pow_right (by norm_num)
        (Nat.pow_le_pow_right (by norm_num) (by omega))
    rw [tmul_succ k a b (lt_of_lt_of_le ha hmono) (lt_of_lt_of_le hb hmono) hbase]
    have hl1 : a &&& (2 ^ 2 ^ k - 1) = a := by
      rw [Nat.and_pow_two_sub_one_eq_mod, Nat.mod_eq_of_lt ha]
    have hl2 : b &&& (2 ^ 2 ^ k - 1) = b := by
      rw [Nat.and_pow_two_sub_one_eq_mod, Nat.mod_eq_of_lt hb]
    have hr1 : a >>> 2 ^ k = 0 := by
      rw [Nat.shiftRight_eq_div_pow]; exact Nat.div_eq_of_lt ha
    have hr2 : b >>> 2 ^ k = 0 := by
      rw [Nat.shiftRight_eq_div_pow]; exact Nat.div_eq_of_lt hb
    simp only [karat, hl1, hl2, hr1, hr2, Nat.xor_zero]
    rw [tmul_base k 0 0 (Or.inl (by norm_num)),
      tmul_base k _ 0 (Or.inr (by norm_num))]
    simp only [Nat.mul_zero, Nat.xor_zero, Nat.xor_self, Nat.zero_shiftLeft, Nat.xor_zero]

theorem tmul_widen_le (j k a b : Nat) (hjk : j ≤ k)
    (ha : a < 2 ^ 2 ^ j) (hb : b < 2 ^ 2 ^ j) :
    tmul k a b = tmul j a b := by
  induction k, hjk using Nat.le_induction with
  | base => rfl
  | succ m hjm ih =>
    have hmono : (2 : Nat) ^ 2 ^ j ≤ 2 ^ 2 ^ m :=
      Nat.pow_le_pow_right (by norm_num)
        (Nat.pow_le_pow_right (by norm_num) hjm)
    rw [tmul_widen m a b (lt_of_lt_of_le ha hmono) (lt_of_lt_of_le hb hmono), ih]

/-! ### `bitLen` facts and the derived-length entry point -/

theorem bitLen_lt_pow (x : Nat) : x < 2 ^ bitLen x := by
  rw [bitLen_eq]
  by_cases h : x = 0
  · simp [h]
  · rw [if_neg h, Nat.log2_eq_log_two]
    exact Nat.lt_pow_succ_log_self (by norm_num) x

theorem bitLen_le_of_lt (x t : Nat) (h : x < 2 ^ t) : bitLen x ≤ t := by
  rw [bitLen_eq]
  by_cases h0 : x = 0
  · simp [h0]
  · rw [if_neg h0, Nat.log2_eq_log_two]
    have := (Nat.lt_pow_iff_log_lt (by norm_num : 1 < 2) h0).mp h
    omega

theorem bitLen_mono (x y : Nat) (h : x ≤ y) : bitLen x ≤ bitLen y := by
  rw [bitLen_eq, bitLen_eq]
  by_cases h0 : x = 0
  · simp [h0]
  · rw [if_neg h0, if_neg (by omega)]
    rw [Nat.log2_eq_log_two, Nat.log2_eq_log_two]
    have := Nat.log_mono_right (b := 2) h
    omega

theorem bitLen_two_pow_sub_one (k : Nat) : bitLen (2 ^ k - 1) = k := by
  cases k with
  | zero => simp [bitLen]
  | succ m =>
    have hpos : 1 ≤ 2 ^ (m + 1) - 1 := by
      have : (2 : Nat) ^ (m + 1) = 2 * 2 ^ m := by rw [pow_succ]; omega
      have := pow_pos (show 0 < 2 by norm_num) m
      omega
    rw [bitLen_eq, if_neg (by omega), Nat.log2_eq_log_two]
    have hlog : Nat.log 2 (2 ^ (m + 1) - 1) = m := by
      apply Nat.log_eq_of_pow_le_of_lt_pow
      · have h2 : (2 : Nat) ^ (m + 1) = 2 * 2 ^ m := by rw [pow_succ]; omega
        have := pow_pos (show 0 < 2 by norm_num) m
        omega
      · have := pow_pos (show 0 < 2 by norm_num) (m + 1)
        omega
    omega

/-- The `Mul` entry point of `BinaryFieldElement16`, on `2^(2^k)`-bit
bounded operands, is level-`k` tower multiplication. -/
theorem b16Mul_eq_tmul (k a b : Nat) (ha : a < 2 ^ 2 ^ k) (hb : b < 2 ^ 2 ^ k) :
    b16Mul a b = tmul k a b := by
  by_cases hbase : a < 2 ∨ b < 2
  · rw [tmul_base _ _ _ hbase, b16Mul, bin_mul, if_pos hbase]
  · rw [b16Mul, bin_mul, if_neg hbase]
    have hmax1 : 1 ≤ max a b := by omega
    set m := max a b with hm
    set j := bitLen (bitLen m - 1) with hj
    have hderiv : derivedLength a b = 2 ^ j := rfl
    have hmj : m < 2 ^ 2 ^ j := by
      have h1 : m < 2 ^ bitLen m := bitLen_lt_pow m
      have h2 : bitLen m ≤ 2 ^ j := by
        have h3 := bitLen_lt_pow (bitLen m - 1)
        rw [← hj] at h3
        omega
      exact lt_of_lt_of_le h1 (Nat.pow_le_pow_right (by norm_num) h2)
    have hjk : j ≤ k := by
      have h1 : bitLen m ≤ 2 ^ k := bitLen_le_of_lt m (2 ^ k) (by
        rcases max_cases a b with ⟨he, -⟩ | ⟨he, -⟩ <;> rw [← hm] at * <;> omega)
      calc j ≤ bitLen (2 ^ k - 1) := bitLen_mono _ _ (by omega)
        _ = k := bitLen_two_pow_sub_one k
    show binMulF (derivedLength a b) (derivedLength a b) a b = tmul k a b
    rw [hderiv]
    have : binMulF (2 ^ j) (2 ^ j) a b = tmul j a b := rfl
    rw [this, tmul_widen_le j k a b hjk (by omega) (by omega)]

/-! ### The abstract tower: iterated quadratic extensions `X² = s·X + 1` -/

theorem shiftRight_xor_distrib (x y n : Nat) :
    (x ^^^ y) >>> n = (x >>> n) ^^^ (y >>> n) := by
  apply Nat.eq_of_testBit_eq
  intro i
  simp [Nat.testBit_shiftRight, Nat.testBit_xor]

/-- XOR acts componentwise on the two halves of a `2L`-bit value. -/
theorem xor_split (L a b c d : Nat) (ha : a < 2 ^ L) (hc : c < 2 ^ L) :
    (a + 2 ^ L * b) ^^^ (c + 2 ^ L * d) = (a ^^^ c) + 2 ^ L * (b ^^^ d) := by
  have hpos : 0 < 2 ^ L := pow_pos (by norm_num) L
  have hmod : ∀ x y : Nat, (x ^^^ y) % 2 ^ L = (x % 2 ^ L) ^^^ (y % 2 ^ L) := by
    intro x y
    rw [← Nat.and_pow_two_sub_one_eq_mod, ← Nat.and_pow_two_sub_one_eq_mod,
      ← Nat.and_pow_two_sub_one_eq_mod, Nat.and_xor_distrib_right]
  have hdiv : ∀ x y : Nat, (x ^^^ y) / 2 ^ L = (x / 2 ^ L) ^^^ (y / 2 ^ L) := by
    intro x y
    rw [← Nat.shiftRight_eq_div_pow, ← Nat.shiftRight_eq_div_pow,
      ← Nat.shiftRight_eq_div_pow, shiftRight_xor_distrib]
  have hm1 : (a + 2 ^ L * b) % 2 ^ L = a := by
    rw [Nat.add_mul_mod_self_left, Nat.mod_eq_of_lt ha]
  have hm2 : (c + 2 ^ L * d) % 2 ^ L = c := by
    rw [Nat.add_mul_mod_self_left, Nat.mod_eq_of_lt hc]
  have hd1 : (a + 2 ^ L * b) / 2 ^ L = b := by
    rw [Nat.add_mul_div_left _ _ hpos, Nat.div_eq_of_lt ha, Nat.zero_add]
  have hd2 : (c + 2 ^ L * d) / 2 ^ L = d := by
    rw [Nat.add_mul_div_left _ _ hpos, Nat.div_eq_of_lt hc, Nat.zero_add]
  conv_lhs => rw [← Nat.div_add_mod ((a + 2 ^ L * b) ^^^ (c + 2 ^ L * d)) (2 ^ L)]
  rw [hmod, hdiv, hm1, hm2, hd1, hd2, Nat.add_comm]

/-- A quadratic extension element `lo + hi·X` over `R`. -/
@[ext]
structure Quad (R : Type) where
  lo : R
  hi : R
deriving DecidableEq

/-- The twist constant: level `k+1` satisfies `X² = X·tw + 1` with `tw`
the image of the level-`k` generator. -/
class Twist (R : Type) where
  tw : R

instance [CommRing R] : Add (Quad R) := ⟨fun a b => ⟨a.lo + b.lo, a.hi + b.hi⟩⟩

instance [CommRing R] : Zero (Quad R) := ⟨⟨0, 0⟩⟩

instance [CommRing R] : Neg (Quad R) := ⟨fun a => ⟨-a.lo, -a.hi⟩⟩

instance [CommRing R] : One (Quad R) := ⟨⟨1, 0⟩⟩

instance [CommRing R] [Twist R] : Mul (Quad R) :=
  ⟨fun a b => ⟨a.lo * b.lo + a.hi * b.hi,
    a.lo * b.hi + a.hi * b.lo + Twist.tw * (a.hi * b.hi)⟩⟩

@[simp] theorem qadd_lo {R : Type} [CommRing R] (a b : Quad R) :
    (a + b).lo = a.lo + b.lo := rfl

@[simp] theorem qadd_hi {R : Type} [CommRing R] (a b : Quad R) :
    (a + b).hi = a.hi + b.hi := rfl

@[simp] theorem qmul_lo {R : Type} [CommRing R] [Twist R] (a b : Quad R) :
    (a * b).lo = a.lo * b.lo + a.hi * b.hi := rfl

@[simp] theorem qmul_hi {R : Type} [CommRing R] [Twist R] (a b : Quad R) :
    (a * b).hi = a.lo * b.hi + a.hi * b.lo + Twist.tw * (a.hi * b.hi) := rfl

@[simp] theorem qneg_lo {R : Type} [CommRing R] (a : Quad R) : (-a).lo = -a.lo := rfl

@[simp] theorem qneg_hi {R : Type} [CommRing R] (a : Quad R) : (-a).hi = -a.hi := rfl

@[simp] theorem qzero_lo {R : Type} [CommRing R] : (0 : Quad R).lo = 0 := rfl

@[simp] theorem qzero_hi {R : Type} [CommRing R] : (0 : Quad R).hi = 0 := rfl

@[simp] theorem qone_lo {R : Type} [CommRing R] : (1 : Quad R).lo = 1 := rfl

@[simp] theorem qone_hi {R : Type} [CommRing R] : (1 : Quad R).hi = 0 := rfl

instance QuadCommRing (R : Type) [CommRing R] [Twist R] : CommRing (Quad R) where
  add := (· + ·)
  zero := 0
  neg := (- ·)
  mul := (· * ·)
  one := 1
  nsmul := nsmulRec
  zsmul := zsmulRec
  add_assoc a b c := by ext <;> simp <;> ring
  zero_add a := by ext <;> simp
  add_zero a := by ext <;> simp
  add_comm a b := by ext <;> simp <;> ring
  neg_add_cancel a := by ext <;> simp
  left_distrib a b c := by ext <;> simp <;> ring
  right_distrib a b c := by ext <;> simp <;> ring
  zero_mul a := by ext <;> simp
  mul_zero a := by ext <;> simp
  mul_assoc a b c := by ext <;> simp <;> ring
  one_mul a := by ext <;> simp
  mul_one a := by ext <;> simp
  mul_comm a b := by ext <;> simp <;> ring

/-- The tower of types: `TT 0 = GF(2)`, `TT (k+1) = Quad (TT k)`. -/
def TT : Nat → Type
  | 0 => ZMod 2
  | k + 1 => Quad (TT k)

def ttDecEq : (k : Nat) → DecidableEq (TT k)
  | 0 => inferInstanceAs (DecidableEq (ZMod 2))
  | k + 1 => letI := ttDecEq k; inferInstanceAs (DecidableEq (Quad (TT k)))

instance (k : Nat) : DecidableEq (TT k) := ttDecEq k

/-- Decode a `2^k`-bit value into the tower representation. -/
def decode : (k : Nat) → Nat → TT k
  | 0, n => (n : ZMod 2)
  | k + 1, n => ⟨decode k (n % 2 ^ 2 ^ k), decode k (n / 2 ^ 2 ^ k)⟩

instance ttTwist (k : Nat) : Twist (TT k) := ⟨decode k (1 <<< (2 ^ (k + 1) / 4))⟩

def ttCommRing : (k : Nat) → CommRing (TT k)
  | 0 => inferInstanceAs (CommRing (ZMod 2))
  | k + 1 => letI := ttCommRing k; inferInstanceAs (CommRing (Quad (TT k)))

instance (k : Nat) : CommRing (TT k) := ttCommRing k

/-- Encode a tower element as its `2^k`-bit value. -/
def encode : (k : Nat) → TT k → Nat
  | 0, x => x.val
  | k + 1, x => encode k (Quad.lo x) + 2 ^ 2 ^ k * encode k (Quad.hi x)

theorem encode_lt : ∀ k (x : TT k), encode k x < 2 ^ 2 ^ k := by
  intro k
  induction k with
  | zero => intro x; exact x.val_lt
  | succ k ih =>
    intro x
    have h1 := ih (Quad.lo x)
    have h2 := ih (Quad.hi x)
    rw [encode, two_pow_sq]
    set A := 2 ^ 2 ^ k with hA
    calc encode k (Quad.lo x) + A * encode k (Quad.hi x)
        < A + A * encode k (Quad.hi x) := by omega
      _ ≤ A + A * (A - 1) := by
          have := Nat.mul_le_mul_left A (show encode k (Quad.hi x) ≤ A - 1 by omega)
          omega
      _ = A * ((A - 1) + 1) := by rw [Nat.mul_succ]; omega
      _ = A * A := by
          congr 1
          have : 0 < A := pow_pos (by norm_num) _
          omega

theorem decode_encode : ∀ k (x : TT k), decode k (encode k x) = x := by
  intro k
  induction k with
  | zero => intro x; exact ZMod.natCast_zmod_val x
  | succ k ih =>
    intro x
    have h1 := encode_lt k (Quad.lo x)
    have hpos : 0 < 2 ^ 2 ^ k := pow_pos (by norm_num) _
    show (⟨decode k _, decode k _⟩ : Quad (TT k)) = x
    have hm : (encode k (Quad.lo x) + 2 ^ 2 ^ k * encode k (Quad.hi x)) % 2 ^ 2 ^ k
        = encode k (Quad.lo x) := by
      rw [Nat.add_mul_mod_self_left, Nat.mod_eq_of_lt h1]
    have hd : (encode k (Quad.lo x) + 2 ^ 2 ^ k * encode k (Quad.hi x)) / 2 ^ 2 ^ k
        = encode k (Quad.hi x) := by
      rw [Nat.add_mul_div_left _ _ hpos, Nat.div_eq_of_lt h1, Nat.zero_add]
    ext
    · show (decode k ((encode k (Quad.lo x) + 2 ^ 2 ^ k * encode k (Quad.hi x)) % 2 ^ 2 ^ k)) = _
      rw [hm, ih]
    · show (decode k ((encode k (Quad.lo x) + 2 ^ 2 ^ k * encode k (Quad.hi x)) / 2 ^ 2 ^ k)) = _
      rw [hd, ih]

theorem encode_decode : ∀ k n, n < 2 ^ 2 ^ k → encode k (decode k n) = n := by
  intro k
  induction k with
  | zero => intro n hn; exact ZMod.val_natCast_of_lt (by simpa using hn)
  | succ k ih =>
    intro n hn
    have hpos : 0 < 2 ^ 2 ^ k := pow_pos (by norm_num) _
    have hdlt : n / 2 ^ 2 ^ k < 2 ^ 2 ^ k := by
      rw [two_pow_sq] at hn
      exact Nat.div_lt_of_lt_mul (by omega)
    rw [encode]
    show encode k (decode k (n % 2 ^ 2 ^ k)) + 2 ^ 2 ^ k * encode k (decode k (n / 2 ^ 2 ^ k)) = n
    rw [ih _ (Nat.mod_lt _ hpos), ih _ hdlt, Nat.add_comm, Nat.div_add_mod]

theorem encode_inj (k : Nat) (x y : TT k) (h : encode k x = encode k y) : x = y := by
  have := congrArg (decode k) h
  rwa [decode_encode, decode_encode] at this

theorem encode_zero : ∀ k, encode k (0 : TT k) = 0 := by
  intro k
  induction k with
  | zero => rfl
  | succ k ih =>
    show encode k (Quad.lo (0 : Quad (TT k))) + 2 ^ 2 ^ k * encode k (Quad.hi (0 : Quad (TT k))) = 0
    rw [qzero_lo, qzero_hi, ih]
    omega

theorem encode_one : ∀ k, encode k (1 : TT k) = 1 := by
  intro k
  induction k with
  | zero => rfl
  | succ k ih =>
    show encode k (Quad.lo (1 : Quad (TT k))) + 2 ^ 2 ^ k * encode k (Quad.hi (1 : Quad (TT k))) = 1
    rw [qone_lo, qone_hi, ih, encode_zero]
    omega

theorem encode_add : ∀ k (x y : TT k),
    encode k (x + y) = encode k x ^^^ encode k y := by
  intro k
  induction k with
  | zero =>
    intro x y
    have h2 : ∀ x y : ZMod 2, ZMod.val (x + y) = ZMod.val x ^^^ ZMod.val y := by decide
    exact h2 x y
  | succ k ih =>
    intro x y
    simp only [encode]
    rw [show Quad.lo (x + y) = Quad.lo x + Quad.lo y from rfl,
      show Quad.hi (x + y) = Quad.hi x + Quad.hi y from rfl, ih, ih,
      xor_split _ _ _ _ _ (encode_lt k _) (encode_lt k _)]

theorem tt_add_self : ∀ k (x : TT k), x + x = 0 := by
  intro k
  induction k with
  | zero =>
    intro x
    have h2 : ∀ x : ZMod 2, x + x = 0 := by decide
    exact h2 x
  | succ k ih =>
    intro x
    obtain ⟨a, b⟩ := x
    show (⟨a, b⟩ + ⟨a, b⟩ : Quad (TT k)) = 0
    ext
    · rw [qadd_lo, ih, qzero_lo]
    · rw [qadd_hi, ih, qzero_hi]

theorem encode_tw (k : Nat) :
    encode k (Twist.tw : TT k) = 1 <<< (2 ^ (k + 1) / 4) := by
  show encode k (decode k (1 <<< (2 ^ (k + 1) / 4))) = _
  exact encode_decode k _ (one_shiftLeft_lt k)

/-- High/low halves with disjoint bits: XOR is addition. -/
theorem xor_high (L a b : Nat) (ha : a < 2 ^ L) :
    a ^^^ b * 2 ^ L = a + 2 ^ L * b := by
  have h := xor_split L a 0 0 b ha (pow_pos (by norm_num) L)
  simpa [Nat.mul_comm] using h

/-- The central homomorphism: `encode` carries tower multiplication to
the source's `bin_mul` recursion. -/
theorem encode_mul : ∀ k (x y : TT k),
    encode k (x * y) = tmul k (encode k x) (encode k y) := by
  intro k
  induction k with
  | zero =>
    intro x y
    rw [tmul_base 0 _ _ (Or.inl (by simpa using encode_lt 0 x))]
    have h2 : ∀ x y : ZMod 2, ZMod.val (x * y) = ZMod.val x * ZMod.val y := by decide
    exact h2 x y
  | succ k ih =>
    intro x y
    obtain ⟨x1, x2⟩ := x
    obtain ⟨y1, y2⟩ := y
    by_cases hbase : encode (k + 1) (⟨x1, x2⟩ : Quad (TT k)) < 2 ∨
        encode (k + 1) (⟨y1, y2⟩ : Quad (TT k)) < 2
    · -- one operand encodes 0 or 1, i.e. is the ring's 0 or 1
      have hsmall : ∀ z : TT (k + 1), encode (k + 1) z < 2 → z = 0 ∨ z = 1 := by
        intro z hz
        interval_cases h : encode (k + 1) z
        · exact Or.inl (encode_inj _ _ _ (by rw [h, encode_zero]))
        · exact Or.inr (encode_inj _ _ _ (by rw [h, encode_one]))
      rw [tmul_base _ _ _ hbase]
      rcases hbase with hz | hz
      · rcases hsmall _ hz with h | h <;> rw [h]
        · rw [zero_mul, encode_zero, Nat.zero_mul]
        · rw [one_mul, encode_one, Nat.one_mul]
      · rcases hsmall _ hz with h | h <;> rw [h]
        · rw [mul_zero, encode_zero, Nat.mul_zero]
        · rw [mul_one, encode_one, Nat.mul_one]
    · -- main case: unfold one Karatsuba level
      have hxlt := encode_lt (k + 1) (⟨x1, x2⟩ : Quad (TT k))
      have hylt := encode_lt (k + 1) (⟨y1, y2⟩ : Quad (TT k))
      rw [tmul_succ k _ _ hxlt hylt hbase]
      have he1 : encode (k + 1) (⟨x1, x2⟩ : Quad (TT k)) =
          encode k x1 + 2 ^ 2 ^ k * encode k x2 := rfl
      have he2 : encode (k + 1) (⟨y1, y2⟩ : Quad (TT k)) =
          encode k y1 + 2 ^ 2 ^ k * encode k y2 := rfl
      have hmask : ∀ u v : TT k,
          (encode k u + 2 ^ 2 ^ k * encode k v) &&& (2 ^ 2 ^ k - 1) = encode k u := by
        intro u v
        rw [Nat.and_pow_two_sub_one_eq_mod, Nat.add_mul_mod_self_left,
          Nat.mod_eq_of_lt (encode_lt k u)]
      have hshr : ∀ u v : TT k,
          (encode k u + 2 ^ 2 ^ k * encode k v) >>> 2 ^ k = encode k v := by
        intro u v
        rw [Nat.shiftRight_eq_div_pow,
          Nat.add_mul_div_left _ _ (pow_pos (by norm_num) _),
          Nat.div_eq_of_lt (encode_lt k u), Nat.zero_add]
      simp only [karat, he1, he2, hmask, hshr]
      rw [← encode_tw k, ← ih x2 y2, ← ih x1 y1, ← encode_add k x1 x2,
        ← encode_add k y1 y2, ← ih (x1 + x2) (y1 + y2), ← ih Twist.tw (x2 * y2),
        ← encode_add k ((x1 + x2) * (y1 + y2)) (x1 * y1),
        ← encode_add k ((x1 + x2) * (y1 + y2) + x1 * y1) (x2 * y2),
        ← encode_add k ((x1 + x2) * (y1 + y2) + x1 * y1 + x2 * y2)
          (Twist.tw * (x2 * y2)),
        ← encode_add k (x1 * y1) (x2 * y2),
        Nat.shiftLeft_eq, xor_high _ _ _ (encode_lt k _)]
      show encode k (Quad.lo ((⟨x1, x2⟩ : Quad (TT k)) * ⟨y1, y2⟩)) +
          2 ^ 2 ^ k * encode k (Quad.hi ((⟨x1, x2⟩ : Quad (TT k)) * ⟨y1, y2⟩)) = _
      rw [show Quad.lo ((⟨x1, x2⟩ : Quad (TT k)) * ⟨y1, y2⟩) = x1 * y1 + x2 * y2 from rfl,
        show Quad.hi ((⟨x1, x2⟩ : Quad (TT k)) * ⟨y1, y2⟩) =
          x1 * y2 + x2 * y1 + Twist.tw * (x2 * y2) from rfl]
      have hhi : (x1 * y2 + x2 * y1 + Twist.tw * (x2 * y2) : TT k) =
          (x1 + x2) * (y1 + y2) + x1 * y1 + x2 * y2 + Twist.tw * (x2 * y2) := by
        linear_combination (tt_add_self k (x1 * y1)).symm + (tt_add_self k (x2 * y2)).symm
      rw [hhi]

/-! ### Field structure of each tower level, and Lagrange -/

def quadEquivProd (R : Type) : Quad R ≃ R × R where
  toFun q := (q.lo, q.hi)
  invFun p := ⟨p.1, p.2⟩
  left_inv q := rfl
  right_inv p := rfl

instance (R : Type) [Fintype R] : Fintype (Quad R) :=
  Fintype.ofEquiv _ (quadEquivProd R).symm

def ttFintype : (k : Nat) → Fintype (TT k)
  | 0 => inferInstanceAs (Fintype (ZMod 2))
  | k + 1 => letI := ttFintype k; inferInstanceAs (Fintype (Quad (TT k)))

instance (k : Nat) : Fintype (TT k) := ttFintype k

theorem tt_card (k : Nat) : Fintype.card (TT k) = 2 ^ 2 ^ k := by
  rw [← Fintype.card_fin (2 ^ 2 ^ k)]
  apply Fintype.card_of_bijective
    (f := fun x : TT k => (⟨encode k x, encode_lt k x⟩ : Fin (2 ^ 2 ^ k)))
  constructor
  · intro u v h
    exact encode_inj k u v (by simpa using congrArg Fin.val h)
  · intro n
    refine ⟨decode k n.val, ?_⟩
    ext
    simpa using encode_decode k n.val n.isLt

/-- A quadratic extension by a root of `X² + tw·X + 1` is a field when
the base is a field of characteristic 2 and the polynomial has no root. -/
theorem quad_isField (R : Type) [CommRing R] [Twist R]
    (hfield : IsField R)
    (hchar : ∀ x : R, x + x = 0)
    (hroot : ∀ x : R, x * x + Twist.tw * x + 1 ≠ 0)
    (hnontriv : (0 : R) ≠ 1) :
    IsField (Quad R) := by
  have hnzd : ∀ u v : R, u * v = 0 → u ≠ 0 → v = 0 := by
    intro u v huv hu
    obtain ⟨i, hi⟩ := hfield.mul_inv_cancel hu
    calc v = 1 * v := (one_mul v).symm
      _ = u * i * v := by rw [hi]
      _ = i * (u * v) := by ring
      _ = 0 := by rw [huv, mul_zero]
  refine ⟨⟨0, 1, ?_⟩, mul_comm, ?_⟩
  · intro h
    exact hnontriv (congrArg Quad.lo h)
  · intro u hu
    obtain ⟨a1, a2⟩ := u
    set N : R := a1 * a1 + Twist.tw * a1 * a2 + a2 * a2 with hN
    have hNne : N ≠ 0 := by
      intro h0
      by_cases ha2 : a2 = 0
      · have ha1 : a1 ≠ 0 := by
          intro ha1
          exact hu (by ext <;> simp [ha1, ha2])
        have : a1 * a1 = 0 := by
          rw [hN, ha2] at h0
          linear_combination h0
        exact ha1 (hnzd a1 a1 this ha1)
      · obtain ⟨i2, hi2⟩ := hfield.mul_inv_cancel ha2
        apply hroot (a1 * i2)
        linear_combination (i2 * i2) * h0 - (Twist.tw * a1 * i2 + 1 + a2 * i2) * hi2
    obtain ⟨m, hm⟩ := hfield.mul_inv_cancel hNne
    refine ⟨⟨(a1 + Twist.tw * a2) * m, a2 * m⟩, ?_⟩
    ext
    · show a1 * ((a1 + Twist.tw * a2) * m) + a2 * (a2 * m) = 1
      linear_combination hm
    · show a1 * (a2 * m) + a2 * ((a1 + Twist.tw * a2) * m) +
        Twist.tw * (a2 * (a2 * m)) = 0
      linear_combination hchar (a1 * (a2 * m)) + hchar (Twist.tw * (a2 * (a2 * m)))

theorem tt_zero_ne_one : ∀ k, (0 : TT k) ≠ 1 := by
  intro k
  induction k with
  | zero => decide
  | succ k ih =>
    intro h
    exact ih (congrArg Quad.lo h)

/-- Transport the "no root of `X² + tw·X + 1`" check to a concrete
finite check on `bin_mul` itself. -/
theorem tt_noroot_of_nat (k : Nat)
    (h : ∀ n, n < 2 ^ 2 ^ k →
      tmul k n n ^^^ tmul k (1 <<< (2 ^ (k + 1) / 4)) n ^^^ 1 ≠ 0) :
    ∀ x : TT k, x * x + Twist.tw * x + 1 ≠ 0 := by
  intro x hx0
  apply h (encode k x) (encode_lt k x)
  have hc := congrArg (encode k) hx0
  rw [encode_zero, encode_add, encode_add, encode_mul, encode_mul, encode_tw,
    encode_one] at hc
  exact hc

theorem tt_noroot_0 : ∀ x : TT 0, x * x + Twist.tw * x + 1 ≠ 0 :=
  tt_noroot_of_nat 0 (by decide)

theorem tt_noroot_1 : ∀ x : TT 1, x * x + Twist.tw * x + 1 ≠ 0 :=
  tt_noroot_of_nat 1 (by decide)

theorem tt_noroot_2 : ∀ x : TT 2, x * x + Twist.tw * x + 1 ≠ 0 :=
  tt_noroot_of_nat 2 (by decide)

set_option maxRecDepth 8000 in
theorem tt_noroot_3 : ∀ x : TT 3, x * x + Twist.tw * x + 1 ≠ 0 :=
  tt_noroot_of_nat 3 (by decide)

theorem tt_isField_0 : IsField (TT 0) := by
  haveI : Fact (Nat.Prime 2) := ⟨by norm_num⟩
  exact Field.toIsField (ZMod 2)

theorem tt_isField_1 : IsField (TT 1) :=
  quad_isField _ tt_isField_0 (tt_add_self 0) tt_noroot_0 (tt_zero_ne_one 0)

theorem tt_isField_2 : IsField (TT 2) :=
  quad_isField _ tt_isField_1 (tt_add_self 1) tt_noroot_1 (tt_zero_ne_one 1)

theorem tt_isField_3 : IsField (TT 3) :=
  quad_isField _ tt_isField_2 (tt_add_self 2) tt_noroot_2 (tt_zero_ne_one 2)

theorem tt_isField_4 : IsField (TT 4) :=
  quad_isField _ tt_isField_3 (tt_add_self 3) tt_noroot_3 (tt_zero_ne_one 3)

theorem tt_isField (k : Nat) (hk : k ≤ 4) : IsField (TT k) := by
  interval_cases k
  · exact tt_isField_0
  · exact tt_isField_1
  · exact tt_isField_2
  · exact tt_isField_3
  · exact tt_isField_4

theorem tt_pow_card_sub_one (k : Nat) (hk : k ≤ 4) (x : TT k) (hx : x ≠ 0) :
    x ^ (2 ^ 2 ^ k - 1) = 1 := by
  letI := (tt_isField k hk).toField
  have h := FiniteField.pow_card_sub_one_eq_one x hx
  rwa [tt_card k] at h

/-- `pow` tracks abstract tower exponentiation through `encode`,
for any sufficient fuel. -/
theorem b16PowF_encode (k : Nat) :
    ∀ fuel e (x : TT k), e < fuel →
      b16PowF fuel (encode k x) e = encode k (x ^ e) := by
  intro fuel
  induction fuel with
  | zero => intro e x he; omega
  | succ f ih =>
    intro e x he
    by_cases h0 : e = 0
    · subst h0
      simp [b16PowF, encode_one]
    by_cases h1 : e = 1
    · subst h1
      simp [b16PowF]
    by_cases h2 : e = 2
    · subst h2
      have hstep : b16PowF (f + 1) (encode k x) 2
          = b16Mul (encode k x) (encode k x) := by
        simp [b16PowF]
      rw [hstep, b16Mul_eq_tmul k _ _ (encode_lt k x) (encode_lt k x),
        ← encode_mul, pow_two]
    · have he2 : 2 < f := by omega
      have hem : e % 2 < f := by
        have := Nat.mod_lt e (show 0 < 2 by norm_num)
        omega
      have hed : e / 2 < f := by
        have : e / 2 < e := Nat.div_lt_self (by omega) (by norm_num)
        omega
      simp only [b16PowF, if_neg h0, if_neg h1, if_neg h2]
      rw [ih (e / 2) x hed, ih 2 (x ^ (e / 2)) he2, ih (e % 2) x hem,
        b16Mul_eq_tmul k _ _ (encode_lt k _) (encode_lt k _), ← encode_mul]
      congr 1
      rw [← pow_mul, ← pow_add, Nat.mod_add_div']

theorem b16Pow_encode (k e : Nat) (x : TT k) :
    b16Pow (encode k x) e = encode k (x ^ e) :=
  b16PowF_encode k (e + 1) e x (Nat.lt_succ_self e)

/-- C7: for every nonzero `u16` value `a`, `a * a.inv() = 1` in
`BinaryFieldElement16`. -/
theorem b16_mul_inv_eq_one (a : Nat) (ha : a < 2 ^ 16) (h0 : a ≠ 0) :
    b16Mul a (b16Inv a) = 1 := by
  have key : ∀ j, j ≤ 4 → a < 2 ^ 2 ^ j →
      b16Mul a (b16Pow a (2 ^ 2 ^ j - 2)) = 1 := by
    intro j hj4 haj
    have hex : encode j (decode j a) = a := encode_decode j a haj
    have hxne : decode j a ≠ 0 := by
      intro h
      apply h0
      rw [← hex, h, encode_zero]
    have hcard : 2 ≤ 2 ^ 2 ^ j := by
      calc 2 = 2 ^ 1 := rfl
        _ ≤ 2 ^ 2 ^ j := Nat.pow_le_pow_right (by norm_num) Nat.one_le_two_pow
    rw [← hex, b16Pow_encode,
      b16Mul_eq_tmul j _ _ (encode_lt j _) (encode_lt j _),
      ← encode_mul, ← pow_succ']
    have he1 : 2 ^ 2 ^ j - 2 + 1 = 2 ^ 2 ^ j - 1 := by omega
    rw [he1, tt_pow_card_sub_one j hj4 _ hxne, encode_one]
  have hm16 : bitLen a ≤ 16 := bitLen_le_of_lt a 16 ha
  have hj4 : bitLen (bitLen a - 1) ≤ 4 := bitLen_le_of_lt _ 4 (by omega)
  have haj : a < 2 ^ 2 ^ bitLen (bitLen a - 1) := by
    have h1 : a < 2 ^ bitLen a := bitLen_lt_pow a
    have h2 : bitLen a - 1 < 2 ^ bitLen (bitLen a - 1) := bitLen_lt_pow _
    have h3 : bitLen a ≤ 2 ^ bitLen (bitLen a - 1) := by omega
    exact lt_of_lt_of_le h1 (Nat.pow_le_pow_right (by norm_num) h3)
  exact key _ hj4 haj

theorem b16_mul_inv_eq_one_witness :
    (2 : Nat) < 2 ^ 16 ∧ (2 : Nat) ≠ 0 ∧ b16Mul 2 (b16Inv 2) = 1 :=
  ⟨by decide, by decide, b16_mul_inv_eq_one 2 (by decide) (by decide)⟩

/-! ### `binary_ntt_cache.rs`: the Wi evaluation cache and the additive NTT -/


/-- `build_Wi_eval_cache` of `binary_ntt_cache.rs`: `Wcache dim pt` is the
value stored for key `pt` in `cache[dim]` (the cache holds all `2^16`
u16 keys at every `dim < 16`): `cache[0]` is the identity, and level
`dim + 1` maps `pt` to `(W(pt)·(W(pt)+1)) · (W(2^(dim+1))·(W(2^(dim+1))+1))⁻¹`
where `W` is level `dim`. -/
def Wcache : Nat → Nat → Nat
  | 0, pt => pt
  | dim + 1, pt =>
    let prevQuot := Wcache dim (1 <<< (dim + 1))
    let invQuot := b16Inv (b16Mul prevQuot (b16Add prevQuot 1))
    b16Mul (b16Mul (Wcache dim pt) (b16Add (Wcache dim pt) 1)) invQuot

/-- `WiEvalCache::get_Wi_eval`: `dim = 0` returns the point itself;
otherwise a lookup in `cache[dim]`, which succeeds exactly when
`dim < 16` (= `MAX_DIM`; the key, a u16, is always present, while
`dim ≥ 16` indexes `cache` out of bounds and panics). -/
def get_Wi_eval (dim pt : Nat) : Option Nat :=
  if dim = 0 then some pt
  else if dim < 16 then some (Wcache dim pt)
  else none

example : get_Wi_eval 2 4 = some 1 := by decide

/-- One iteration of the inner `j`-loop of a forward-NTT chunk based at `i`
(`l = results[i+j]; r = results[i+j+h]; results[i+j] = l + r*coeff1;
results[i+j+h] = results[i+j] + r`). -/
def bfStepFwd (c i h : Nat) (a : List Nat) (j : Nat) : List Nat :=
  let l := a.getD (i + j) 0
  let r := a.getD (i + j + h) 0
  let s := b16Add l (b16Mul r c)
  (a.set (i + j) s).set (i + j + h) (b16Add s r)

/-- The inner `j`-loop of one forward-NTT chunk. -/
def nttChunkFwd (c i h : Nat) (res : List Nat) : List Nat :=
  (List.range h).foldl (bfStepFwd c i h) res

/-- Chunk loop `for i in (0..size).step_by(2*halflen)` of the iterative
`additive_ntt`, recursing on the remaining chunk count; each chunk first
looks up `coeff1 = get_Wi_eval(log2 halflen, (start + i) as u16)`. -/
def nttChunksFwd : Nat → Nat → Nat → Nat → List Nat → Option (List Nat)
  | 0, _, _, _, res => some res
  | n + 1, h, start, i, res =>
    match get_Wi_eval (natLog2 h) ((start + i) % 65536) with
    | none => none
    | some c => nttChunksFwd n h start (i + 2 * h) (nttChunkFwd c i h res)

/-- One forward pass (at halflen `h`) over the whole array.  Every chunk
indexes `results[i + j + halflen]`; when `2h` does not divide the length
the final chunk reads past the end and panics, modeled as `none`. -/
def nttPassFwd (h start : Nat) (res : List Nat) : Option (List Nat) :=
  if res.length % (2 * h) = 0 then
    nttChunksFwd (res.length / (2 * h)) h start 0 res
  else none

/-- The `while step >= 2 { step >>= 1; … }` loop of the iterative
`additive_ntt`, fuel-indexed (`fuel ≥` the iteration count; `step` halves
each time, so fuel `step` suffices). -/
def additive_nttF : Nat → Nat → Nat → List Nat → Option (List Nat)
  | 0, _, _, res => some res
  | fuel + 1, step, start, res =>
    if 2 ≤ step then
      match nttPassFwd (step / 2) start res with
      | none => none
      | some r => additive_nttF fuel (step / 2) start r
    else some res

/-- Iterative `additive_ntt` of `binary_ntt_cache.rs`. -/
def additive_ntt (vals : List Nat) (start : Nat) : Option (List Nat) :=
  additive_nttF vals.length vals.length start vals

/-- One iteration of the inner `j`-loop of an inverse-NTT chunk based at `i`
(`coeff2 = coeff1 + 1; results[i+j] = l*coeff2 + r*coeff1;
results[i+j+h] = l + r`). -/
def bfStepInv (c i h : Nat) (a : List Nat) (j : Nat) : List Nat :=
  let l := a.getD (i + j) 0
  let r := a.getD (i + j + h) 0
  (a.set (i + j) (b16Add (b16Mul l (b16Add c 1)) (b16Mul r c))).set
    (i + j + h) (b16Add l r)

/-- The inner `j`-loop of one inverse-NTT chunk. -/
def nttChunkInv (c i h : Nat) (res : List Nat) : List Nat :=
  (List.range h).foldl (bfStepInv c i h) res

/-- Chunk loop of the iterative `inv_additive_ntt` (same stepping and
coefficient lookup as the forward pass). -/
def nttChunksInv : Nat → Nat → Nat → Nat → List Nat → Option (List Nat)
  | 0, _, _, _, res => some res
  | n + 1, h, start, i, res =>
    match get_Wi_eval (natLog2 h) ((start + i) % 65536) with
    | none => none
    | some c => nttChunksInv n h start (i + 2 * h) (nttChunkInv c i h res)

/-- One inverse pass (at halflen `h`) over the whole array. -/
def nttPassInv (h start : Nat) (res : List Nat) : Option (List Nat) :=
  if res.length % (2 * h) = 0 then
    nttChunksInv (res.length / (2 * h)) h start 0 res
  else none

/-- The `while step < size { halflen = step; step <<= 1; … }` loop of the
iterative `inv_additive_ntt` (`size` is the fixed input length). -/
def inv_additive_nttF : Nat → Nat → Nat → Nat → List Nat → Option (List Nat)
  | 0, _, _, _, res => some res
  | fuel + 1, size, step, start, res =>
    if step < size then
      match nttPassInv step start res with
      | none => none
      | some r => inv_additive_nttF fuel size (2 * step) start r
    else some res

/-- Iterative `inv_additive_ntt` of `binary_ntt_cache.rs` (length-1 input
returns immediately). -/
def inv_additive_ntt (vals : List Nat) (start : Nat) : Option (List Nat) :=
  if vals.length = 1 then some vals
  else inv_additive_nttF vals.length vals.length 1 start vals

/-- `extend` (Reed–Solomon extension): inverse NTT at start 0, pad with
zeros to `data.len() * expansion_factor`, forward NTT at start 0.  The
`usize` subtraction `total_len - o.len()` underflows (panics) when
`expansion_factor = 0`. -/
def extend (data : List Nat) (expansion_factor : Nat) : Option (List Nat) :=
  match inv_additive_ntt data 0 with
  | none => none
  | some o =>
    if o.length ≤ data.length * expansion_factor then
      additive_ntt (o ++ List.replicate (data.length * expansion_factor - o.length) 0) 0
    else none

-- Sanity checks mirroring the unit tests of `binary_ntt_cache.rs`.
example : additive_ntt [1, 2, 3, 4] 0 = some [1, 3, 9, 15] := by decide
example : inv_additive_ntt [1, 3, 9, 15] 0 = some [1, 2, 3, 4] := by decide
example : extend [1, 3, 9, 15] 2 = some [1, 3, 9, 15, 14, 15, 14, 11] := by decide

/-! ### Nat-level field algebra for `BinaryFieldElement16` values -/

theorem pow16_eq : (2 : Nat) ^ 2 ^ 4 = 2 ^ 16 := by norm_num

theorem b16Mul_lt16 (a b : Nat) (ha : a < 2 ^ 16) (hb : b < 2 ^ 16) :
    b16Mul a b < 2 ^ 16 := by
  rw [← pow16_eq] at ha hb ⊢
  rw [b16Mul_eq_tmul 4 a b ha hb]
  exact tmul_lt 4 a b ha hb

theorem xor_lt16 (a b : Nat) (ha : a < 2 ^ 16) (hb : b < 2 ^ 16) :
    a ^^^ b < 2 ^ 16 :=
  Nat.xor_lt_two_pow ha hb

theorem b16Mul_encode (x y : TT 4) :
    b16Mul (encode 4 x) (encode 4 y) = encode 4 (x * y) := by
  rw [b16Mul_eq_tmul 4 _ _ (encode_lt 4 x) (encode_lt 4 y), ← encode_mul]

theorem xor_encode (x y : TT 4) :
    encode 4 x ^^^ encode 4 y = encode 4 (x + y) :=
  (encode_add 4 x y).symm

theorem b16Mul_zero_left (c : Nat) (hc : c < 2 ^ 16) : b16Mul 0 c = 0 := by
  rw [← pow16_eq] at hc
  rw [← encode_decode 4 c hc, ← encode_zero 4, b16Mul_encode, zero_mul]

theorem xor_cancel_left (a b : Nat) : a ^^^ (a ^^^ b) = b := by
  rw [← Nat.xor_assoc, Nat.xor_self, Nat.zero_xor]

/-- Inverse butterfly after forward butterfly returns the left input:
with `A = L + R·c`, `B = A + R`, one has `A·(c+1) + B·c = L`. -/
theorem butterfly_inv_fwd (L R c : Nat) (hL : L < 2 ^ 16) (hR : R < 2 ^ 16)
    (hc : c < 2 ^ 16) :
    b16Add (b16Mul (b16Add L (b16Mul R c)) (b16Add c 1))
      (b16Mul (b16Add (b16Add L (b16Mul R c)) R) c) = L := by
  rw [← pow16_eq] at hL hR hc
  simp only [b16Add]
  rw [← encode_decode 4 L hL, ← encode_decode 4 R hR, ← encode_decode 4 c hc,
    ← encode_one 4]
  simp only [b16Mul_encode, xor_encode]
  refine congrArg (encode 4) ?_
  linear_combination tt_add_self 4
    (decode 4 L * decode 4 c + decode 4 R * decode 4 c * decode 4 c +
      decode 4 R * decode 4 c)


/-- Forward butterfly after inverse butterfly returns the left input:
with `A = l·(c+1) + r·c`, `B = l + r`, one has `A + B·c = l`. -/
theorem butterfly_fwd_inv (l r c : Nat) (hl : l < 2 ^ 16) (hr : r < 2 ^ 16)
    (hc : c < 2 ^ 16) :
    b16Add (b16Add (b16Mul l (b16Add c 1)) (b16Mul r c))
      (b16Mul (b16Add l r) c) = l := by
  rw [← pow16_eq] at hl hr hc
  simp only [b16Add]
  rw [← encode_decode 4 l hl, ← encode_decode 4 r hr, ← encode_decode 4 c hc,
    ← encode_one 4]
  simp only [b16Mul_encode, xor_encode]
  refine congrArg (encode 4) ?_
  linear_combination tt_add_self 4 (decode 4 l * decode 4 c + decode 4 r * decode 4 c)

theorem b16PowF_lt16 : ∀ fuel a e, a < 2 ^ 16 → b16PowF fuel a e < 2 ^ 16 := by
  intro fuel
  induction fuel with
  | zero => intro a e ha; exact ha
  | succ f ih =>
    intro a e ha
    show (if e = 0 then 1
      else if e = 1 then a
      else if e = 2 then b16Mul a a
      else b16Mul (b16PowF f a (e % 2)) (b16PowF f (b16PowF f a (e / 2)) 2)) < 2 ^ 16
    split_ifs
    · norm_num
    · exact ha
    · exact b16Mul_lt16 a a ha ha
    · exact b16Mul_lt16 _ _ (ih a _ ha) (ih _ 2 (ih a _ ha))

theorem b16Inv_lt16 (a : Nat) (ha : a < 2 ^ 16) : b16Inv a < 2 ^ 16 :=
  b16PowF_lt16 _ a _ ha

theorem Wcache_lt : ∀ dim pt, dim ≤ 15 → pt < 2 ^ 16 → Wcache dim pt < 2 ^ 16 := by
  intro dim
  induction dim with
  | zero => intro pt _ hpt; exact hpt
  | succ d ih =>
    intro pt hd hpt
    have hsh : 1 <<< (d + 1) < 2 ^ 16 := by
      rw [Nat.one_shiftLeft]
      exact Nat.pow_lt_pow_right (by norm_num) (by omega)
    have hq := ih _ (by omega) hsh
    have hpq := ih pt (by omega) hpt
    exact b16Mul_lt16 _ _ (b16Mul_lt16 _ _ hpq (xor_lt16 _ _ hpq (by norm_num)))
      (b16Inv_lt16 _ (b16Mul_lt16 _ _ hq (xor_lt16 _ _ hq (by norm_num))))
theorem bfFold_length (step : List Nat → Nat → List Nat)
    (hstep : ∀ a j, (step a j).length = a.length) :
    ∀ (js : List Nat) (res : List Nat), (js.foldl step res).length = res.length := by
  intro js
  induction js with
  | nil => intro res; rfl
  | cons j js ih => intro res; rw [List.foldl_cons, ih, hstep]

/-- Generic pointwise description of a butterfly inner loop: `n ≤ h` steps
of pairwise updates at `(i+j, i+j+h)`, reading the pre-loop values. -/
theorem bfFold_getD (f1 f2 : Nat → Nat → Nat) (i h : Nat)
    (step : List Nat → Nat → List Nat)
    (hstep : ∀ a j, step a j =
      (a.set (i + j) (f1 (a.getD (i + j) 0) (a.getD (i + j + h) 0))).set
        (i + j + h) (f2 (a.getD (i + j) 0) (a.getD (i + j + h) 0))) :
    ∀ n res, n ≤ h → i + 2 * h ≤ res.length → ∀ p,
      ((List.range n).foldl step res).getD p 0 =
        if i ≤ p ∧ p < i + n then
          f1 (res.getD p 0) (res.getD (p + h) 0)
        else if i + h ≤ p ∧ p < i + n + h then
          f2 (res.getD (p - h) 0) (res.getD p 0)
        else res.getD p 0 := by
  intro n
  induction n with
  | zero =>
    intro res hn hlen p
    simp only [List.range_zero, List.foldl_nil]
    rw [if_neg (by omega), if_neg (by omega)]
  | succ n ih =>
    intro res hn hlen p
    have hstepl : ∀ a j, (step a j).length = a.length := by
      intro a j; rw [hstep]; simp
    have hlen' : ((List.range n).foldl step res).length = res.length :=
      bfFold_length step hstepl (List.range n) res
    have hn' : n ≤ h := by omega
    rw [List.range_succ, List.foldl_append, List.foldl_cons, List.foldl_nil, hstep]
    have hrd1 : ((List.range n).foldl step res).getD (i + n) 0
        = res.getD (i + n) 0 := by
      rw [ih res hn' hlen (i + n), if_neg (by omega), if_neg (by omega)]
    have hrd2 : ((List.range n).foldl step res).getD (i + n + h) 0
        = res.getD (i + n + h) 0 := by
      rw [ih res hn' hlen (i + n + h), if_neg (by omega), if_neg (by omega)]
    rw [hrd1, hrd2]
    by_cases hp2 : p = i + n + h
    · subst hp2
      rw [getD_set_self _ _ _ _ (by simp [hlen']; omega)]
      rw [if_neg (by omega), if_pos (by omega)]
      have e : i + n + h - h = i + n := by omega
      rw [e]
    · by_cases hp1 : p = i + n
      · subst hp1
        rw [getD_set_ne _ _ _ _ _ (by omega), getD_set_self _ _ _ _ (by simp [hlen']; omega)]
        rw [if_pos (by omega)]
      · rw [getD_set_ne _ _ _ _ _ (by omega), getD_set_ne _ _ _ _ _ (by omega),
          ih res hn' hlen p]
        by_cases hc1 : i ≤ p ∧ p < i + n
        · rw [if_pos hc1, if_pos (by omega)]
        · by_cases hc2 : i + h ≤ p ∧ p < i + n + h
          · rw [if_neg hc1, if_pos hc2, if_neg (by omega), if_pos (by omega)]
          · rw [if_neg hc1, if_neg hc2, if_neg (by omega), if_neg (by omega)]

theorem nttChunkFwd_length (c i h : Nat) (res : List Nat) :
    (nttChunkFwd c i h res).length = res.length :=
  bfFold_length _ (fun a j => by simp [bfStepFwd]) _ res

theorem nttChunkInv_length (c i h : Nat) (res : List Nat) :
    (nttChunkInv c i h res).length = res.length :=
  bfFold_length _ (fun a j => by simp [bfStepInv]) _ res

theorem nttChunkFwd_getD (c i h : Nat) (res : List Nat)
    (hlen : i + 2 * h ≤ res.length) (p : Nat) :
    (nttChunkFwd c i h res).getD p 0 =
      if i ≤ p ∧ p < i + h then
        b16Add (res.getD p 0) (b16Mul (res.getD (p + h) 0) c)
      else if i + h ≤ p ∧ p < i + h + h then
        b16Add (b16Add (res.getD (p - h) 0) (b16Mul (res.getD p 0) c))
          (res.getD p 0)
      else res.getD p 0 :=
  bfFold_getD (fun l r => b16Add l (b16Mul r c))
    (fun l r => b16Add (b16Add l (b16Mul r c)) r) i h (bfStepFwd c i h)
    (fun a j => rfl) h res le_rfl hlen p

theorem nttChunkInv_getD (c i h : Nat) (res : List Nat)
    (hlen : i + 2 * h ≤ res.length) (p : Nat) :
    (nttChunkInv c i h res).getD p 0 =
      if i ≤ p ∧ p < i + h then
        b16Add (b16Mul (res.getD p 0) (b16Add c 1)) (b16Mul (res.getD (p + h) 0) c)
      else if i + h ≤ p ∧ p < i + h + h then
        b16Add (res.getD (p - h) 0) (res.getD p 0)
      else res.getD p 0 :=
  bfFold_getD (fun l r => b16Add (b16Mul l (b16Add c 1)) (b16Mul r c))
    (fun l r => b16Add l r) i h (bfStepInv c i h)
    (fun a j => rfl) h res le_rfl hlen p

/-! ### Pointwise characterization of one NTT pass -/

/-- Base index of the chunk containing position `p`, for chunks of size
`2h` starting at `i`. -/
def chunkBase (h i p : Nat) : Nat := i + 2 * h * ((p - i) / (2 * h))

/-- The coefficient used by the chunk based at `b` of a pass at halflen `h`. -/
def passCoeff (h start b : Nat) : Nat :=
  Wcache (natLog2 h) ((start + b) % 65536)

theorem get_Wi_eval_eq (dim pt : Nat) (hdim : dim < 16) :
    get_Wi_eval dim pt = some (Wcache dim pt) := by
  unfold get_Wi_eval
  by_cases h0 : dim = 0
  · subst h0; rfl
  · rw [if_neg h0, if_pos hdim]

theorem get_passCoeff (h start b : Nat) (hdim : natLog2 h < 16) :
    get_Wi_eval (natLog2 h) ((start + b) % 65536) = some (passCoeff h start b) :=
  get_Wi_eval_eq _ _ hdim

theorem chunkBase_le (h i p : Nat) (hp : i ≤ p) : chunkBase h i p ≤ p := by
  unfold chunkBase
  have h1 : 2 * h * ((p - i) / (2 * h)) ≤ p - i := by
    rw [Nat.mul_comm]
    exact Nat.div_mul_le_self _ _
  omega

theorem chunkBase_lt (h i p : Nat) (hh : 0 < h) (hp : i ≤ p) :
    p < chunkBase h i p + 2 * h := by
  unfold chunkBase
  have h1 := Nat.div_add_mod (p - i) (2 * h)
  have h2 : (p - i) % (2 * h) < 2 * h := Nat.mod_lt _ (by omega)
  omega

theorem chunkBase_ge (h i p : Nat) : i ≤ chunkBase h i p := Nat.le_add_right _ _

theorem chunkBase_ge2 (h i p : Nat) (hh : 0 < h) (hp : i + 2 * h ≤ p) :
    i + 2 * h ≤ chunkBase h i p := by
  unfold chunkBase
  have h1 : 1 ≤ (p - i) / (2 * h) := (Nat.one_le_div_iff (by omega)).mpr (by omega)
  have h2 : 2 * h * 1 ≤ 2 * h * ((p - i) / (2 * h)) :=
    Nat.mul_le_mul_left _ h1
  omega

theorem chunkBase_shift (h i p : Nat) (hh : 0 < h) (hp : i + 2 * h ≤ p) :
    chunkBase h (i + 2 * h) p = chunkBase h i p := by
  unfold chunkBase
  have hp2 : p - i = (p - (i + 2 * h)) + 2 * h := by omega
  rw [hp2, Nat.add_div_right _ (by omega)]
  ring

/-- Generic pointwise description of the chunk loop of one NTT pass:
position `p` of the output is the butterfly image of positions of its own
chunk, with the coefficient drawn from the chunk's base offset. -/
theorem nttChunks_spec
    (chunksF : Nat → Nat → Nat → Nat → List Nat → Option (List Nat))
    (chunkF : Nat → Nat → Nat → List Nat → List Nat)
    (f1 f2 : Nat → Nat → Nat → Nat)
    (h start : Nat) (hh : 0 < h) (hdim : natLog2 h < 16)
    (hch0 : ∀ i res, chunksF 0 h start i res = some res)
    (hchS : ∀ n i res c, get_Wi_eval (natLog2 h) ((start + i) % 65536) = some c →
      chunksF (n + 1) h start i res = chunksF n h start (i + 2 * h) (chunkF c i h res))
    (hclen : ∀ c i res, (chunkF c i h res).length = res.length)
    (hcget : ∀ c i res, i + 2 * h ≤ res.length → ∀ p, (chunkF c i h res).getD p 0 =
      if i ≤ p ∧ p < i + h then f1 c (res.getD p 0) (res.getD (p + h) 0)
      else if i + h ≤ p ∧ p < i + h + h then f2 c (res.getD (p - h) 0) (res.getD p 0)
      else res.getD p 0) :
    ∀ n i res, i + 2 * h * n ≤ res.length →
    ∃ out, chunksF n h start i res = some out ∧ out.length = res.length ∧
      ∀ p, out.getD p 0 =
        if i ≤ p ∧ p < i + 2 * h * n then
          if p < chunkBase h i p + h then
            f1 (passCoeff h start (chunkBase h i p)) (res.getD p 0) (res.getD (p + h) 0)
          else
            f2 (passCoeff h start (chunkBase h i p)) (res.getD (p - h) 0) (res.getD p 0)
        else res.getD p 0 := by
  intro n
  induction n with
  | zero =>
    intro i res hlen
    refine ⟨res, hch0 i res, rfl, fun p => ?_⟩
    rw [if_neg (by rw [Nat.mul_zero]; omega)]
  | succ n ih =>
    intro i res hlen
    have h2h : (0 : Nat) < 2 * h := by omega
    have emul : 2 * h * (n + 1) = 2 * h * n + 2 * h := by ring
    rw [emul] at hlen
    have hlen1 : i + 2 * h ≤ res.length := by omega
    have hstep := hchS n i res (passCoeff h start i) (get_passCoeff h start i hdim)
    obtain ⟨out, hout, hlenout, hform⟩ :=
      ih (i + 2 * h) (chunkF (passCoeff h start i) i h res) (by rw [hclen]; omega)
    refine ⟨out, by rw [hstep]; exact hout, by rw [hlenout, hclen], fun p => ?_⟩
    rw [hform p, emul]
    by_cases hr1 : i + 2 * h ≤ p ∧ p < i + 2 * h + 2 * h * n
    · -- later chunks: the first chunk left these positions' data unchanged
      have hbeq := chunkBase_shift h i p hh (by omega)
      have hb2 := chunkBase_ge2 h i p hh (by omega)
      have hout : i ≤ p ∧ p < i + (2 * h * n + 2 * h) := by omega
      rw [if_pos hr1, hbeq]
      by_cases hinner : p < chunkBase h i p + h
      · rw [if_pos hinner, if_pos hout, if_pos hinner,
          hcget (passCoeff h start i) i res hlen1 p,
          hcget (passCoeff h start i) i res hlen1 (p + h),
          if_neg (by omega), if_neg (by omega), if_neg (by omega), if_neg (by omega)]
      · rw [if_neg hinner, if_pos hout, if_neg hinner,
          hcget (passCoeff h start i) i res hlen1 (p - h),
          hcget (passCoeff h start i) i res hlen1 p,
          if_neg (by omega), if_neg (by omega), if_neg (by omega), if_neg (by omega)]
    · by_cases hr2 : i ≤ p ∧ p < i + 2 * h
      · -- the first chunk
        rw [if_neg (by omega), if_pos (by omega),
          hcget (passCoeff h start i) i res hlen1 p]
        have hbase : chunkBase h i p = i := by
          unfold chunkBase
          rw [Nat.div_eq_of_lt (by omega), Nat.mul_zero]
          omega
        rw [hbase]
        by_cases hph : p < i + h
        · rw [if_pos (by omega), if_pos hph]
        · rw [if_neg (by omega), if_pos (by omega), if_neg hph]
      · -- outside all chunks
        rw [if_neg (by omega), if_neg (by omega),
          hcget (passCoeff h start i) i res hlen1 p,
          if_neg (by omega), if_neg (by omega)]

theorem nttChunksFwd_spec (h start : Nat) (hh : 0 < h) (hdim : natLog2 h < 16) :
    ∀ n i res, i + 2 * h * n ≤ res.length →
    ∃ out, nttChunksFwd n h start i res = some out ∧ out.length = res.length ∧
      ∀ p, out.getD p 0 =
        if i ≤ p ∧ p < i + 2 * h * n then
          if p < chunkBase h i p + h then
            b16Add (res.getD p 0)
              (b16Mul (res.getD (p + h) 0) (passCoeff h start (chunkBase h i p)))
          else
            b16Add (b16Add (res.getD (p - h) 0)
              (b16Mul (res.getD p 0) (passCoeff h start (chunkBase h i p))))
              (res.getD p 0)
        else res.getD p 0 :=
  nttChunks_spec nttChunksFwd nttChunkFwd
    (fun c l r => b16Add l (b16Mul r c))
    (fun c l r => b16Add (b16Add l (b16Mul r c)) r)
    h start hh hdim (fun i res => rfl)
    (fun n i res c hc => by
      show (match get_Wi_eval (natLog2 h) ((start + i) % 65536) with
        | none => none
        | some c => nttChunksFwd n h start (i + 2 * h) (nttChunkFwd c i h res)) = _
      rw [hc])
    (fun c i res => nttChunkFwd_length c i h res)
    (fun c i res hl p => nttChunkFwd_getD c i h res hl p)

theorem nttChunksInv_spec (h start : Nat) (hh : 0 < h) (hdim : natLog2 h < 16) :
    ∀ n i res, i + 2 * h * n ≤ res.length →
    ∃ out, nttChunksInv n h start i res = some out ∧ out.length = res.length ∧
      ∀ p, out.getD p 0 =
        if i ≤ p ∧ p < i + 2 * h * n then
          if p < chunkBase h i p + h then
            b16Add (b16Mul (res.getD p 0) (b16Add (passCoeff h start (chunkBase h i p)) 1))
              (b16Mul (res.getD (p + h) 0) (passCoeff h start (chunkBase h i p)))
          else
            b16Add (res.getD (p - h) 0) (res.getD p 0)
        else res.getD p 0 :=
  nttChunks_spec nttChunksInv nttChunkInv
    (fun c l r => b16Add (b16Mul l (b16Add c 1)) (b16Mul r c))
    (fun c l r => b16Add l r)
    h start hh hdim (fun i res => rfl)
    (fun n i res c hc => by
      show (match get_Wi_eval (natLog2 h) ((start + i) % 65536) with
        | none => none
        | some c => nttChunksInv n h start (i + 2 * h) (nttChunkInv c i h res)) = _
      rw [hc])
    (fun c i res => nttChunkInv_length c i h res)
    (fun c i res hl p => nttChunkInv_getD c i h res hl p)

theorem list_eq_of_getD (A B : List Nat) (hlen : A.length = B.length)
    (h : ∀ p, A.getD p 0 = B.getD p 0) : A = B := by
  apply List.ext_getElem hlen
  intro i h1 h2
  have hp := h i
  rwa [List.getD_eq_getElem _ _ h1, List.getD_eq_getElem _ _ h2] at hp

theorem passCoeff_lt (h start b : Nat) (hdim : natLog2 h < 16) :
    passCoeff h start b < 2 ^ 16 := by
  unfold passCoeff
  apply Wcache_lt _ _ (by omega)
  have h2 : (2 : Nat) ^ 16 = 65536 := by norm_num
  rw [h2]
  exact Nat.mod_lt _ (by norm_num)

theorem chunkBase_zero (h p : Nat) : chunkBase h 0 p = 2 * h * (p / (2 * h)) := by
  unfold chunkBase
  rw [Nat.sub_zero, Nat.zero_add]

theorem chunkBase_eq_of_div (h p q : Nat) (hdiv : p / (2 * h) = q / (2 * h)) :
    chunkBase h 0 p = chunkBase h 0 q := by
  rw [chunkBase_zero, chunkBase_zero, hdiv]

theorem inner_iff_mod (h p : Nat) (hh : 0 < h) :
    p < chunkBase h 0 p + h ↔ p % (2 * h) < h := by
  rw [chunkBase_zero]
  have hd := Nat.div_add_mod p (2 * h)
  omega

theorem div_add_h (h p : Nat) (hh : 0 < h) (hqm : p % (2 * h) < h) :
    (p + h) / (2 * h) = p / (2 * h) := by
  conv_lhs => rw [show p + h = 2 * h * (p / (2 * h)) + (p % (2 * h) + h) from by
    have hd := Nat.div_add_mod p (2 * h); omega]
  have hz : (p % (2 * h) + h) / (2 * h) = 0 := Nat.div_eq_of_lt (by omega)
  rw [Nat.mul_add_div (by omega), hz, Nat.add_zero]

theorem div_sub_h (h p : Nat) (hh : 0 < h) (hqm : h ≤ p % (2 * h)) :
    (p - h) / (2 * h) = p / (2 * h) := by
  have hm : p % (2 * h) < 2 * h := Nat.mod_lt _ (by omega)
  conv_lhs => rw [show p - h = 2 * h * (p / (2 * h)) + (p % (2 * h) - h) from by
    have hd := Nat.div_add_mod p (2 * h); omega]
  have hz : (p % (2 * h) - h) / (2 * h) = 0 := Nat.div_eq_of_lt (by omega)
  rw [Nat.mul_add_div (by omega), hz, Nat.add_zero]

theorem chunkBase_add_le (h : Nat) (hh : 0 < h) (L p : Nat)
    (hdvd : L % (2 * h) = 0) (hp : p < L) : chunkBase h 0 p + 2 * h ≤ L := by
  rw [chunkBase_zero]
  have h1 : p / (2 * h) < L / (2 * h) :=
    Nat.div_lt_div_of_lt_of_dvd (Nat.dvd_of_mod_eq_zero hdvd) hp
  have h2 : 2 * h * (p / (2 * h) + 1) ≤ 2 * h * (L / (2 * h)) :=
    Nat.mul_le_mul_left _ h1
  have h3 : 2 * h * (p / (2 * h) + 1) = 2 * h * (p / (2 * h)) + 2 * h := by ring
  have h4 : 2 * h * (L / (2 * h)) ≤ L := by
    have := Nat.div_add_mod L (2 * h); omega
  omega

/-- One forward pass, for `2h ∣ length`: success, length preservation, and
the pointwise butterfly description. -/
theorem nttPassFwd_spec (h start : Nat) (hh : 0 < h) (hdim : natLog2 h < 16)
    (res : List Nat) (hdvd : res.length % (2 * h) = 0) :
    ∃ out, nttPassFwd h start res = some out ∧ out.length = res.length ∧
      ∀ p, out.getD p 0 =
        if p < res.length then
          if p < chunkBase h 0 p + h then
            b16Add (res.getD p 0)
              (b16Mul (res.getD (p + h) 0) (passCoeff h start (chunkBase h 0 p)))
          else
            b16Add (b16Add (res.getD (p - h) 0)
              (b16Mul (res.getD p 0) (passCoeff h start (chunkBase h 0 p))))
              (res.getD p 0)
        else res.getD p 0 := by
  have hev : 2 * h * (res.length / (2 * h)) = res.length := by
    have := Nat.div_add_mod res.length (2 * h); omega
  obtain ⟨out, hout, hl, hf⟩ :=
    nttChunksFwd_spec h start hh hdim (res.length / (2 * h)) 0 res (by omega)
  refine ⟨out, ?_, hl, fun p => ?_⟩
  · unfold nttPassFwd
    rw [if_pos hdvd]
    exact hout
  · rw [hf p]
    by_cases hp : p < res.length
    · rw [if_pos (by omega), if_pos hp]
    · rw [if_neg (by omega), if_neg hp]

/-- One inverse pass, for `2h ∣ length`. -/
theorem nttPassInv_spec (h start : Nat) (hh : 0 < h) (hdim : natLog2 h < 16)
    (res : List Nat) (hdvd : res.length % (2 * h) = 0) :
    ∃ out, nttPassInv h start res = some out ∧ out.length = res.length ∧
      ∀ p, out.getD p 0 =
        if p < res.length then
          if p < chunkBase h 0 p + h then
            b16Add (b16Mul (res.getD p 0) (b16Add (passCoeff h start (chunkBase h 0 p)) 1))
              (b16Mul (res.getD (p + h) 0) (passCoeff h start (chunkBase h 0 p)))
          else
            b16Add (res.getD (p - h) 0) (res.getD p 0)
        else res.getD p 0 := by
  have hev : 2 * h * (res.length / (2 * h)) = res.length := by
    have := Nat.div_add_mod res.length (2 * h); omega
  obtain ⟨out, hout, hl, hf⟩ :=
    nttChunksInv_spec h start hh hdim (res.length / (2 * h)) 0 res (by omega)
  refine ⟨out, ?_, hl, fun p => ?_⟩
  · unfold nttPassInv
    rw [if_pos hdvd]
    exact hout
  · rw [hf p]
    by_cases hp : p < res.length
    · rw [if_pos (by omega), if_pos hp]
    · rw [if_neg (by omega), if_neg hp]

theorem nttPassFwd_bounded (h start : Nat) (hh : 0 < h) (hdim : natLog2 h < 16)
    (res out : List Nat) (hdvd : res.length % (2 * h) = 0)
    (hb : ∀ p, res.getD p 0 < 2 ^ 16)
    (hout : nttPassFwd h start res = some out) :
    ∀ p, out.getD p 0 < 2 ^ 16 := by
  obtain ⟨out', hout', hl', hf'⟩ := nttPassFwd_spec h start hh hdim res hdvd
  rw [hout] at hout'
  obtain rfl : out = out' := Option.some.inj hout'
  intro p
  rw [hf' p]
  have hc := passCoeff_lt h start (chunkBase h 0 p) hdim
  split_ifs
  · exact xor_lt16 _ _ (hb p) (b16Mul_lt16 _ _ (hb (p + h)) hc)
  · exact xor_lt16 _ _ (xor_lt16 _ _ (hb (p - h)) (b16Mul_lt16 _ _ (hb p) hc)) (hb p)
  · exact hb p

theorem nttPassInv_bounded (h start : Nat) (hh : 0 < h) (hdim : natLog2 h < 16)
    (res out : List Nat) (hdvd : res.length % (2 * h) = 0)
    (hb : ∀ p, res.getD p 0 < 2 ^ 16)
    (hout : nttPassInv h start res = some out) :
    ∀ p, out.getD p 0 < 2 ^ 16 := by
  obtain ⟨out', hout', hl', hf'⟩ := nttPassInv_spec h start hh hdim res hdvd
  rw [hout] at hout'
  obtain rfl : out = out' := Option.some.inj hout'
  intro p
  rw [hf' p]
  have hc := passCoeff_lt h start (chunkBase h 0 p) hdim
  split_ifs
  · exact xor_lt16 _ _ (b16Mul_lt16 _ _ (hb p) (xor_lt16 _ _ hc (by norm_num)))
      (b16Mul_lt16 _ _ (hb (p + h)) hc)
  · exact xor_lt16 _ _ (hb (p - h)) (hb p)
  · exact hb p

/-- An inverse pass undoes the matching forward pass. -/
theorem nttPass_inv_of_fwd (h start : Nat) (hh : 0 < h) (hdim : natLog2 h < 16)
    (res out : List Nat) (hdvd : res.length % (2 * h) = 0)
    (hb : ∀ p, res.getD p 0 < 2 ^ 16)
    (hout : nttPassFwd h start res = some out) :
    nttPassInv h start out = some res := by
  obtain ⟨out', hout', hl', hf'⟩ := nttPassFwd_spec h start hh hdim res hdvd
  rw [hout] at hout'
  obtain rfl : out = out' := Option.some.inj hout'
  obtain ⟨out2, hout2, hl2, hf2⟩ :=
    nttPassInv_spec h start hh hdim out (by rw [hl']; exact hdvd)
  rw [hout2]
  congr 1
  apply list_eq_of_getD _ _ (by omega)
  intro p
  rw [hf2 p, hl']
  by_cases hp : p < res.length
  · rw [if_pos hp]
    have hbase2h := chunkBase_add_le h hh res.length p hdvd hp
    have hble := chunkBase_le h 0 p (Nat.zero_le p)
    have hblt := chunkBase_lt h 0 p hh (Nat.zero_le p)
    by_cases hin : p < chunkBase h 0 p + h
    · rw [if_pos hin]
      have hfp := hf' p
      rw [if_pos hp, if_pos hin] at hfp
      have hbb : chunkBase h 0 (p + h) = chunkBase h 0 p :=
        chunkBase_eq_of_div _ _ _ (div_add_h h p hh ((inner_iff_mod h p hh).mp hin))
      have hfph := hf' (p + h)
      rw [if_pos (by omega), hbb, if_neg (by omega)] at hfph
      have e : p + h - h = p := by omega
      rw [e] at hfph
      rw [hfp, hfph]
      exact butterfly_inv_fwd (res.getD p 0) (res.getD (p + h) 0) _
        (hb p) (hb (p + h)) (passCoeff_lt _ _ _ hdim)
    · rw [if_neg hin]
      have hq : h ≤ p % (2 * h) := by
        rcases Nat.lt_or_ge (p % (2 * h)) h with hc | hc
        · exact absurd ((inner_iff_mod h p hh).mpr hc) hin
        · exact hc
      have hbb : chunkBase h 0 (p - h) = chunkBase h 0 p :=
        chunkBase_eq_of_div _ _ _ (div_sub_h h p hh hq)
      have hfpm := hf' (p - h)
      rw [if_pos (by omega), hbb, if_pos (by omega)] at hfpm
      have e : p - h + h = p := by omega
      rw [e] at hfpm
      have hfp := hf' p
      rw [if_pos hp, if_neg hin] at hfp
      rw [hfpm, hfp]
      simp only [b16Add]
      exact xor_cancel_left _ _
  · rw [if_neg hp]
    have hfp := hf' p
    rw [if_neg hp] at hfp
    exact hfp

/-- A forward pass undoes the matching inverse pass. -/
theorem nttPass_fwd_of_inv (h start : Nat) (hh : 0 < h) (hdim : natLog2 h < 16)
    (res out : List Nat) (hdvd : res.length % (2 * h) = 0)
    (hb : ∀ p, res.getD p 0 < 2 ^ 16)
    (hout : nttPassInv h start res = some out) :
    nttPassFwd h start out = some res := by
  obtain ⟨out', hout', hl', hf'⟩ := nttPassInv_spec h start hh hdim res hdvd
  rw [hout] at hout'
  obtain rfl : out = out' := Option.some.inj hout'
  obtain ⟨out2, hout2, hl2, hf2⟩ :=
    nttPassFwd_spec h start hh hdim out (by rw [hl']; exact hdvd)
  rw [hout2]
  congr 1
  apply list_eq_of_getD _ _ (by omega)
  intro p
  rw [hf2 p, hl']
  by_cases hp : p < res.length
  · rw [if_pos hp]
    have hbase2h := chunkBase_add_le h hh res.length p hdvd hp
    have hble := chunkBase_le h 0 p (Nat.zero_le p)
    have hblt := chunkBase_lt h 0 p hh (Nat.zero_le p)
    by_cases hin : p < chunkBase h 0 p + h
    · rw [if_pos hin]
      have hfp := hf' p
      rw [if_pos hp, if_pos hin] at hfp
      have hbb : chunkBase h 0 (p + h) = chunkBase h 0 p :=
        chunkBase_eq_of_div _ _ _ (div_add_h h p hh ((inner_iff_mod h p hh).mp hin))
      have hfph := hf' (p + h)
      rw [if_pos (by omega), hbb, if_neg (by omega)] at hfph
      have e : p + h - h = p := by omega
      rw [e] at hfph
      rw [hfp, hfph]
      exact butterfly_fwd_inv (res.getD p 0) (res.getD (p + h) 0) _
        (hb p) (hb (p + h)) (passCoeff_lt _ _ _ hdim)
    · rw [if_neg hin]
      have hq : h ≤ p % (2 * h) := by
        rcases Nat.lt_or_ge (p % (2 * h)) h with hc | hc
        · exact absurd ((inner_iff_mod h p hh).mpr hc) hin
        · exact hc
      have hbb : chunkBase h 0 (p - h) = chunkBase h 0 p :=
        chunkBase_eq_of_div _ _ _ (div_sub_h h p hh hq)
      have hfpm := hf' (p - h)
      rw [if_pos (by omega), hbb, if_pos (by omega)] at hfpm
      have e : p - h + h = p := by omega
      rw [e] at hfpm
      have hfp := hf' p
      rw [if_pos hp, if_neg hin] at hfp
      rw [hfpm, hfp]
      have hAB := butterfly_fwd_inv (res.getD (p - h) 0) (res.getD p 0)
        (passCoeff h start (chunkBase h 0 p)) (hb (p - h)) (hb p)
        (passCoeff_lt _ _ _ hdim)
      rw [hAB]
      simp only [b16Add]
      exact xor_cancel_left _ _
  · rw [if_neg hp]
    have hfp := hf' p
    rw [if_neg hp] at hfp
    exact hfp

/-! ### The pass sequences performed by the two NTT loops -/

/-- The forward loop performs passes at halflens `2^(j+n-1), …, 2^j`. -/
def fwdPasses : Nat → Nat → Nat → List Nat → Option (List Nat)
  | 0, _, _, res => some res
  | n + 1, j, start, res =>
    (nttPassFwd (2 ^ (j + n)) start res).bind (fwdPasses n j start)

/-- The inverse loop performs passes at halflens `2^j, 2^(j+1), …, 2^(j+n-1)`. -/
def invPasses : Nat → Nat → Nat → List Nat → Option (List Nat)
  | 0, _, _, res => some res
  | n + 1, j, start, res =>
    (nttPassInv (2 ^ j) start res).bind (invPasses n (j + 1) start)

theorem additive_nttF_eq_fwdPasses :
    ∀ n fuel start res, n ≤ fuel →
      additive_nttF fuel (2 ^ n) start res = fwdPasses n 0 start res := by
  intro n
  induction n with
  | zero =>
    intro fuel start res hf
    cases fuel with
    | zero => rfl
    | succ f =>
      show (if 2 ≤ 2 ^ 0 then
          match nttPassFwd (2 ^ 0 / 2) start res with
          | none => none
          | some r => additive_nttF f (2 ^ 0 / 2) start r
        else some res) = some res
      rw [if_neg (by norm_num)]
  | succ n ih =>
    intro fuel start res hf
    cases fuel with
    | zero => omega
    | succ f =>
      have h2 : (2 : Nat) ≤ 2 ^ (n + 1) := by
        calc (2 : Nat) = 2 ^ 1 := rfl
          _ ≤ 2 ^ (n + 1) := Nat.pow_le_pow_right (by norm_num) (by omega)
      show (if 2 ≤ 2 ^ (n + 1) then
          match nttPassFwd (2 ^ (n + 1) / 2) start res with
          | none => none
          | some r => additive_nttF f (2 ^ (n + 1) / 2) start r
        else some res) = fwdPasses (n + 1) 0 start res
      rw [if_pos h2, two_pow_succ_div_two]
      show _ = (nttPassFwd (2 ^ (0 + n)) start res).bind (fwdPasses n 0 start)
      rw [Nat.zero_add]
      rcases hps : nttPassFwd (2 ^ n) start res with _ | r
      · rfl
      · show additive_nttF f (2 ^ n) start r = (some r).bind (fwdPasses n 0 start)
        rw [Option.some_bind]
        exact ih f start r (by omega)

theorem inv_additive_nttF_eq_invPasses :
    ∀ n j fuel start res, n ≤ fuel →
      inv_additive_nttF fuel (2 ^ (j + n)) (2 ^ j) start res =
        invPasses n j start res := by
  intro n
  induction n with
  | zero =>
    intro j fuel start res hf
    cases fuel with
    | zero => rfl
    | succ f =>
      show (if 2 ^ j < 2 ^ (j + 0) then
          match nttPassInv (2 ^ j) start res with
          | none => none
          | some r => inv_additive_nttF f (2 ^ (j + 0)) (2 * 2 ^ j) start r
        else some res) = some res
      rw [Nat.add_zero, if_neg (lt_irrefl _)]
  | succ n ih =>
    intro j fuel start res hf
    cases fuel with
    | zero => omega
    | succ f =>
      have hlt : 2 ^ j < 2 ^ (j + (n + 1)) :=
        Nat.pow_lt_pow_right (by norm_num) (by omega)
      show (if 2 ^ j < 2 ^ (j + (n + 1)) then
          match nttPassInv (2 ^ j) start res with
          | none => none
          | some r => inv_additive_nttF f (2 ^ (j + (n + 1))) (2 * 2 ^ j) start r
        else some res) = invPasses (n + 1) j start res
      rw [if_pos hlt]
      show _ = (nttPassInv (2 ^ j) start res).bind (invPasses n (j + 1) start)
      rcases hps : nttPassInv (2 ^ j) start res with _ | r
      · rfl
      · show inv_additive_nttF f (2 ^ (j + (n + 1))) (2 * 2 ^ j) start r
          = (some r).bind (invPasses n (j + 1) start)
        rw [Option.some_bind]
        have e : 2 * 2 ^ j = 2 ^ (j + 1) := by ring
        have e2 : j + (n + 1) = (j + 1) + n := by omega
        rw [e, e2]
        exact ih (j + 1) f start r (by omega)

theorem additive_ntt_eq (V : List Nat) (d start : Nat) (hlen : V.length = 2 ^ d) :
    additive_ntt V start = fwdPasses d 0 start V := by
  unfold additive_ntt
  rw [hlen]
  exact additive_nttF_eq_fwdPasses d (2 ^ d) start V (le_of_lt (Nat.lt_two_pow d))

theorem inv_additive_ntt_eq (V : List Nat) (d start : Nat)
    (hlen : V.length = 2 ^ d) :
    inv_additive_ntt V start = invPasses d 0 start V := by
  unfold inv_additive_ntt
  by_cases h1 : V.length = 1
  · rw [if_pos h1]
    have hd : d = 0 := by
      rcases Nat.eq_zero_or_pos d with h | h
      · exact h
      · exfalso
        have h2 : (2 : Nat) ^ 1 ≤ 2 ^ d := Nat.pow_le_pow_right (by norm_num) h
        omega
    subst hd
    rfl
  · rw [if_neg h1, hlen]
    have h := inv_additive_nttF_eq_invPasses d 0 (2 ^ d) start V
      (le_of_lt (Nat.lt_two_pow d))
    rw [Nat.zero_add] at h
    exact h

theorem pow_mod_pow_zero (t d : Nat) (h : t ≤ d) : (2 : Nat) ^ d % 2 ^ t = 0 :=
  Nat.mod_eq_zero_of_dvd (pow_dvd_pow 2 h)

theorem fwdPasses_snoc : ∀ n j start res,
    fwdPasses (n + 1) j start res =
      (fwdPasses n (j + 1) start res).bind (nttPassFwd (2 ^ j) start) := by
  intro n
  induction n with
  | zero =>
    intro j start res
    show (nttPassFwd (2 ^ (j + 0)) start res).bind (fwdPasses 0 j start)
      = (some res).bind (nttPassFwd (2 ^ j) start)
    rw [Nat.add_zero, Option.some_bind]
    rcases nttPassFwd (2 ^ j) start res with _ | r <;> rfl
  | succ n ih =>
    intro j start res
    show (nttPassFwd (2 ^ (j + (n + 1))) start res).bind (fwdPasses (n + 1) j start)
      = ((nttPassFwd (2 ^ ((j + 1) + n)) start res).bind
          (fwdPasses n (j + 1) start)).bind (nttPassFwd (2 ^ j) start)
    have e : j + (n + 1) = (j + 1) + n := by omega
    rw [e]
    rcases nttPassFwd (2 ^ ((j + 1) + n)) start res with _ | r
    · rfl
    · simp only [Option.some_bind]
      exact ih j start r

theorem fwdPasses_ok : ∀ n j start res d, res.length = 2 ^ d → j + n ≤ d → d ≤ 16 →
    (∀ p, res.getD p 0 < 2 ^ 16) →
    ∃ out, fwdPasses n j start res = some out ∧ out.length = 2 ^ d ∧
      ∀ p, out.getD p 0 < 2 ^ 16 := by
  intro n
  induction n with
  | zero =>
    intro j start res d h1 _ _ hb
    exact ⟨res, rfl, h1, hb⟩
  | succ n ih =>
    intro j start res d h1 h2 h3 hb
    have hh : (0 : Nat) < 2 ^ (j + n) := pow_pos (by norm_num) _
    have hdim : natLog2 (2 ^ (j + n)) < 16 := by
      rw [natLog2_eq, Nat.log2_two_pow]
      omega
    have hdvd : res.length % (2 * 2 ^ (j + n)) = 0 := by
      have h2p : 2 * 2 ^ (j + n) = 2 ^ (j + n + 1) := by ring
      rw [h1, h2p]
      exact pow_mod_pow_zero _ _ (by omega)
    obtain ⟨r1, hr1, hl1, _⟩ := nttPassFwd_spec (2 ^ (j + n)) start hh hdim res hdvd
    have hb1 : ∀ p, r1.getD p 0 < 2 ^ 16 :=
      nttPassFwd_bounded _ start hh hdim res r1 hdvd hb hr1
    obtain ⟨out, hout, hlo, hbo⟩ := ih j start r1 d (by rw [hl1, h1]) (by omega) h3 hb1
    refine ⟨out, ?_, hlo, hbo⟩
    show (nttPassFwd (2 ^ (j + n)) start res).bind (fwdPasses n j start) = some out
    rw [hr1, Option.some_bind]
    exact hout

theorem invPasses_ok : ∀ n j start res d, res.length = 2 ^ d → j + n ≤ d → d ≤ 16 →
    (∀ p, res.getD p 0 < 2 ^ 16) →
    ∃ out, invPasses n j start res = some out ∧ out.length = 2 ^ d ∧
      ∀ p, out.getD p 0 < 2 ^ 16 := by
  intro n
  induction n with
  | zero =>
    intro j start res d h1 _ _ hb
    exact ⟨res, rfl, h1, hb⟩
  | succ n ih =>
    intro j start res d h1 h2 h3 hb
    have hh : (0 : Nat) < 2 ^ j := pow_pos (by norm_num) _
    have hdim : natLog2 (2 ^ j) < 16 := by
      rw [natLog2_eq, Nat.log2_two_pow]
      omega
    have hdvd : res.length % (2 * 2 ^ j) = 0 := by
      have h2p : 2 * 2 ^ j = 2 ^ (j + 1) := by ring
      rw [h1, h2p]
      exact pow_mod_pow_zero _ _ (by omega)
    obtain ⟨r1, hr1, hl1, _⟩ := nttPassInv_spec (2 ^ j) start hh hdim res hdvd
    have hb1 : ∀ p, r1.getD p 0 < 2 ^ 16 :=
      nttPassInv_bounded _ start hh hdim res r1 hdvd hb hr1
    obtain ⟨out, hout, hlo, hbo⟩ :=
      ih (j + 1) start r1 d (by rw [hl1, h1]) (by omega) h3 hb1
    refine ⟨out, ?_, hlo, hbo⟩
    show (nttPassInv (2 ^ j) start res).bind (invPasses n (j + 1) start) = some out
    rw [hr1, Option.some_bind]
    exact hout

/-- The inverse passes undo the forward passes over the same range. -/
theorem fwd_inv_telescope : ∀ n j start res d, res.length = 2 ^ d → j + n ≤ d →
    d ≤ 16 → (∀ p, res.getD p 0 < 2 ^ 16) →
    (fwdPasses n j start res).bind (invPasses n j start) = some res := by
  intro n
  induction n with
  | zero =>
    intro j start res d _ _ _ _
    rfl
  | succ n ih =>
    intro j start res d h1 h2 h3 hb
    rw [fwdPasses_snoc]
    obtain ⟨Y, hY, hlY, hbY⟩ := fwdPasses_ok n (j + 1) start res d h1 (by omega) h3 hb
    rw [hY, Option.some_bind]
    have hh : (0 : Nat) < 2 ^ j := pow_pos (by norm_num) _
    have hdim : natLog2 (2 ^ j) < 16 := by
      rw [natLog2_eq, Nat.log2_two_pow]
      omega
    have hdvd : Y.length % (2 * 2 ^ j) = 0 := by
      have h2p : 2 * 2 ^ j = 2 ^ (j + 1) := by ring
      rw [hlY, h2p]
      exact pow_mod_pow_zero _ _ (by omega)
    obtain ⟨Z, hZ, hlZ, _⟩ := nttPassFwd_spec (2 ^ j) start hh hdim Y hdvd
    rw [hZ]
    show invPasses (n + 1) j start Z = some res
    show (nttPassInv (2 ^ j) start Z).bind (invPasses n (j + 1) start) = some res
    rw [nttPass_inv_of_fwd (2 ^ j) start hh hdim Y Z hdvd hbY hZ, Option.some_bind]
    have htel := ih (j + 1) start res d h1 (by omega) h3 hb
    rw [hY, Option.some_bind] at htel
    exact htel

/-- The forward passes undo the inverse passes over the same range. -/
theorem inv_fwd_telescope : ∀ n j start res d, res.length = 2 ^ d → j + n ≤ d →
    d ≤ 16 → (∀ p, res.getD p 0 < 2 ^ 16) →
    (invPasses n j start res).bind (fwdPasses n j start) = some res := by
  intro n
  induction n with
  | zero =>
    intro j start res d _ _ _ _
    rfl
  | succ n ih =>
    intro j start res d h1 h2 h3 hb
    have hh : (0 : Nat) < 2 ^ j := pow_pos (by norm_num) _
    have hdim : natLog2 (2 ^ j) < 16 := by
      rw [natLog2_eq, Nat.log2_two_pow]
      omega
    have hdvd : res.length % (2 * 2 ^ j) = 0 := by
      have h2p : 2 * 2 ^ j = 2 ^ (j + 1) := by ring
      rw [h1, h2p]
      exact pow_mod_pow_zero _ _ (by omega)
    obtain ⟨Z, hZ, hlZ, _⟩ := nttPassInv_spec (2 ^ j) start hh hdim res hdvd
    have hbZ : ∀ p, Z.getD p 0 < 2 ^ 16 :=
      nttPassInv_bounded _ start hh hdim res Z hdvd hb hZ
    show ((nttPassInv (2 ^ j) start res).bind (invPasses n (j + 1) start)).bind
      (fwdPasses (n + 1) j start) = some res
    rw [hZ, Option.some_bind]
    obtain ⟨W, hW, hlW, hbW⟩ :=
      invPasses_ok n (j + 1) start Z d (by rw [hlZ, h1]) (by omega) h3 hbZ
    rw [hW, Option.some_bind, fwdPasses_snoc]
    have htel := ih (j + 1) start Z d (by rw [hlZ, h1]) (by omega) h3 hbZ
    rw [hW, Option.some_bind] at htel
    rw [htel, Option.some_bind]
    exact nttPass_fwd_of_inv (2 ^ j) start hh hdim res Z hdvd hb hZ

/-- C2: the inverse additive NTT undoes the forward additive NTT at start
offset 0, for vectors of `u16` values whose length is a power of two at
most `2^16` (beyond that the `Wi` cache lookup panics). -/
theorem ntt_roundtrip (V : List Nat) (d : Nat) (hd : d ≤ 16)
    (hlen : V.length = 2 ^ d) (hb : ∀ x ∈ V, x < 2 ^ 16) :
    (additive_ntt V 0).bind (fun w => inv_additive_ntt w 0) = some V := by
  have hb' : ∀ p, V.getD p 0 < 2 ^ 16 := by
    intro p
    by_cases hp : p < V.length
    · rw [List.getD_eq_getElem _ _ hp]
      exact hb _ (List.getElem_mem _)
    · rw [List.getD_eq_default _ _ (by omega)]
      norm_num
  rw [additive_ntt_eq V d 0 hlen]
  obtain ⟨W, hW, hlW, _⟩ := fwdPasses_ok d 0 0 V d hlen (by omega) hd hb'
  rw [hW, Option.some_bind]
  rw [inv_additive_ntt_eq W d 0 hlW]
  have htel := fwd_inv_telescope d 0 0 V d hlen (by omega) hd hb'
  rw [hW, Option.some_bind] at htel
  exact htel

theorem ntt_roundtrip_witness :
    (2 : Nat) ≤ 16 ∧ ([1, 2, 3, 4] : List Nat).length = 2 ^ 2 ∧
      (∀ x ∈ ([1, 2, 3, 4] : List Nat), x < 2 ^ 16) ∧
      (additive_ntt [1, 2, 3, 4] 0).bind (fun w => inv_additive_ntt w 0)
        = some [1, 2, 3, 4] :=
  ⟨by decide, by decide, by decide,
    ntt_roundtrip [1, 2, 3, 4] 2 (by decide) (by decide) (by decide)⟩

/-- At length `2^17` (a power of two), the first forward pass looks up
dimension 16 of the `Wi` cache, which is out of bounds: the roundtrip
panics instead of returning the input. -/
theorem ntt_roundtrip_counterexample :
    (List.replicate (2 ^ 17) (0 : Nat)).length = 2 ^ 17 ∧
      (additive_ntt (List.replicate (2 ^ 17) (0 : Nat)) 0).bind
        (fun w => inv_additive_ntt w 0) = none := by
  have hlen : (List.replicate (2 ^ 17) (0 : Nat)).length = 2 ^ 17 :=
    List.length_replicate (2 ^ 17) 0
  refine ⟨hlen, ?_⟩
  have hpass : ∀ W : List Nat, W.length = 2 ^ 17 →
      nttPassFwd (2 ^ 16) 0 W = none := by
    intro W hW
    unfold nttPassFwd
    rw [hW, if_pos (by norm_num),
      show (2 : Nat) ^ 17 / (2 * 2 ^ 16) = 1 from by norm_num]
    show (match get_Wi_eval (natLog2 (2 ^ 16)) ((0 + 0) % 65536) with
      | none => none
      | some c => nttChunksFwd 0 (2 ^ 16) 0 (0 + 2 * 2 ^ 16)
          (nttChunkFwd c 0 (2 ^ 16) W)) = none
    rw [show get_Wi_eval (natLog2 (2 ^ 16)) ((0 + 0) % 65536) = none from by decide]
  have h1 : additive_ntt (List.replicate (2 ^ 17) (0 : Nat)) 0 = none := by
    rw [additive_ntt_eq _ 17 0 hlen]
    show (nttPassFwd (2 ^ (0 + 16)) 0 (List.replicate (2 ^ 17) (0 : Nat))).bind
      (fwdPasses 16 0 0) = none
    rw [Nat.zero_add, hpass _ hlen]
    rfl
  rw [h1]
  rfl

/-! ### Prefix behaviour of the forward passes (for `extend`) -/

theorem getD_append_lt (A B : List Nat) (p : Nat) (h : p < A.length) :
    (A ++ B).getD p 0 = A.getD p 0 := by
  rw [List.getD_eq_getElem _ _ (by simp; omega), List.getD_eq_getElem _ _ h]
  exact List.getElem_append_left h

theorem getD_append_ge (A B : List Nat) (p : Nat) (h : A.length ≤ p) :
    (A ++ B).getD p 0 = B.getD (p - A.length) 0 := by
  by_cases h2 : p < A.length + B.length
  · rw [List.getD_eq_getElem _ _ (by simp; omega),
      List.getD_eq_getElem _ _ (by omega)]
    exact List.getElem_append_right h
  · rw [List.getD_eq_default _ _ (by simp; omega),
      List.getD_eq_default _ _ (by omega)]

theorem getD_take (A : List Nat) (n p : Nat) (h : p < n) :
    (A.take n).getD p 0 = A.getD p 0 := by
  by_cases h2 : p < A.length
  · rw [List.getD_eq_getElem _ _ (by rw [List.length_take]; omega),
      List.getD_eq_getElem _ _ h2]
    exact List.getElem_take _
  · rw [List.getD_eq_default _ _ (by rw [List.length_take]; omega),
      List.getD_eq_default _ _ (by omega)]

/-- A forward pass commutes with truncation to a prefix that is a whole
number of chunks. -/
theorem nttPassFwd_take (h start : Nat) (hh : 0 < h) (hdim : natLog2 h < 16)
    (Y out : List Nat) (B : Nat) (hB : B ≤ Y.length)
    (hdvdB : B % (2 * h) = 0) (hdvd : Y.length % (2 * h) = 0)
    (hout : nttPassFwd h start Y = some out) :
    nttPassFwd h start (Y.take B) = some (out.take B) := by
  obtain ⟨out', hout', hl', hf'⟩ := nttPassFwd_spec h start hh hdim Y hdvd
  rw [hout] at hout'
  obtain rfl : out = out' := Option.some.inj hout'
  have hlt : (Y.take B).length = B := by rw [List.length_take]; omega
  obtain ⟨outT, houtT, hlT, hfT⟩ :=
    nttPassFwd_spec h start hh hdim (Y.take B) (by rw [hlt]; exact hdvdB)
  rw [houtT]
  congr 1
  apply list_eq_of_getD _ _ (by rw [hlT, hlt, List.length_take]; omega)
  intro p
  rw [hfT p, hlt]
  by_cases hp : p < B
  · rw [if_pos hp]
    have hble := chunkBase_le h 0 p (Nat.zero_le p)
    have hbase2h := chunkBase_add_le h hh B p hdvdB hp
    rw [getD_take out B p hp, hf' p, if_pos (show p < Y.length from by omega)]
    by_cases hin : p < chunkBase h 0 p + h
    · rw [if_pos hin, if_pos hin, getD_take Y B p hp, getD_take Y B (p + h) (by omega)]
    · rw [if_neg hin, if_neg hin, getD_take Y B (p - h) (by omega), getD_take Y B p hp]
  · rw [if_neg hp]
    rw [List.getD_eq_default _ _ (by rw [hlt]; omega),
      List.getD_eq_default _ _ (by rw [List.length_take]; omega)]

theorem fwdPasses_add : ∀ a b j start res,
    fwdPasses (a + b) j start res =
      (fwdPasses a (j + b) start res).bind (fwdPasses b j start) := by
  intro a
  induction a with
  | zero =>
    intro b j start res
    show fwdPasses (0 + b) j start res = (some res).bind (fwdPasses b j start)
    rw [Nat.zero_add, Option.some_bind]
  | succ a ih =>
    intro b j start res
    have e1 : a + 1 + b = (a + b) + 1 := by omega
    rw [e1]
    show (nttPassFwd (2 ^ (j + (a + b))) start res).bind (fwdPasses (a + b) j start)
      = ((nttPassFwd (2 ^ ((j + b) + a)) start res).bind
          (fwdPasses a (j + b) start)).bind (fwdPasses b j start)
    have e2 : j + (a + b) = (j + b) + a := by omega
    rw [e2]
    rcases nttPassFwd (2 ^ ((j + b) + a)) start res with _ | r
    · rfl
    · simp only [Option.some_bind]
      exact ih b j start r

/-- The forward passes at halflens up to `2^(j+n) ≤ 2^m` commute with
truncation to the prefix of length `2^m`. -/
theorem fwdPasses_take : ∀ n j start Y out m d, Y.length = 2 ^ d → j + n ≤ m →
    m ≤ d → d ≤ 16 → fwdPasses n j start Y = some out →
    fwdPasses n j start (Y.take (2 ^ m)) = some (out.take (2 ^ m)) := by
  intro n
  induction n with
  | zero =>
    intro j start Y out m d h1 h2 h3 h4 hout
    obtain rfl : Y = out := Option.some.inj hout
    rfl
  | succ n ih =>
    intro j start Y out m d h1 h2 h3 h4 hout
    have hh : (0 : Nat) < 2 ^ (j + n) := pow_pos (by norm_num) _
    have hdim : natLog2 (2 ^ (j + n)) < 16 := by
      rw [natLog2_eq, Nat.log2_two_pow]
      omega
    have hdvd : Y.length % (2 * 2 ^ (j + n)) = 0 := by
      have e : 2 * 2 ^ (j + n) = 2 ^ (j + n + 1) := by ring
      rw [h1, e]
      exact pow_mod_pow_zero _ _ (by omega)
    obtain ⟨r1, hr1, hl1, _⟩ := nttPassFwd_spec (2 ^ (j + n)) start hh hdim Y hdvd
    have hout' : fwdPasses n j start r1 = some out := by
      have hx : (nttPassFwd (2 ^ (j + n)) start Y).bind (fwdPasses n j start)
        = some out := hout
      rwa [hr1, Option.some_bind] at hx
    have hdvdB : (2 : Nat) ^ m % (2 * 2 ^ (j + n)) = 0 := by
      have e : 2 * 2 ^ (j + n) = 2 ^ (j + n + 1) := by ring
      rw [e]
      exact pow_mod_pow_zero _ _ (by omega)
    have htk := nttPassFwd_take (2 ^ (j + n)) start hh hdim Y r1 (2 ^ m)
      (by rw [h1]; exact Nat.pow_le_pow_right (by norm_num) (by omega))
      hdvdB hdvd hr1
    show (nttPassFwd (2 ^ (j + n)) start (Y.take (2 ^ m))).bind
      (fwdPasses n j start) = some (out.take (2 ^ m))
    rw [htk, Option.some_bind]
    exact ih j start r1 out m d (by rw [hl1, h1]) (by omega) h3 h4 hout'

/-- Forward passes at halflens `2^(t+a-1), …, 2^t` on a state that repeats
`o` (zero-padded) with period `2^(t+a)`: the upper half of every chunk is
zero, so each pass halves the period; after all passes the state repeats
`o` with period `2^t`. -/
theorem fwdPasses_pad : ∀ (a t start : Nat) (S o : List Nat) (d : Nat),
    t + a ≤ d → d ≤ 16 →
    o.length = 2 ^ t → S.length = 2 ^ d →
    (∀ p, p < 2 ^ d → S.getD p 0 =
      if p % 2 ^ (t + a) < 2 ^ t then o.getD (p % 2 ^ (t + a)) 0 else 0) →
    ∃ out, fwdPasses a t start S = some out ∧ out.length = 2 ^ d ∧
      ∀ p, p < 2 ^ d → out.getD p 0 = o.getD (p % 2 ^ t) 0 := by
  intro a
  induction a with
  | zero =>
    intro t start S o d ht hd ho hS hform
    refine ⟨S, rfl, hS, fun p hp => ?_⟩
    have hx := hform p hp
    rw [Nat.add_zero] at hx
    rw [hx, if_pos (Nat.mod_lt _ (pow_pos (by norm_num) t))]
  | succ a ih =>
    intro t start S o d ht hd ho hS hform
    have hh : (0 : Nat) < 2 ^ (t + a) := pow_pos (by norm_num) _
    have hH2 : (0 : Nat) < 2 * 2 ^ (t + a) := by omega
    have hdim : natLog2 (2 ^ (t + a)) < 16 := by
      rw [natLog2_eq, Nat.log2_two_pow]
      omega
    have hdvd : S.length % (2 * 2 ^ (t + a)) = 0 := by
      have e : 2 * 2 ^ (t + a) = 2 ^ (t + a + 1) := by ring
      rw [hS, e]
      exact pow_mod_pow_zero _ _ (by omega)
    obtain ⟨r1, hr1, hl1, hf1⟩ := nttPassFwd_spec (2 ^ (t + a)) start hh hdim S hdvd
    have h2t : (2 : Nat) ^ t ≤ 2 ^ (t + a) := Nat.pow_le_pow_right (by norm_num) (by omega)
    have e1 : (2 : Nat) ^ (t + (a + 1)) = 2 * 2 ^ (t + a) := by ring
    have hform1 : ∀ p, p < 2 ^ d → r1.getD p 0 =
        if p % 2 ^ (t + a) < 2 ^ t then o.getD (p % 2 ^ (t + a)) 0 else 0 := by
      intro p hp
      have hplen : p < S.length := by omega
      have hdm := Nat.div_add_mod p (2 * 2 ^ (t + a))
      have hmlt : p % (2 * 2 ^ (t + a)) < 2 * 2 ^ (t + a) := Nat.mod_lt _ hH2
      have hmle : p % (2 * 2 ^ (t + a)) ≤ p := Nat.mod_le _ _
      have hin_iff := inner_iff_mod (2 ^ (t + a)) p hh
      have hmm := Nat.mod_mod_of_dvd p (⟨2, by ring⟩ : (2 : Nat) ^ (t + a) ∣ 2 * 2 ^ (t + a))
      have hble := chunkBase_add_le (2 ^ (t + a)) hh S.length p hdvd hplen
      rw [hf1 p, if_pos hplen]
      by_cases hin : p < chunkBase (2 ^ (t + a)) 0 p + 2 ^ (t + a)
      · rw [if_pos hin]
        have hq : p % (2 * 2 ^ (t + a)) < 2 ^ (t + a) := hin_iff.mp hin
        have hblep := chunkBase_le (2 ^ (t + a)) 0 p (Nat.zero_le p)
        have hzero : S.getD (p + 2 ^ (t + a)) 0 = 0 := by
          have hpl : p + 2 ^ (t + a) < 2 ^ d := by omega
          rw [hform _ hpl, e1]
          have hmod : (p + 2 ^ (t + a)) % (2 * 2 ^ (t + a))
              = p % (2 * 2 ^ (t + a)) + 2 ^ (t + a) := by
            rw [Nat.add_mod,
              Nat.mod_eq_of_lt (show (2 : Nat) ^ (t + a) < 2 * 2 ^ (t + a) by omega),
              Nat.mod_eq_of_lt (by omega)]
          rw [hmod, if_neg (by omega)]
        rw [hzero,
          b16Mul_zero_left _ (passCoeff_lt (2 ^ (t + a)) start
            (chunkBase (2 ^ (t + a)) 0 p) hdim)]
        simp only [b16Add, Nat.xor_zero]
        rw [hform p hp, e1]
        have hmodeq : p % 2 ^ (t + a) = p % (2 * 2 ^ (t + a)) := by
          rw [← hmm, Nat.mod_eq_of_lt hq]
        rw [hmodeq]
      · rw [if_neg hin]
        have hq : 2 ^ (t + a) ≤ p % (2 * 2 ^ (t + a)) := by
          rcases Nat.lt_or_ge (p % (2 * 2 ^ (t + a))) (2 ^ (t + a)) with hcc | hcc
          · exact absurd (hin_iff.mpr hcc) hin
          · exact hcc
        have hzero : S.getD p 0 = 0 := by
          rw [hform p hp, e1, if_neg (by omega)]
        have hpm : S.getD (p - 2 ^ (t + a)) 0 =
            if p % (2 * 2 ^ (t + a)) - 2 ^ (t + a) < 2 ^ t then
              o.getD (p % (2 * 2 ^ (t + a)) - 2 ^ (t + a)) 0 else 0 := by
          have hpl : p - 2 ^ (t + a) < 2 ^ d := by omega
          rw [hform _ hpl, e1]
          have hmod : (p - 2 ^ (t + a)) % (2 * 2 ^ (t + a))
              = p % (2 * 2 ^ (t + a)) - 2 ^ (t + a) := by
            conv_lhs => rw [show p - 2 ^ (t + a)
              = 2 * 2 ^ (t + a) * (p / (2 * 2 ^ (t + a)))
                + (p % (2 * 2 ^ (t + a)) - 2 ^ (t + a)) from by omega]
            rw [Nat.mul_add_mod, Nat.mod_eq_of_lt (by omega)]
          rw [hmod]
        rw [hzero,
          b16Mul_zero_left _ (passCoeff_lt (2 ^ (t + a)) start
            (chunkBase (2 ^ (t + a)) 0 p) hdim)]
        simp only [b16Add, Nat.xor_zero]
        rw [hpm]
        have hmodeq : p % 2 ^ (t + a) = p % (2 * 2 ^ (t + a)) - 2 ^ (t + a) := by
          rw [← hmm, Nat.mod_eq_sub_mod hq, Nat.mod_eq_of_lt (by omega)]
        rw [hmodeq]
    obtain ⟨out, hOut, hlOut, hfOut⟩ :=
      ih t start r1 o d (by omega) hd ho (by rw [hl1, hS]) hform1
    refine ⟨out, ?_, hlOut, hfOut⟩
    show (nttPassFwd (2 ^ (t + a)) start S).bind (fwdPasses a t start) = some out
    rw [hr1, Option.some_bind]
    exact hOut

/-- C8: `extend` on a power-of-two-length row of `u16` values, with an
expansion factor making the total a power of two at most `2^16`, returns
`|row|·factor` values whose first `|row|` entries are the row itself. -/
theorem extend_spec (data : List Nat) (m f d : Nat) (hm : data.length = 2 ^ m)
    (hf : 1 ≤ f) (hd : data.length * f = 2 ^ d) (hd16 : d ≤ 16)
    (hb : ∀ x ∈ data, x < 2 ^ 16) :
    ∃ out, extend data f = some out ∧ out.length = data.length * f ∧
      out.take data.length = data := by
  have hb' : ∀ p, data.getD p 0 < 2 ^ 16 := by
    intro p
    by_cases hp : p < data.length
    · rw [List.getD_eq_getElem _ _ hp]
      exact hb _ (List.getElem_mem _)
    · rw [List.getD_eq_default _ _ (by omega)]
      norm_num
  have hpmd : (2 : Nat) ^ m ≤ 2 ^ d := by
    rw [← hd, ← hm]
    exact Nat.le_mul_of_pos_right _ (by omega)
  have hmd : m ≤ d := (Nat.pow_le_pow_iff_right (by norm_num)).mp hpmd
  obtain ⟨o, ho, hlo, hbo⟩ := invPasses_ok m 0 0 data m hm (by omega) (by omega) hb'
  have hoinv : inv_additive_ntt data 0 = some o := by
    rw [inv_additive_ntt_eq data m 0 hm]
    exact ho
  have hlP : (o ++ List.replicate (data.length * f - o.length) 0).length = 2 ^ d := by
    rw [List.length_append, List.length_replicate, hlo, hm]
    have hd2 : (2 : Nat) ^ m * f = 2 ^ d := by rw [← hm]; exact hd
    omega
  have hext : extend data f =
      additive_ntt (o ++ List.replicate (data.length * f - o.length) 0) 0 := by
    unfold extend
    rw [hoinv]
    show (if o.length ≤ data.length * f then
        additive_ntt (o ++ List.replicate (data.length * f - o.length) 0) 0
      else none)
      = additive_ntt (o ++ List.replicate (data.length * f - o.length) 0) 0
    rw [if_pos (by rw [hlo, hd]; exact hpmd)]
  have hinit : ∀ p, p < 2 ^ d →
      (o ++ List.replicate (data.length * f - o.length) 0).getD p 0 =
        if p % 2 ^ (m + (d - m)) < 2 ^ m then
          o.getD (p % 2 ^ (m + (d - m))) 0 else 0 := by
    intro p hp
    have e : m + (d - m) = d := by omega
    rw [e, Nat.mod_eq_of_lt hp]
    by_cases hpm : p < 2 ^ m
    · rw [getD_append_lt _ _ _ (by omega), if_pos hpm]
    · rw [getD_append_ge _ _ _ (by omega), if_neg hpm]
      exact getD_replicate _ _ _ _ (by rw [hlo] at *; rw [hm, hd] at *; omega)
  obtain ⟨S, hSeq, hlS, hfS⟩ :=
    fwdPasses_pad (d - m) m 0 (o ++ List.replicate (data.length * f - o.length) 0)
      o d (by omega) hd16 hlo hlP hinit
  have hbS : ∀ p, S.getD p 0 < 2 ^ 16 := by
    intro p
    by_cases hp : p < 2 ^ d
    · rw [hfS p hp]
      exact hbo _
    · rw [List.getD_eq_default _ _ (by omega)]
      norm_num
  obtain ⟨out, hOut, hlOut, _⟩ := fwdPasses_ok m 0 0 S d hlS (by omega) hd16 hbS
  have hStake : S.take (2 ^ m) = o := by
    apply list_eq_of_getD
    · rw [List.length_take, hlS, hlo]
      omega
    · intro p
      by_cases hp : p < 2 ^ m
      · rw [getD_take _ _ _ hp, hfS p (by omega), Nat.mod_eq_of_lt hp]
      · rw [List.getD_eq_default _ _ (by rw [List.length_take]; omega),
          List.getD_eq_default _ _ (by omega)]
  have htk := fwdPasses_take m 0 0 S out m d hlS (by omega) (by omega) hd16 hOut
  rw [hStake] at htk
  have htel := inv_fwd_telescope m 0 0 data m hm (by omega) (by omega) hb'
  rw [ho, Option.some_bind] at htel
  rw [htel] at htk
  have htake : out.take (2 ^ m) = data := (Option.some.inj htk).symm
  refine ⟨out, ?_, by rw [hlOut, hd], by rw [hm]; exact htake⟩
  rw [hext, additive_ntt_eq _ d 0 hlP,
    show d = (d - m) + m from by omega, fwdPasses_add (d - m) m 0 0 _,
    Nat.zero_add, hSeq, Option.some_bind]
  exact hOut

theorem extend_spec_witness :
    ([1, 2] : List Nat).length = 2 ^ 1 ∧ 1 ≤ 2 ∧
      ([1, 2] : List Nat).length * 2 = 2 ^ 2 ∧ (2 : Nat) ≤ 16 ∧
      (∀ x ∈ ([1, 2] : List Nat), x < 2 ^ 16) ∧
      ∃ out, extend [1, 2] 2 = some out ∧
        out.length = ([1, 2] : List Nat).length * 2 ∧
        out.take ([1, 2] : List Nat).length = [1, 2] :=
  ⟨by decide, by decide, by decide, by decide, by decide,
    extend_spec [1, 2] 1 2 2 (by decide) (by decide) (by decide) (by decide)
      (by decide)⟩

/-- `extend([1], 3)` pads the length-1 row to total length 3, and the
forward NTT then indexes past the end of the (odd-length) array: the call
panics rather than returning a length-3 extension. -/
theorem extend_counterexample :
    ([1] : List Nat).length = 2 ^ 0 ∧ 1 ≤ 3 ∧ extend [1] 3 = none :=
  ⟨by decide, by decide, by decide⟩

/-! ### `utils.rs`: `multisubset` -/

/-- Update entry `(g, i)` of a vector of vectors of rows. -/
def upd2L (m : List (List (List Nat))) (g i : Nat) (v : List Nat) :
    List (List (List Nat)) :=
  m.set g ((m.getD g []).set i v)

/-- `row.chunks(4)` (the last, possibly partial, chunk is kept as-is). -/
def chunks4 : List Nat → List (List Nat)
  | a :: b :: c :: d :: rest => [a, b, c, d] :: chunks4 rest
  | [] => []
  | rest => [rest]

/-- The nibble fold `chunk.iter().rev().fold(0, |acc, &bit| (acc << 1) | bit)`. -/
def nibbleOf (chunk : List Nat) : Nat :=
  chunk.reverse.foldl (fun acc bit => (acc <<< 1) ||| bit) 0

/-- `xor_along_axis_4d` of `utils.rs` (panics on axis > 3). -/
def xor_along_axis_4d (values : List (List (List (List Nat)))) (axis : Nat) :
    Option (List (List (List Nat))) :=
  let v4 := fun i j k l => (((values.getD i []).getD j []).getD k []).getD l 0
  if axis = 0 then
    some ((List.range (values.getD 0 []).length).map (fun i =>
      (List.range ((values.getD 0 []).getD 0 []).length).map (fun j =>
        (List.range (((values.getD 0 []).getD 0 []).getD 0 []).length).map (fun k =>
          (List.range' 1 (values.length - 1)).foldl
            (fun res l => res ^^^ v4 l i j k) (v4 0 i j k)))))
  else if axis = 1 then
    some ((List.range values.length).map (fun i =>
      (List.range ((values.getD 0 []).getD 0 []).length).map (fun j =>
        (List.range (((values.getD 0 []).getD 0 []).getD 0 []).length).map (fun k =>
          (List.range' 1 ((values.getD 0 []).length - 1)).foldl
            (fun res l => res ^^^ v4 i l j k) (v4 i 0 j k)))))
  else if axis = 2 then
    some ((List.range values.length).map (fun i =>
      (List.range (values.getD 0 []).length).map (fun j =>
        (List.range (((values.getD 0 []).getD 0 []).getD 0 []).length).map (fun k =>
          (List.range' 1 (((values.getD 0 []).getD 0 []).length - 1)).foldl
            (fun res l => res ^^^ v4 i j l k) (v4 i j 0 k)))))
  else if axis = 3 then
    some ((List.range values.length).map (fun i =>
      (List.range (values.getD 0 []).length).map (fun j =>
        (List.range ((values.getD 0 []).getD 0 []).length).map (fun k =>
          (List.range' 1 ((((values.getD 0 []).getD 0 []).getD 0 []).length - 1)).foldl
            (fun res l => res ^^^ v4 i j k l) (v4 i j k 0)))))
  else none

/-- The initial `subsets` table of `multisubset`:
`vec![vec![vec![0u16; values[0].len()]; 16]; values.len() / 4]`. -/
def msSubsets0 (values : List (List Nat)) : List (List (List Nat)) :=
  List.replicate (values.length / 4)
    (List.replicate 16 (List.replicate (values.getD 0 []).length 0))

/-- The first loop of `multisubset`: `subsets[j/4][1 << i] = values[j + i]`. -/
def msLoop1 (values : List (List Nat)) : List (List (List Nat)) :=
  (List.range 4).foldl (fun s i =>
    (List.range (values.length / 4)).foldl (fun s2 jg =>
      upd2L s2 jg (1 <<< i) (values.getD (4 * jg + i) [])) s) (msSubsets0 values)

/-- One iteration of the subset-generation loop of `multisubset`, acting on
the state `(top_p_of_2, subsets)`. -/
def msStep2 (values : List (List Nat)) (st : Nat × List (List (List Nat)))
    (i : Nat) : Nat × List (List (List Nat)) :=
  if i &&& (i - 1) = 0 then (i, st.2)
  else (st.1, (List.range (values.length / 4)).foldl (fun s2 jg =>
    upd2L s2 jg i ((List.range (values.getD 0 []).length).map (fun k =>
      ((s2.getD jg []).getD st.1 []).getD k 0 ^^^
        ((s2.getD jg []).getD (i - st.1) []).getD k 0))) st.2)

/-- The completed `subsets` table of `multisubset` (after the
`for i in 3..16` loop with initial `top_p_of_2 = 2`). -/
def msSubsets (values : List (List Nat)) : List (List (List Nat)) :=
  ((List.range' 3 13).foldl (msStep2 values) (2, msLoop1 values)).2

/-- `multisubset` of `utils.rs` (`GROUPING = 4`): build the 16 subset XORs
of each group of 4 values, turn each bit row into per-group nibbles, select
and XOR along the group axis. -/
def multisubset (values : List (List Nat)) (bits : List (List (List Nat))) :
    Option (List (List (List Nat))) :=
  let index_columns := bits.map (fun matrix => matrix.map (fun row =>
    (chunks4 row).map nibbleOf))
  let selected_elements := index_columns.map (fun outer => outer.map (fun inner =>
    inner.enum.map (fun gi => ((msSubsets values).getD gi.1 []).getD gi.2 [])))
  xor_along_axis_4d selected_elements 2

/-- The naive subset XOR that `multisubset` optimizes (its defining
specification): entry `k` of the output for a bit row is the XOR of
`values[n][k]` over all `n` with `row[n] = 1`. -/
def naiveSubsetXor (values : List (List Nat)) (row : List Nat) : List Nat :=
  (List.range (values.getD 0 []).length).map (fun k =>
    (List.range values.length).foldl
      (fun acc n =>
        acc ^^^ (if row.getD n 0 = 1 then (values.getD n []).getD k 0 else 0)) 0)

example :
    multisubset [[1, 0], [2, 0], [4, 0], [8, 0]] [[[1, 0, 1, 1]]]
      = some [[[13, 0]]] := by decide

example :
    multisubset [[1, 3], [9, 15], [2, 4], [5, 6], [7, 8], [10, 11], [12, 13], [14, 15]]
        [[[1, 0, 1, 1, 0, 1, 1, 0], [0, 1, 1, 0, 1, 0, 0, 1]]]
      = some [[naiveSubsetXor
          [[1, 3], [9, 15], [2, 4], [5, 6], [7, 8], [10, 11], [12, 13], [14, 15]]
          [1, 0, 1, 1, 0, 1, 1, 0],
        naiveSubsetXor
          [[1, 3], [9, 15], [2, 4], [5, 6], [7, 8], [10, 11], [12, 13], [14, 15]]
          [0, 1, 1, 0, 1, 0, 0, 1]]] := by decide

theorem upd2L_length (m : List (List (List Nat))) (g i : Nat) (v : List Nat) :
    (upd2L m g i v).length = m.length := by
  simp [upd2L]

theorem upd2L_rowlen (m : List (List (List Nat))) (g i : Nat) (v : List Nat)
    (g' : Nat) : ((upd2L m g i v).getD g' []).length = (m.getD g' []).length := by
  unfold upd2L
  by_cases h2 : g' = g
  · subst h2
    by_cases h : g' < m.length
    · rw [getD_set_self _ _ _ _ h]
      simp
    · rw [List.getD_eq_default _ _ (by simp; omega),
        List.getD_eq_default _ _ (by omega)]
  · rw [getD_set_ne _ _ _ _ _ (fun hh => h2 hh.symm)]

theorem upd2L_getD_ne (m : List (List (List Nat))) (g i : Nat) (v : List Nat)
    (g' i' : Nat) (h : ¬(g' = g ∧ i' = i)) :
    ((upd2L m g i v).getD g' []).getD i' [] = (m.getD g' []).getD i' [] := by
  unfold upd2L
  by_cases hg : g' = g
  · subst hg
    have hi : i' ≠ i := fun hh => h ⟨rfl, hh⟩
    by_cases hl : g' < m.length
    · rw [getD_set_self _ _ _ _ hl, getD_set_ne _ _ _ _ _ (fun hh => hi hh.symm)]
    · have e1 : (m.set g' ((m.getD g' []).set i v)).getD g' ([] : List (List Nat))
          = [] := List.getD_eq_default _ _ (by simp; omega)
      have e2 : m.getD g' ([] : List (List Nat)) = [] :=
        List.getD_eq_default _ _ (by omega)
      rw [e1, e2]
  · rw [getD_set_ne _ _ _ _ _ (fun hh => hg hh.symm)]

theorem upd2L_getD_self (m : List (List (List Nat))) (g i : Nat) (v : List Nat)
    (hg : g < m.length) (hi : i < (m.getD g []).length) :
    ((upd2L m g i v).getD g []).getD i [] = v := by
  unfold upd2L
  rw [getD_set_self _ _ _ _ hg, getD_set_self _ _ _ _ hi]

theorem foldl_ignore {α β : Type} (l : List β) (a : α) :
    l.foldl (fun acc _ => acc) a = a := by
  induction l generalizing a with
  | nil => rfl
  | cons x xs ih => exact ih a

/-- The XOR of the (at most four) values of a group selected by the low
four bits of `idx`: the content row `idx` of group `g` of the `subsets`
table of `multisubset` is built to hold. -/
def subV (values : List (List Nat)) (g idx k : Nat) : Nat :=
  (if idx.testBit 0 then (values.getD (4 * g) []).getD k 0 else 0)
    ^^^ (if idx.testBit 1 then (values.getD (4 * g + 1) []).getD k 0 else 0)
    ^^^ (if idx.testBit 2 then (values.getD (4 * g + 2) []).getD k 0 else 0)
    ^^^ (if idx.testBit 3 then (values.getD (4 * g + 3) []).getD k 0 else 0)

theorem subV_zero (values : List (List Nat)) (g k : Nat) : subV values g 0 k = 0 := by
  simp [subV, Nat.zero_testBit]

theorem subV_split (values : List (List Nat)) (g k i top : Nat)
    (hdisj : ∀ t, t < 4 → ¬(top.testBit t = true ∧ (i - top).testBit t = true))
    (hunion : ∀ t, t < 4 → i.testBit t = (top.testBit t || (i - top).testBit t)) :
    subV values g i k = subV values g top k ^^^ subV values g (i - top) k := by
  unfold subV
  have key : ∀ t, t < 4 → ∀ w : Nat,
      (if i.testBit t then w else 0)
        = (if top.testBit t then w else 0) ^^^ (if (i - top).testBit t then w else 0) := by
    intro t ht w
    rw [hunion t ht]
    rcases htb : top.testBit t <;> rcases hcb : (i - top).testBit t
    · simp
    · simp
    · simp
    · exact absurd ⟨htb, hcb⟩ (hdisj t ht)
  rw [key 0 (by norm_num), key 1 (by norm_num), key 2 (by norm_num),
    key 3 (by norm_num)]
  ac_rfl

/-- Regroup an XOR over `4G` indices into groups of four. -/
theorem xorFold_group (f : Nat → Nat) (G : Nat) :
    (List.range (4 * G)).foldl (fun a n => a ^^^ f n) 0
      = (List.range G).foldl
          (fun a g => a ^^^ (f (4 * g) ^^^ f (4 * g + 1) ^^^ f (4 * g + 2) ^^^ f (4 * g + 3))) 0 := by
  induction G with
  | zero => rfl
  | succ G ih =>
    conv_rhs => rw [List.range_succ, List.foldl_append, List.foldl_cons, List.foldl_nil]
    rw [show 4 * (G + 1) = (((4 * G + 1) + 1) + 1) + 1 from by omega]
    rw [List.range_succ, List.foldl_append, List.foldl_cons, List.foldl_nil,
      List.range_succ, List.foldl_append, List.foldl_cons, List.foldl_nil,
      List.range_succ, List.foldl_append, List.foldl_cons, List.foldl_nil,
      List.range_succ, List.foldl_append, List.foldl_cons, List.foldl_nil, ih]
    rw [show (4 * G + 1) + 1 = 4 * G + 2 from rfl, show (4 * G + 2) + 1 = 4 * G + 3 from rfl]
    generalize (List.range G).foldl
      (fun a g => a ^^^ (f (4 * g) ^^^ f (4 * g + 1) ^^^ f (4 * g + 2) ^^^ f (4 * g + 3))) 0 = X
    ac_rfl

/-- An XOR fold over `range' 1 m` seeded with the term at `0` equals the
fold over `range (m+1)` seeded with `0`. -/
theorem xorFold_range' (u : Nat → Nat) (m : Nat) :
    (List.range' 1 m).foldl (fun a l => a ^^^ u l) (u 0)
      = (List.range (m + 1)).foldl (fun a l => a ^^^ u l) 0 := by
  induction m with
  | zero =>
    show u 0 = (List.range 1).foldl (fun a l => a ^^^ u l) 0
    rw [show List.range 1 = [0] from rfl, List.foldl_cons, List.foldl_nil]
    exact (Nat.zero_xor _).symm
  | succ m ih =>
    rw [List.range'_concat, List.range_succ, List.foldl_append, List.foldl_append,
      List.foldl_cons, List.foldl_nil, List.foldl_cons, List.foldl_nil, ih,
      show 1 + 1 * m = m + 1 from by omega]

theorem chunks4_length (row : List Nat) (h : row.length % 4 = 0) :
    (chunks4 row).length = row.length / 4 := by
  by_cases h0 : row.length = 0
  · rw [List.length_eq_zero.mp h0]
    rfl
  · rcases row with _ | ⟨a, _ | ⟨b, _ | ⟨c, _ | ⟨d, rest⟩⟩⟩⟩
    · simp at h0
    · simp at h
    · simp at h
    · simp at h
    · show (chunks4 rest).length + 1 = _
      have h4 : rest.length % 4 = 0 := by simp at h ⊢; omega
      rw [chunks4_length rest h4]
      simp
      omega

theorem chunks4_getD (g : Nat) : ∀ row : List Nat, 4 * g + 4 ≤ row.length →
    (chunks4 row).getD g []
      = [row.getD (4 * g) 0, row.getD (4 * g + 1) 0,
         row.getD (4 * g + 2) 0, row.getD (4 * g + 3) 0] := by
  induction g with
  | zero =>
    intro row h
    rcases row with _ | ⟨a, _ | ⟨b, _ | ⟨c, _ | ⟨d, rest⟩⟩⟩⟩ <;> simp at h
    rfl
  | succ g ih =>
    intro row h
    rcases row with _ | ⟨a, _ | ⟨b, _ | ⟨c, _ | ⟨d, rest⟩⟩⟩⟩ <;> simp at h
    show (chunks4 rest).getD g [] = _
    rw [ih rest (by omega)]
    have e0 : 4 * (g + 1) = 4 * g + 3 + 1 := by omega
    rw [e0]
    rfl

/-- The nibble built from a chunk of four bits selects exactly those bits. -/
theorem nibbleOf_testBit (b0 b1 b2 b3 : Nat)
    (h0 : b0 = 0 ∨ b0 = 1) (h1 : b1 = 0 ∨ b1 = 1)
    (h2 : b2 = 0 ∨ b2 = 1) (h3 : b3 = 0 ∨ b3 = 1) :
    (∀ t, t < 4 → ((nibbleOf [b0, b1, b2, b3]).testBit t
      = true ↔ [b0, b1, b2, b3].getD t 0 = 1)) ∧ nibbleOf [b0, b1, b2, b3] < 16 := by
  rcases h0 with rfl | rfl <;> rcases h1 with rfl | rfl <;>
    rcases h2 with rfl | rfl <;> rcases h3 with rfl | rfl <;> exact ⟨by decide, by decide⟩

/-- Generic description of the group loops of `multisubset`: fold `f` over
groups `0..M`, where `f s2 jg` writes row `r` of group `jg` (leaving
everything else untouched) with a value that is `F jg` whenever the rows
other than `r` still hold their original contents. -/
theorem foldl_upd2L_gen
    (f : List (List (List Nat)) → Nat → List (List (List Nat)))
    (r M : Nat) (s : List (List (List Nat))) (hsl : s.length = M)
    (F : Nat → List Nat)
    (hf_len : ∀ s2 jg, (f s2 jg).length = s2.length)
    (hf_rowlen : ∀ s2 jg g, ((f s2 jg).getD g []).length = (s2.getD g []).length)
    (hf_ne : ∀ s2 jg g i, ¬(g = jg ∧ i = r) →
      ((f s2 jg).getD g []).getD i [] = (s2.getD g []).getD i [])
    (hf_set : ∀ s2 jg, jg < M → s2.length = M →
      (∀ g, (s2.getD g []).length = (s.getD g []).length) →
      (∀ g i, i ≠ r → (s2.getD g []).getD i [] = (s.getD g []).getD i []) →
      ((f s2 jg).getD jg []).getD r [] = F jg) :
    ∀ n, n ≤ M →
      ((List.range n).foldl f s).length = M ∧
      (∀ g, (((List.range n).foldl f s).getD g []).length = (s.getD g []).length) ∧
      (∀ g i, i ≠ r →
        (((List.range n).foldl f s).getD g []).getD i [] = (s.getD g []).getD i []) ∧
      (∀ g, g < n → (((List.range n).foldl f s).getD g []).getD r [] = F g) ∧
      (∀ g, n ≤ g →
        (((List.range n).foldl f s).getD g []).getD r [] = (s.getD g []).getD r []) := by
  intro n
  induction n with
  | zero =>
    intro _
    exact ⟨hsl, fun g => rfl, fun g i _ => rfl,
      fun g hg => absurd hg (by omega), fun g _ => rfl⟩
  | succ n ih =>
    intro hn
    obtain ⟨ihl, ihrl, ihne, ihdone, ihrest⟩ := ih (by omega)
    simp only [List.range_succ, List.foldl_append, List.foldl_cons, List.foldl_nil]
    refine ⟨?_, ?_, ?_, ?_, ?_⟩
    · rw [hf_len, ihl]
    · intro g
      rw [hf_rowlen, ihrl g]
    · intro g i hi
      rw [hf_ne _ _ g i (fun hh => hi hh.2), ihne g i hi]
    · intro g hg
      by_cases hgn : g = n
      · subst hgn
        rw [hf_set _ g (by omega) ihl ihrl ihne]
      · rw [hf_ne _ _ g r (fun hh => hgn hh.1), ihdone g (by omega)]
    · intro g hg
      rw [hf_ne _ _ g r (fun hh => absurd hh.1 (by omega)), ihrest g (by omega)]

/-- The rows of the `subsets` table named by `P` hold the subset XORs
described by `subV`. -/
def RowsSpec (values : List (List Nat)) (S : List (List (List Nat)))
    (P : Nat → Prop) : Prop :=
  S.length = values.length / 4 ∧
  (∀ g, g < values.length / 4 → (S.getD g []).length = 16) ∧
  (∀ g idx, g < values.length / 4 → idx < 16 → P idx →
    ((S.getD g []).getD idx []).length = 8 ∧
    ∀ k, ((S.getD g []).getD idx []).getD k 0 = subV values g idx k)

theorem getD_row_len8 (values : List (List Nat))
    (hvals : ∀ v ∈ values, v.length = 8) (n : Nat) (hn : n < values.length) :
    (values.getD n []).length = 8 := by
  rw [List.getD_eq_getElem _ _ hn]
  exact hvals _ (List.getElem_mem _)

theorem group_idx_lt (N g i : Nat) (h4 : N % 4 = 0) (hg : g < N / 4)
    (hi : i < 4) : 4 * g + i < N := by
  have := Nat.div_add_mod N 4
  omega

theorem subV_one (values : List (List Nat)) (g k : Nat) :
    subV values g 1 k = (values.getD (4 * g) []).getD k 0 := by
  unfold subV
  rw [if_pos (by decide), if_neg (by decide), if_neg (by decide), if_neg (by decide)]
  simp

theorem subV_two (values : List (List Nat)) (g k : Nat) :
    subV values g 2 k = (values.getD (4 * g + 1) []).getD k 0 := by
  unfold subV
  rw [if_neg (by decide), if_pos (by decide), if_neg (by decide), if_neg (by decide)]
  simp

theorem subV_four (values : List (List Nat)) (g k : Nat) :
    subV values g 4 k = (values.getD (4 * g + 2) []).getD k 0 := by
  unfold subV
  rw [if_neg (by decide), if_neg (by decide), if_pos (by decide), if_neg (by decide)]
  simp

theorem subV_eight (values : List (List Nat)) (g k : Nat) :
    subV values g 8 k = (values.getD (4 * g + 3) []).getD k 0 := by
  unfold subV
  rw [if_neg (by decide), if_neg (by decide), if_neg (by decide), if_pos (by decide)]
  simp

theorem msSubsets0_spec (values : List (List Nat)) (hNpos : 0 < values.length)
    (hvals : ∀ v ∈ values, v.length = 8) :
    (msSubsets0 values).length = values.length / 4 ∧
    (∀ g, g < values.length / 4 → ((msSubsets0 values).getD g []).length = 16) ∧
    (∀ g idx, g < values.length / 4 → idx < 16 →
      (((msSubsets0 values).getD g []).getD idx []).length = 8 ∧
      ∀ k, (((msSubsets0 values).getD g []).getD idx []).getD k 0 = 0) := by
  have hlen0 : (values.getD 0 []).length = 8 := getD_row_len8 values hvals 0 hNpos
  refine ⟨by simp [msSubsets0], ?_, ?_⟩
  · intro g hg
    rw [msSubsets0, getD_replicate _ _ _ _ hg]
    simp
  · intro g idx hg hidx
    rw [msSubsets0, getD_replicate _ _ _ _ hg, getD_replicate _ _ _ _ hidx]
    constructor
    · rw [List.length_replicate]
      exact hlen0
    · intro k
      by_cases hk : k < (values.getD 0 []).length
      · exact getD_replicate _ _ _ _ hk
      · rw [List.getD_eq_default _ _ (by rw [List.length_replicate]; omega)]

theorem msLoop1_spec (values : List (List Nat)) (hN4 : values.length % 4 = 0)
    (hNpos : 0 < values.length) (hvals : ∀ v ∈ values, v.length = 8) :
    RowsSpec values (msLoop1 values)
      (fun idx => idx = 0 ∨ idx = 1 ∨ idx = 2 ∨ idx = 4 ∨ idx = 8) := by
  obtain ⟨h0l, h0rl, h0c⟩ := msSubsets0_spec values hNpos hvals
  obtain ⟨l0, rl0, ne0, done0, rest0⟩ := foldl_upd2L_gen
    (fun s2 jg => upd2L s2 jg (1 <<< 0) (values.getD (4 * jg + 0) []))
    (1 <<< 0) (values.length / 4) (msSubsets0 values) h0l
    (fun jg => values.getD (4 * jg + 0) [])
    (fun s2 jg => upd2L_length _ _ _ _)
    (fun s2 jg g => upd2L_rowlen _ _ _ _ _)
    (fun s2 jg g i hh => upd2L_getD_ne _ _ _ _ _ _ hh)
    (fun s2 jg hjg hl hrl hne => upd2L_getD_self _ _ _ _ (by rw [hl]; exact hjg)
      (by rw [hrl jg, h0rl jg hjg]; decide))
    (values.length / 4) le_rfl
  set S0 := (List.range (values.length / 4)).foldl
    (fun s2 jg => upd2L s2 jg (1 <<< 0) (values.getD (4 * jg + 0) []))
    (msSubsets0 values) with hS0
  have hrl0 : ∀ g, g < values.length / 4 → (S0.getD g []).length = 16 := by
    intro g hg
    rw [rl0 g, h0rl g hg]
  obtain ⟨l1, rl1, ne1, done1, rest1⟩ := foldl_upd2L_gen
    (fun s2 jg => upd2L s2 jg (1 <<< 1) (values.getD (4 * jg + 1) []))
    (1 <<< 1) (values.length / 4) S0 l0
    (fun jg => values.getD (4 * jg + 1) [])
    (fun s2 jg => upd2L_length _ _ _ _)
    (fun s2 jg g => upd2L_rowlen _ _ _ _ _)
    (fun s2 jg g i hh => upd2L_getD_ne _ _ _ _ _ _ hh)
    (fun s2 jg hjg hl hrl hne => upd2L_getD_self _ _ _ _ (by rw [hl]; exact hjg)
      (by rw [hrl jg, hrl0 jg hjg]; decide))
    (values.length / 4) le_rfl
  set S1 := (List.range (values.length / 4)).foldl
    (fun s2 jg => upd2L s2 jg (1 <<< 1) (values.getD (4 * jg + 1) [])) S0 with hS1
  have hrl1 : ∀ g, g < values.length / 4 → (S1.getD g []).length = 16 := by
    intro g hg
    rw [rl1 g, hrl0 g hg]
  obtain ⟨l2, rl2, ne2, done2, rest2⟩ := foldl_upd2L_gen
    (fun s2 jg => upd2L s2 jg (1 <<< 2) (values.getD (4 * jg + 2) []))
    (1 <<< 2) (values.length / 4) S1 l1
    (fun jg => values.getD (4 * jg + 2) [])
    (fun s2 jg => upd2L_length _ _ _ _)
    (fun s2 jg g => upd2L_rowlen _ _ _ _ _)
    (fun s2 jg g i hh => upd2L_getD_ne _ _ _ _ _ _ hh)
    (fun s2 jg hjg hl hrl hne => upd2L_getD_self _ _ _ _ (by rw [hl]; exact hjg)
      (by rw [hrl jg, hrl1 jg hjg]; decide))
    (values.length / 4) le_rfl
  set S2 := (List.range (values.length / 4)).foldl
    (fun s2 jg => upd2L s2 jg (1 <<< 2) (values.getD (4 * jg + 2) [])) S1 with hS2
  have hrl2 : ∀ g, g < values.length / 4 → (S2.getD g []).length = 16 := by
    intro g hg
    rw [rl2 g, hrl1 g hg]
  obtain ⟨l3, rl3, ne3, done3, rest3⟩ := foldl_upd2L_gen
    (fun s2 jg => upd2L s2 jg (1 <<< 3) (values.getD (4 * jg + 3) []))
    (1 <<< 3) (values.length / 4) S2 l2
    (fun jg => values.getD (4 * jg + 3) [])
    (fun s2 jg => upd2L_length _ _ _ _)
    (fun s2 jg g => upd2L_rowlen _ _ _ _ _)
    (fun s2 jg g i hh => upd2L_getD_ne _ _ _ _ _ _ hh)
    (fun s2 jg hjg hl hrl hne => upd2L_getD_self _ _ _ _ (by rw [hl]; exact hjg)
      (by rw [hrl jg, hrl2 jg hjg]; decide))
    (values.length / 4) le_rfl
  set S3 := (List.range (values.length / 4)).foldl
    (fun s2 jg => upd2L s2 jg (1 <<< 3) (values.getD (4 * jg + 3) [])) S2 with hS3
  have hml : msLoop1 values = S3 := by
    rw [msLoop1, show List.range 4 = [0, 1, 2, 3] from rfl]
    simp only [List.foldl_cons, List.foldl_nil]
  rw [hml]
  refine ⟨l3, ?_, ?_⟩
  · intro g hg
    rw [rl3 g, hrl2 g hg]
  · intro g idx hg hidx hP
    have hlt : ∀ i, i < 4 → 4 * g + i < values.length :=
      fun i hi => group_idx_lt values.length g i hN4 hg hi
    rcases hP with rfl | rfl | rfl | rfl | rfl
    · -- row 0: untouched zeros
      have hz := (h0c g 0 hg (by norm_num)).2
      have hl8 := (h0c g 0 hg (by norm_num)).1
      have e : (S3.getD g []).getD 0 [] = ((msSubsets0 values).getD g []).getD 0 [] := by
        rw [ne3 g 0 (by decide), ne2 g 0 (by decide), ne1 g 0 (by decide),
          ne0 g 0 (by decide)]
      rw [e]
      exact ⟨hl8, fun k => by rw [hz k, subV_zero]⟩
    · -- row 1
      have e : (S3.getD g []).getD 1 [] = values.getD (4 * g + 0) [] := by
        rw [ne3 g 1 (by decide), ne2 g 1 (by decide), ne1 g 1 (by decide)]
        exact done0 g hg
      rw [e]
      refine ⟨getD_row_len8 values hvals _ (hlt 0 (by norm_num)), fun k => ?_⟩
      rw [subV_one]
      rw [show 4 * g + 0 = 4 * g from rfl]
    · -- row 2
      have e : (S3.getD g []).getD 2 [] = values.getD (4 * g + 1) [] := by
        rw [ne3 g 2 (by decide), ne2 g 2 (by decide)]
        exact done1 g hg
      rw [e]
      exact ⟨getD_row_len8 values hvals _ (hlt 1 (by norm_num)),
        fun k => (subV_two values g k).symm⟩
    · -- row 4
      have e : (S3.getD g []).getD 4 [] = values.getD (4 * g + 2) [] := by
        rw [ne3 g 4 (by decide)]
        exact done2 g hg
      rw [e]
      exact ⟨getD_row_len8 values hvals _ (hlt 2 (by norm_num)),
        fun k => (subV_four values g k).symm⟩
    · -- row 8
      have e : (S3.getD g []).getD 8 [] = values.getD (4 * g + 3) [] :=
        done3 g hg
      rw [e]
      exact ⟨getD_row_len8 values hvals _ (hlt 3 (by norm_num)),
        fun k => (subV_eight values g k).symm⟩

theorem values_getD_oob (values : List (List Nat))
    (hvals : ∀ v ∈ values, v.length = 8) (n k : Nat) (hk : 8 ≤ k) :
    (values.getD n []).getD k 0 = 0 := by
  by_cases hn : n < values.length
  · rw [List.getD_eq_default _ _ (by rw [getD_row_len8 values hvals n hn]; omega)]
  · rw [List.getD_eq_default values _ (by omega)]
    rfl

theorem subV_oob (values : List (List Nat))
    (hvals : ∀ v ∈ values, v.length = 8) (g idx k : Nat) (hk : 8 ≤ k) :
    subV values g idx k = 0 := by
  unfold subV
  rw [values_getD_oob values hvals _ k hk, values_getD_oob values hvals _ k hk,
    values_getD_oob values hvals _ k hk, values_getD_oob values hvals _ k hk]
  simp

theorem getD_map_range (f : Nat → Nat) (n k : Nat) (hk : k < n) :
    ((List.range n).map f).getD k 0 = f k := by
  rw [List.getD_eq_getElem _ _ (by simp; omega)]
  simp

theorem msStep2_else_eq (values : List (List Nat)) (top : Nat)
    (S : List (List (List Nat))) (i : Nat) (hpow : ¬(i &&& (i - 1) = 0)) :
    msStep2 values (top, S) i
      = (top, (List.range (values.length / 4)).foldl (fun s2 jg =>
          upd2L s2 jg i ((List.range (values.getD 0 []).length).map (fun k =>
            ((s2.getD jg []).getD top []).getD k 0 ^^^
              ((s2.getD jg []).getD (i - top) []).getD k 0))) S) := by
  unfold msStep2
  rw [if_neg hpow]

/-- One subset-generation pass writes row `i` of every group with the XOR
of rows `top` and `i - top`. -/
theorem msFold2_spec (values : List (List Nat)) (hN4 : values.length % 4 = 0)
    (hNpos : 0 < values.length) (hvals : ∀ v ∈ values, v.length = 8)
    (i top : Nat) (hi16 : i < 16) (htoplt : top < i) (htoppos : 0 < top)
    (hdisj : ∀ t, t < 4 → ¬(top.testBit t = true ∧ (i - top).testBit t = true))
    (hunion : ∀ t, t < 4 → i.testBit t = (top.testBit t || (i - top).testBit t))
    (P : Nat → Prop) (S : List (List (List Nat))) (hspec : RowsSpec values S P)
    (hPtop : P top) (hPsub : P (i - top)) :
    RowsSpec values ((List.range (values.length / 4)).foldl (fun s2 jg =>
        upd2L s2 jg i ((List.range (values.getD 0 []).length).map (fun k =>
          ((s2.getD jg []).getD top []).getD k 0 ^^^
            ((s2.getD jg []).getD (i - top) []).getD k 0))) S)
      (fun idx => P idx ∨ idx = i) := by
  obtain ⟨hl, hrl, hc⟩ := hspec
  have hlen0 : (values.getD 0 []).length = 8 := getD_row_len8 values hvals 0 hNpos
  obtain ⟨l1, rl1, ne1, done1, rest1⟩ := foldl_upd2L_gen
    (fun s2 jg => upd2L s2 jg i ((List.range (values.getD 0 []).length).map (fun k =>
      ((s2.getD jg []).getD top []).getD k 0 ^^^
        ((s2.getD jg []).getD (i - top) []).getD k 0)))
    i (values.length / 4) S hl
    (fun jg => (List.range (values.getD 0 []).length).map (fun k =>
      subV values jg top k ^^^ subV values jg (i - top) k))
    (fun s2 jg => upd2L_length _ _ _ _)
    (fun s2 jg g => upd2L_rowlen _ _ _ _ _)
    (fun s2 jg g i' hh => upd2L_getD_ne _ _ _ _ _ _ hh)
    (fun s2 jg hjg hl2 hrl2 hne2 => by
      rw [upd2L_getD_self _ _ _ _ (by rw [hl2]; exact hjg)
        (by rw [hrl2 jg, hrl jg hjg]; omega)]
      apply List.map_congr_left
      intro k _
      rw [hne2 jg top (by omega), hne2 jg (i - top) (by omega),
        (hc jg top hjg (by omega) hPtop).2 k,
        (hc jg (i - top) hjg (by omega) hPsub).2 k])
    (values.length / 4) le_rfl
  refine ⟨l1, ?_, ?_⟩
  · intro g hg
    rw [rl1 g, hrl g hg]
  · intro g idx hg hidx hP
    by_cases hii : idx = i
    · subst hii
      rw [done1 g hg]
      constructor
      · rw [List.length_map, List.length_range, hlen0]
      · intro k
        by_cases hk : k < 8
        · rw [getD_map_range _ _ _ (by omega),
            subV_split values g k idx top hdisj hunion]
        · rw [List.getD_eq_default _ _ (by rw [List.length_map, List.length_range, hlen0]; omega),
            subV_oob values hvals g idx k (by omega)]
    · rcases hP with hP | hP
      · have e := ne1 g idx hii
        rw [e]
        exact hc g idx hg hidx hP
      · exact absurd hP hii

/-- The subset-generation loop of `multisubset`, run from counter `i` with
the `top_p_of_2` invariant, completes the table: every row below 16 holds
its subset XOR. -/
theorem msLoop2_go (values : List (List Nat)) (hN4 : values.length % 4 = 0)
    (hNpos : 0 < values.length) (hvals : ∀ v ∈ values, v.length = 8) :
    ∀ cnt i top S, 3 ≤ i → i + cnt = 16 →
      top = 2 ^ (bitLen (i - 1) - 1) →
      RowsSpec values S (fun idx => idx < i ∨ idx = 4 ∨ idx = 8) →
      RowsSpec values ((List.range' i cnt).foldl (msStep2 values) (top, S)).2
        (fun idx => idx < 16) := by
  intro cnt
  induction cnt with
  | zero =>
    intro i top S h3 h16 htop hspec
    obtain rfl : i = 16 := by omega
    obtain ⟨hl, hrl, hc⟩ := hspec
    exact ⟨hl, hrl, fun g idx hg hidx hP => hc g idx hg hidx (by omega)⟩
  | succ cnt ih =>
    intro i top S h3 h16 htop hspec
    obtain ⟨hl, hrl, hc⟩ := hspec
    rw [List.range'_succ i cnt 1, List.foldl_cons]
    have hi15 : i ≤ 15 := by omega
    interval_cases i
    · -- i = 3: write row 3 = row 2 XOR row 1
      have ht : top = 2 := by rw [htop]; decide
      subst ht
      rw [msStep2_else_eq values 2 S 3 (by decide)]
      have hsp := msFold2_spec values hN4 hNpos hvals 3 2 (by norm_num)
        (by norm_num) (by norm_num) (by decide) (by decide) _ S ⟨hl, hrl, hc⟩
        (by omega) (by omega)
      obtain ⟨hl2, hrl2, hc2⟩ := hsp
      exact ih 4 2 _ (by norm_num) (by omega) (by decide)
        ⟨hl2, hrl2, fun g idx hg hidx hP => hc2 g idx hg hidx (by omega)⟩
    · -- i = 4: a power of two, only `top_p_of_2` is updated
      have e : msStep2 values (top, S) 4 = (4, S) := by
        unfold msStep2
        rw [if_pos (by decide)]
      rw [e]
      exact ih 5 4 S (by norm_num) (by omega) (by decide)
        ⟨hl, hrl, fun g idx hg hidx hP => hc g idx hg hidx (by omega)⟩
    · -- i = 5: write row 5 = row 4 XOR row 1
      have ht : top = 4 := by rw [htop]; decide
      subst ht
      rw [msStep2_else_eq values 4 S 5 (by decide)]
      have hsp := msFold2_spec values hN4 hNpos hvals 5 4 (by norm_num)
        (by norm_num) (by norm_num) (by decide) (by decide) _ S ⟨hl, hrl, hc⟩
        (by omega) (by omega)
      obtain ⟨hl2, hrl2, hc2⟩ := hsp
      exact ih 6 4 _ (by norm_num) (by omega) (by decide)
        ⟨hl2, hrl2, fun g idx hg hidx hP => hc2 g idx hg hidx (by omega)⟩
    · -- i = 6: write row 6 = row 4 XOR row 2
      have ht : top = 4 := by rw [htop]; decide
      subst ht
      rw [msStep2_else_eq values 4 S 6 (by decide)]
      have hsp := msFold2_spec values hN4 hNpos hvals 6 4 (by norm_num)
        (by norm_num) (by norm_num) (by decide) (by decide) _ S ⟨hl, hrl, hc⟩
        (by omega) (by omega)
      obtain ⟨hl2, hrl2, hc2⟩ := hsp
      exact ih 7 4 _ (by norm_num) (by omega) (by decide)
        ⟨hl2, hrl2, fun g idx hg hidx hP => hc2 g idx hg hidx (by omega)⟩
    · -- i = 7: write row 7 = row 4 XOR row 3
      have ht : top = 4 := by rw [htop]; decide
      subst ht
      rw [msStep2_else_eq values 4 S 7 (by decide)]
      have hsp := msFold2_spec values hN4 hNpos hvals 7 4 (by norm_num)
        (by norm_num) (by norm_num) (by decide) (by decide) _ S ⟨hl, hrl, hc⟩
        (by omega) (by omega)
      obtain ⟨hl2, hrl2, hc2⟩ := hsp
      exact ih 8 4 _ (by norm_num) (by omega) (by decide)
        ⟨hl2, hrl2, fun g idx hg hidx hP => hc2 g idx hg hidx (by omega)⟩
    · -- i = 8: a power of two, only `top_p_of_2` is updated
      have e : msStep2 values (top, S) 8 = (8, S) := by
        unfold msStep2
        rw [if_pos (by decide)]
      rw [e]
      exact ih 9 8 S (by norm_num) (by omega) (by decide)
        ⟨hl, hrl, fun g idx hg hidx hP => hc g idx hg hidx (by omega)⟩
    · -- i = 9: write row 9 = row 8 XOR row 1
      have ht : top = 8 := by rw [htop]; decide
      subst ht
      rw [msStep2_else_eq values 8 S 9 (by decide)]
      have hsp := msFold2_spec values hN4 hNpos hvals 9 8 (by norm_num)
        (by norm_num) (by norm_num) (by decide) (by decide) _ S ⟨hl, hrl, hc⟩
        (by omega) (by omega)
      obtain ⟨hl2, hrl2, hc2⟩ := hsp
      exact ih 10 8 _ (by norm_num) (by omega) (by decide)
        ⟨hl2, hrl2, fun g idx hg hidx hP => hc2 g idx hg hidx (by omega)⟩
    · -- i = 10: write row 10 = row 8 XOR row 2
      have ht : top = 8 := by rw [htop]; decide
      subst ht
      rw [msStep2_else_eq values 8 S 10 (by decide)]
      have hsp := msFold2_spec values hN4 hNpos hvals 10 8 (by norm_num)
        (by norm_num) (by norm_num) (by decide) (by decide) _ S ⟨hl, hrl, hc⟩
        (by omega) (by omega)
      obtain ⟨hl2, hrl2, hc2⟩ := hsp
      exact ih 11 8 _ (by norm_num) (by omega) (by decide)
        ⟨hl2, hrl2, fun g idx hg hidx hP => hc2 g idx hg hidx (by omega)⟩
    · -- i = 11: write row 11 = row 8 XOR row 3
      have ht : top = 8 := by rw [htop]; decide
      subst ht
      rw [msStep2_else_eq values 8 S 11 (by decide)]
      have hsp := msFold2_spec values hN4 hNpos hvals 11 8 (by norm_num)
        (by norm_num) (by norm_num) (by decide) (by decide) _ S ⟨hl, hrl, hc⟩
        (by omega) (by omega)
      obtain ⟨hl2, hrl2, hc2⟩ := hsp
      exact ih 12 8 _ (by norm_num) (by omega) (by decide)
        ⟨hl2, hrl2, fun g idx hg hidx hP => hc2 g idx hg hidx (by omega)⟩
    · -- i = 12: write row 12 = row 8 XOR row 4
      have ht : top = 8 := by rw [htop]; decide
      subst ht
      rw [msStep2_else_eq values 8 S 12 (by decide)]
      have hsp := msFold2_spec values hN4 hNpos hvals 12 8 (by norm_num)
        (by norm_num) (by norm_num) (by decide) (by decide) _ S ⟨hl, hrl, hc⟩
        (by omega) (by omega)
      obtain ⟨hl2, hrl2, hc2⟩ := hsp
      exact ih 13 8 _ (by norm_num) (by omega) (by decide)
        ⟨hl2, hrl2, fun g idx hg hidx hP => hc2 g idx hg hidx (by omega)⟩
    · -- i = 13: write row 13 = row 8 XOR row 5
      have ht : top = 8 := by rw [htop]; decide
      subst ht
      rw [msStep2_else_eq values 8 S 13 (by decide)]
      have hsp := msFold2_spec values hN4 hNpos hvals 13 8 (by norm_num)
        (by norm_num) (by norm_num) (by decide) (by decide) _ S ⟨hl, hrl, hc⟩
        (by omega) (by omega)
      obtain ⟨hl2, hrl2, hc2⟩ := hsp
      exact ih 14 8 _ (by norm_num) (by omega) (by decide)
        ⟨hl2, hrl2, fun g idx hg hidx hP => hc2 g idx hg hidx (by omega)⟩
    · -- i = 14: write row 14 = row 8 XOR row 6
      have ht : top = 8 := by rw [htop]; decide
      subst ht
      rw [msStep2_else_eq values 8 S 14 (by decide)]
      have hsp := msFold2_spec values hN4 hNpos hvals 14 8 (by norm_num)
        (by norm_num) (by norm_num) (by decide) (by decide) _ S ⟨hl, hrl, hc⟩
        (by omega) (by omega)
      obtain ⟨hl2, hrl2, hc2⟩ := hsp
      exact ih 15 8 _ (by norm_num) (by omega) (by decide)
        ⟨hl2, hrl2, fun g idx hg hidx hP => hc2 g idx hg hidx (by omega)⟩
    · -- i = 15: write row 15 = row 8 XOR row 7
      have ht : top = 8 := by rw [htop]; decide
      subst ht
      rw [msStep2_else_eq values 8 S 15 (by decide)]
      have hsp := msFold2_spec values hN4 hNpos hvals 15 8 (by norm_num)
        (by norm_num) (by norm_num) (by decide) (by decide) _ S ⟨hl, hrl, hc⟩
        (by omega) (by omega)
      obtain ⟨hl2, hrl2, hc2⟩ := hsp
      exact ih 16 8 _ (by norm_num) (by omega) (by decide)
        ⟨hl2, hrl2, fun g idx hg hidx hP => hc2 g idx hg hidx (by omega)⟩

theorem msSubsets_spec (values : List (List Nat)) (hN4 : values.length % 4 = 0)
    (hNpos : 0 < values.length) (hvals : ∀ v ∈ values, v.length = 8) :
    RowsSpec values (msSubsets values) (fun idx => idx < 16) := by
  obtain ⟨hl, hrl, hc⟩ := msLoop1_spec values hN4 hNpos hvals
  exact msLoop2_go values hN4 hNpos hvals 13 3 2 _ (by norm_num) (by norm_num)
    (by decide) ⟨hl, hrl, fun g idx hg hidx hP => hc g idx hg hidx (by omega)⟩

theorem list_ext_getD {α : Type} (d : α) (A B : List α) (hlen : A.length = B.length)
    (h : ∀ p, p < A.length → A.getD p d = B.getD p d) : A = B := by
  apply List.ext_getElem hlen
  intro i h1 h2
  have hp := h i h1
  rwa [List.getD_eq_getElem _ _ h1, List.getD_eq_getElem _ _ h2] at hp

theorem getD_map' {α β : Type} (f : α → β) (l : List α) (a : Nat) (d : β) (dd : α)
    (ha : a < l.length) : (l.map f).getD a d = f (l.getD a dd) := by
  rw [List.getD_eq_getElem _ _ (by simp; omega), List.getD_eq_getElem _ _ ha]
  simp

theorem getD_map_range2 {β : Type} (f : Nat → β) (n k : Nat) (d : β) (hk : k < n) :
    ((List.range n).map f).getD k d = f k := by
  rw [List.getD_eq_getElem _ _ (by simp; omega)]
  simp

theorem getD_enum_map {α β : Type} (f : Nat × α → β) (l : List α) (g : Nat) (d : β)
    (dd : α) (hg : g < l.length) :
    (l.enum.map f).getD g d = f (g, l.getD g dd) := by
  rw [List.getD_eq_getElem _ _ (by simp; omega), List.getD_eq_getElem _ _ hg]
  simp

theorem getD_mem {α : Type} (l : List α) (a : Nat) (d : α) (ha : a < l.length) :
    l.getD a d ∈ l := by
  rw [List.getD_eq_getElem _ _ ha]
  exact List.getElem_mem _

theorem xor_along_axis_4d_two (values : List (List (List (List Nat)))) :
    xor_along_axis_4d values 2
      = some ((List.range values.length).map (fun i =>
          (List.range (values.getD 0 []).length).map (fun j =>
            (List.range (((values.getD 0 []).getD 0 []).getD 0 []).length).map (fun k =>
              (List.range' 1 (((values.getD 0 []).getD 0 []).length - 1)).foldl
                (fun res l => res ^^^ (((values.getD i []).getD j []).getD l []).getD k 0)
                ((((values.getD i []).getD j []).getD 0 []).getD k 0))))) := rfl

theorem multisubset_eq (values : List (List Nat)) (bits : List (List (List Nat))) :
    multisubset values bits
      = xor_along_axis_4d
          ((bits.map (fun matrix => matrix.map (fun row =>
            (chunks4 row).map nibbleOf))).map (fun outer => outer.map (fun inner =>
              inner.enum.map (fun gi =>
                ((msSubsets values).getD gi.1 []).getD gi.2 [])))) 2 := rfl

theorem foldl_congr_range (f g : Nat → Nat) (n : Nat) (a : Nat)
    (h : ∀ i, i < n → f i = g i) :
    (List.range n).foldl (fun acc i => acc ^^^ f i) a
      = (List.range n).foldl (fun acc i => acc ^^^ g i) a := by
  induction n with
  | zero => rfl
  | succ n ih =>
    rw [List.range_succ, List.foldl_append, List.foldl_append,
      List.foldl_cons, List.foldl_nil, List.foldl_cons, List.foldl_nil,
      ih (fun i hi => h i (by omega)), h n (by omega)]

/-- C3: `multisubset` computes the naive subset XOR: for rows of 8 u16
limbs with the row count a positive multiple of `GROUPING = 4`, and a bit
tensor of uniform shape `(A, B, N)` with 0/1 entries, entry `(a, b)` of the
output is the XOR of the `values[n]` selected by `bits[a][b]`. -/
theorem multisubset_spec (values : List (List Nat)) (bits : List (List (List Nat)))
    (hN4 : values.length % 4 = 0) (hNpos : 0 < values.length)
    (hvals : ∀ v ∈ values, v.length = 8)
    (hbitsB : ∀ mat ∈ bits, mat.length = (bits.getD 0 []).length)
    (hbitsN : ∀ mat ∈ bits, ∀ row ∈ mat, row.length = values.length)
    (hbits01 : ∀ mat ∈ bits, ∀ row ∈ mat, ∀ x ∈ row, x = 0 ∨ x = 1) :
    multisubset values bits
      = some (bits.map (fun mat => mat.map (fun row => naiveSubsetXor values row))) := by
  obtain ⟨hsl, hsrl, hsc⟩ := msSubsets_spec values hN4 hNpos hvals
  have hdiv := Nat.div_add_mod values.length 4
  have hGpos : 0 < values.length / 4 := by omega
  have hlen0 : (values.getD 0 []).length = 8 := getD_row_len8 values hvals 0 hNpos
  rw [multisubset_eq, xor_along_axis_4d_two]
  congr 1
  set SEL := (bits.map (fun matrix => matrix.map (fun row =>
    (chunks4 row).map nibbleOf))).map (fun outer => outer.map (fun inner =>
      inner.enum.map (fun gi => ((msSubsets values).getD gi.1 []).getD gi.2 []))) with hSEL
  have hSELl : SEL.length = bits.length := by rw [hSEL]; simp
  have hpair : ∀ a b, a < bits.length → b < (bits.getD a []).length →
      (SEL.getD a []).getD b []
        = ((chunks4 ((bits.getD a []).getD b [])).map nibbleOf).enum.map (fun gi =>
            ((msSubsets values).getD gi.1 []).getD gi.2 []) := by
    intro a b ha hb
    rw [hSEL, getD_map' _ _ a [] [] (by rw [List.length_map]; exact ha),
      getD_map' _ bits a [] [] ha,
      getD_map' _ _ b [] [] (by rw [List.length_map]; exact hb),
      getD_map' _ _ b [] [] hb]
  have hrowfacts : ∀ a b, a < bits.length → b < (bits.getD a []).length →
      ((SEL.getD a []).getD b []).length = values.length / 4 ∧
      (∀ g k, g < values.length / 4 →
        (((SEL.getD a []).getD b []).getD g []).getD k 0
          = subV values g
              (nibbleOf ((chunks4 ((bits.getD a []).getD b [])).getD g [])) k) ∧
      (∀ g, g < values.length / 4 →
        (((SEL.getD a []).getD b []).getD g []).length = 8) := by
    intro a b ha hb
    have hmat : bits.getD a [] ∈ bits := getD_mem bits a [] ha
    have hrow : (bits.getD a []).getD b [] ∈ bits.getD a [] := getD_mem _ b [] hb
    have hrlen : ((bits.getD a []).getD b []).length = values.length :=
      hbitsN _ hmat _ hrow
    have hch : (chunks4 ((bits.getD a []).getD b [])).length = values.length / 4 := by
      rw [chunks4_length _ (by rw [hrlen]; exact hN4), hrlen]
    have hnib16 : ∀ g, g < values.length / 4 →
        nibbleOf ((chunks4 ((bits.getD a []).getD b [])).getD g []) < 16 := by
      intro g hg
      rw [chunks4_getD g _ (by rw [hrlen]; omega)]
      refine (nibbleOf_testBit _ _ _ _ ?_ ?_ ?_ ?_).2
      all_goals exact hbits01 _ hmat _ hrow _ (getD_mem _ _ 0 (by rw [hrlen]; omega))
    rw [hpair a b ha hb]
    refine ⟨by rw [List.length_map, List.enum_length, List.length_map, hch], ?_, ?_⟩
    · intro g k hg
      rw [getD_enum_map _ _ g [] 0 (by rw [List.length_map, hch]; omega),
        getD_map' nibbleOf _ g 0 [] (by rw [hch]; omega)]
      exact (hsc g _ hg (hnib16 g hg) (hnib16 g hg)).2 k
    · intro g hg
      rw [getD_enum_map _ _ g [] 0 (by rw [List.length_map, hch]; omega),
        getD_map' nibbleOf _ g 0 [] (by rw [hch]; omega)]
      exact (hsc g _ hg (hnib16 g hg) (hnib16 g hg)).1
  apply list_ext_getD ([] : List (List Nat))
  · simp [hSELl]
  · intro a ha'
    have ha : a < bits.length := by
      simp only [List.length_map, List.length_range, hSELl] at ha'
      exact ha'
    rw [getD_map_range2 _ _ a [] (by simp [hSELl]; omega),
      getD_map' _ bits a [] [] ha]
    have hmat : bits.getD a [] ∈ bits := getD_mem bits a [] ha
    have hmatlen : (bits.getD a []).length = (bits.getD 0 []).length := hbitsB _ hmat
    have hB0 : (SEL.getD 0 []).length = (bits.getD 0 []).length := by
      rw [hSEL, getD_map' _ _ 0 [] [] (by simp; omega),
        getD_map' _ bits 0 [] [] (by omega)]
      simp
    apply list_ext_getD ([] : List Nat)
    · rw [List.length_map, List.length_range, List.length_map, hB0, hmatlen]
    · intro b hb'
      have hb : b < (bits.getD a []).length := by
        simp only [List.length_map, List.length_range, hB0] at hb'
        omega
      rw [getD_map_range2 _ _ b [] (by rw [hB0]; omega),
        getD_map' _ _ b [] [] hb]
      obtain ⟨hablen, habv, hab8⟩ := hrowfacts a b ha hb
      have h00a : 0 < bits.length := by omega
      have h00b : 0 < (bits.getD 0 []).length := by omega
      obtain ⟨h00len, _, h008⟩ := hrowfacts 0 0 h00a
        (by rw [hbitsB _ (getD_mem bits 0 [] h00a)]; omega)
      have hK : (((SEL.getD 0 []).getD 0 []).getD 0 []).length = 8 := h008 0 hGpos
      have hG : ((SEL.getD 0 []).getD 0 []).length = values.length / 4 := h00len
      apply list_ext_getD (0 : Nat)
      · rw [show naiveSubsetXor values ((bits.getD a []).getD b [])
            = (List.range (values.getD 0 []).length).map (fun kk =>
              (List.range values.length).foldl (fun acc n =>
                acc ^^^ (if ((bits.getD a []).getD b []).getD n 0 = 1 then
                  (values.getD n []).getD kk 0 else 0)) 0) from rfl]
        rw [List.length_map, List.length_range, List.length_map, List.length_range,
          hK, hlen0]
      · intro k hk'
        have hk : k < 8 := by
          simp only [List.length_map, List.length_range, hK] at hk'
          exact hk'
        rw [getD_map_range2 _ _ k 0 (by rw [hK]; omega)]
        rw [show naiveSubsetXor values ((bits.getD a []).getD b [])
            = (List.range (values.getD 0 []).length).map (fun kk =>
              (List.range values.length).foldl (fun acc n =>
                acc ^^^ (if ((bits.getD a []).getD b []).getD n 0 = 1 then
                  (values.getD n []).getD kk 0 else 0)) 0) from rfl,
          getD_map_range2 _ _ k 0 (by rw [hlen0]; omega)]
        rw [hG]
        have hbr := xorFold_range'
          (fun l => (((SEL.getD a []).getD b []).getD l []).getD k 0)
          (values.length / 4 - 1)
        simp only [] at hbr
        rw [hbr, show values.length / 4 - 1 + 1 = values.length / 4 from by omega]
        have hmat2 : bits.getD a [] ∈ bits := getD_mem bits a [] ha
        have hrow2 : (bits.getD a []).getD b [] ∈ bits.getD a [] := getD_mem _ b [] hb
        have hrlen2 : ((bits.getD a []).getD b []).length = values.length :=
          hbitsN _ hmat2 _ hrow2
        have hterm : ∀ g, g < values.length / 4 →
            (((SEL.getD a []).getD b []).getD g []).getD k 0
              = (if ((bits.getD a []).getD b []).getD (4 * g) 0 = 1 then
                  (values.getD (4 * g) []).getD k 0 else 0)
                ^^^ (if ((bits.getD a []).getD b []).getD (4 * g + 1) 0 = 1 then
                  (values.getD (4 * g + 1) []).getD k 0 else 0)
                ^^^ (if ((bits.getD a []).getD b []).getD (4 * g + 2) 0 = 1 then
                  (values.getD (4 * g + 2) []).getD k 0 else 0)
                ^^^ (if ((bits.getD a []).getD b []).getD (4 * g + 3) 0 = 1 then
                  (values.getD (4 * g + 3) []).getD k 0 else 0) := by
          intro g hg
          rw [habv g k hg, chunks4_getD g _ (by rw [hrlen2]; omega)]
          have hbit : ∀ t, t < 4 →
              (((bits.getD a []).getD b []).getD (4 * g + t) 0 = 0 ∨
                ((bits.getD a []).getD b []).getD (4 * g + t) 0 = 1) := by
            intro t ht
            exact hbits01 _ hmat2 _ hrow2 _ (getD_mem _ _ 0 (by rw [hrlen2]; omega))
          have hb0 : ((bits.getD a []).getD b []).getD (4 * g) 0 = 0 ∨
              ((bits.getD a []).getD b []).getD (4 * g) 0 = 1 :=
            hbits01 _ hmat2 _ hrow2 _ (getD_mem _ _ 0 (by rw [hrlen2]; omega))
          obtain ⟨hiff, _⟩ := nibbleOf_testBit _ _ _ _
            hb0 (hbit 1 (by norm_num))
            (hbit 2 (by norm_num)) (hbit 3 (by norm_num))
          unfold subV
          have e0 := hiff 0 (by norm_num)
          have e1 := hiff 1 (by norm_num)
          have e2 := hiff 2 (by norm_num)
          have e3 := hiff 3 (by norm_num)
          congr 1
          · congr 1
            · congr 1
              · by_cases hc : ((bits.getD a []).getD b []).getD (4 * g) 0 = 1
                · rw [if_pos (e0.mpr hc), if_pos hc]
                · rw [if_neg (fun hh => hc (e0.mp hh)), if_neg hc]
              · by_cases hc : ((bits.getD a []).getD b []).getD (4 * g + 1) 0 = 1
                · rw [if_pos (e1.mpr hc), if_pos hc]
                · rw [if_neg (fun hh => hc (e1.mp hh)), if_neg hc]
            · by_cases hc : ((bits.getD a []).getD b []).getD (4 * g + 2) 0 = 1
              · rw [if_pos (e2.mpr hc), if_pos hc]
              · rw [if_neg (fun hh => hc (e2.mp hh)), if_neg hc]
          · by_cases hc : ((bits.getD a []).getD b []).getD (4 * g + 3) 0 = 1
            · rw [if_pos (e3.mpr hc), if_pos hc]
            · rw [if_neg (fun hh => hc (e3.mp hh)), if_neg hc]
        have hcg := foldl_congr_range
          (fun l => (((SEL.getD a []).getD b []).getD l []).getD k 0)
          (fun g =>
            (if ((bits.getD a []).getD b []).getD (4 * g) 0 = 1 then
              (values.getD (4 * g) []).getD k 0 else 0)
            ^^^ (if ((bits.getD a []).getD b []).getD (4 * g + 1) 0 = 1 then
              (values.getD (4 * g + 1) []).getD k 0 else 0)
            ^^^ (if ((bits.getD a []).getD b []).getD (4 * g + 2) 0 = 1 then
              (values.getD (4 * g + 2) []).getD k 0 else 0)
            ^^^ (if ((bits.getD a []).getD b []).getD (4 * g + 3) 0 = 1 then
              (values.getD (4 * g + 3) []).getD k 0 else 0))
          (values.length / 4) 0 hterm
        simp only [] at hcg
        rw [hcg]
        have hgr := xorFold_group
          (fun n => if ((bits.getD a []).getD b []).getD n 0 = 1 then
            (values.getD n []).getD k 0 else 0) (values.length / 4)
        simp only [] at hgr
        conv_rhs => rw [show values.length = 4 * (values.length / 4) from by omega]
        rw [hgr]

theorem multisubset_spec_witness :
    multisubset
      [[1, 0, 0, 0, 0, 0, 0, 0], [2, 0, 0, 0, 0, 0, 0, 0],
       [4, 0, 0, 0, 0, 0, 0, 0], [8, 0, 0, 0, 0, 0, 0, 0]]
      [[[1, 0, 1, 1]]]
      = some ([[[1, 0, 1, 1]]].map (fun mat => mat.map (fun row =>
          naiveSubsetXor
            [[1, 0, 0, 0, 0, 0, 0, 0], [2, 0, 0, 0, 0, 0, 0, 0],
             [4, 0, 0, 0, 0, 0, 0, 0], [8, 0, 0, 0, 0, 0, 0, 0]] row))) :=
  multisubset_spec _ _ (by decide) (by decide) (by decide) (by decide)
    (by decide) (by decide)

/-! ### `pcs.rs`: the polynomial commitment scheme (commit / prove) -/

/-- `log2_strict_usize` (from `p3_util`): the exact log2 of a power of
two, a panic (`none`) otherwise. -/
def log2_strict_usize (n : Nat) : Option Nat :=
  if n ≠ 0 ∧ 2 ^ natLog2 n = n then some (natLog2 n) else none

/-- `int_to_bigbin` from `binary_field16.rs`: a `u128` as 8 little-endian
`u16` limbs. -/
def int_to_bigbin (x : Nat) : List Nat :=
  (List.range 8).map (fun k => (x >>> (k * 16)) &&& 65535)

/-- `mul_by_Xi` from `binary_field16.rs` (fuel-recursive; the source
recursion halves the list, `none` models non-termination on malformed
lengths, which cannot occur on the power-of-two lengths used). -/
def mul_by_XiF : Nat → List Nat → Nat → Option (List Nat)
  | 0, _, _ => none
  | fuel + 1, x, n =>
    if x.length = 1 then some [bin_mul (x.getD 0 0) 256 none]
    else
      let l := x.take (n / 2)
      let r := x.drop (n / 2)
      match mul_by_XiF fuel r (n / 2) with
      | none => none
      | some o => some (r ++ List.zipWith (fun a b => a ^^^ b) o l)

/-- `big_mul_impl` from `binary_field16.rs`: Karatsuba multiplication of
multi-limb tower-field elements (fuel-recursive on halving lengths). -/
def big_mulF : Nat → List Nat → List Nat → Option (List Nat)
  | 0, _, _ => none
  | fuel + 1, x1, x2 =>
    let n := x1.length
    if n = 1 then
      if x2.length = 0 then none
      else some [bin_mul (x1.getD 0 0) (x2.getD 0 0) none]
    else
      let l1 := x1.take (n / 2)
      let r1 := x1.drop (n / 2)
      let l2 := x2.take (n / 2)
      let r2 := x2.drop (n / 2)
      match big_mulF fuel l1 l2, big_mulF fuel r1 r2 with
      | some l1l2, some r1r2 =>
        match mul_by_XiF fuel r1r2 (n / 2) with
        | none => none
        | some r1r2_high =>
          match big_mulF fuel (List.zipWith (fun a b => a ^^^ b) l1 r1)
              (List.zipWith (fun a b => a ^^^ b) l2 r2) with
          | none => none
          | some z3 =>
            some (List.zipWith (fun a b => a ^^^ b) l1l2 r1r2 ++
              List.zipWith (fun a b => a ^^^ b)
                (List.zipWith (fun a b => a ^^^ b)
                  (List.zipWith (fun a b => a ^^^ b) z3 l1l2) r1r2) r1r2_high)
      | _, _ => none

/-- `big_mul` from `binary_field16.rs`. -/
def big_mul (x1 x2 : List Nat) : Option (List Nat) :=
  big_mulF (x1.length + 1) x1 x2

/-- `uint16s_to_bits` from `binary_field16.rs`: each `u16` becomes its 16
bits, least significant first. -/
def uint16s_to_bits (data : List Nat) : List Nat :=
  (data.map (fun v => (List.range 16).map (fun i => (v >>> i) &&& 1))).join

/-- `evaluation_tensor_product` from `utils.rs`: all products of
`coord`/`1 XOR coord` choices over the evaluation point, as 8-limb
tower-field elements. -/
def evaluation_tensor_product (eval_point : List Nat) : Option (List (List Nat)) :=
  eval_point.foldl
    (fun acc coord =>
      match acc with
      | none => none
      | some o =>
        let int_bin := int_to_bigbin coord
        match o.mapM (fun x => big_mul x int_bin) with
        | none => none
        | some o_times_coord =>
          some ((o.zip o_times_coord).map
              (fun p => List.zipWith (fun a b => a ^^^ b) p.1 p.2)
            ++ o_times_coord))
    (some [int_to_bigbin 1])

/-- `xor_along_axis` from `utils.rs` (`values[0]` panics on an empty
input; an unsupported axis panics). -/
def xor_along_axis (values : List (List Nat)) (axis : Nat) : Option (List Nat) :=
  if values.length = 0 then none
  else if axis = 0 then
    some (values.tail.foldl
      (fun res row =>
        List.zipWith (fun a b => a ^^^ b) res row ++ res.drop row.length)
      (values.headD []))
  else if axis = 1 then
    some (values.map (fun row => row.foldl (fun a b => a ^^^ b) 0))
  else none

/-- `pack_rows` from `utils.rs`: every 16 bits (2 bytes, little endian)
of the evaluations become one `u16`; `none` when a byte slice is out of
range or not 2 bytes wide (the `try_into().unwrap()`). -/
def pack_rows (evaluations : List Nat) (row_count row_length packing_factor : Nat) :
    Option (List (List Nat)) :=
  (List.range row_count).mapM (fun i =>
    (List.range (row_length / packing_factor)).mapM (fun j =>
      let lo := i * row_length / 8 + j * packing_factor / 8
      let hi := i * row_length / 8 + (j + 1) * packing_factor / 8
      if hi ≤ evaluations.length ∧ hi - lo = 2 then
        some (evaluations.getD lo 0 + 256 * evaluations.getD (lo + 1) 0)
      else none))

/-- `transpose` from `utils.rs` (`input[0]` panics on an empty input;
`input[i][j]` panics when a row is shorter than the first). -/
def transpose (input : List (List Nat)) : Option (List (List Nat)) :=
  if input.length = 0 then none
  else if input.all (fun row => (input.getD 0 []).length ≤ row.length) then
    some ((List.range (input.getD 0 []).length).map (fun j =>
      input.map (fun row => row.getD j 0)))
  else none

/-- `extend_rows` from `utils.rs`: Reed–Solomon extension of every row. -/
def extend_rows (rows : List (List Nat)) (expansion_factor : Nat) :
    Option (List (List Nat)) :=
  rows.mapM (fun row => extend row expansion_factor)

/-- `computed_tprimes` from `utils.rs` (the optimized implementation):
`t_prime[i][j]` is the XOR over `bit_pos < num_bits` of
`bit(rows_as_bits_transpose[i], bit_pos) * row_combination[bit_pos][j]`,
where `num_bits = rows_as_bits_transpose[0].len() * 8` is the bit count
of a transposed row ROUNDED UP TO WHOLE BYTES.  When `num_bits` exceeds
`row_combination.len()`, the read `row_combination[bit_pos]` is out of
bounds and the source panics (`none`). -/
def computed_tprimes (rows_as_bits_transpose row_combination : List (List Nat)) :
    Option (List (List Nat)) :=
  if rows_as_bits_transpose.length = 0 ∨ row_combination.length = 0 then none
  else
    let m := rows_as_bits_transpose.length
    let num_bits := (rows_as_bits_transpose.getD 0 []).length * 8
    let k := (row_combination.getD 0 []).length
    if k = 0 then some (List.replicate m [])
    else if num_bits ≤ row_combination.length
        ∧ rows_as_bits_transpose.all
            (fun r => (rows_as_bits_transpose.getD 0 []).length ≤ r.length)
        ∧ (row_combination.take num_bits).all (fun r => k ≤ r.length) then
      some ((List.range m).map (fun i => (List.range k).map (fun j =>
        (List.range num_bits).foldl (fun acc bit_pos =>
          acc ^^^
            (((rows_as_bits_transpose.getD i []).getD (bit_pos / 8) 0 >>>
                (7 - bit_pos % 8)) &&& 1) *
              (row_combination.getD bit_pos []).getD j 0) 0)))
    else none

/-- The `Commitment` struct of `pcs.rs` (`u8`/`u16` values as `Nat`). -/
structure Commitment where
  root : List Nat
  packed_columns : List (List Nat)
  merkle_tree : List (List Nat)
  rows : List (List Nat)
  columns : List (List Nat)

/-- The `Proof` struct of `pcs.rs`. -/
structure Proof where
  evaluation_point : List Nat
  eval : List Nat
  t_prime : List (List Nat)
  columns : List (List Nat)
  branches : List (List (List Nat))

/-- `commit` from `pcs.rs` (`EXPANSION_FACTOR = 8`,
`PACKING_FACTOR = 16`): pack the evaluation bits into rows, Reed–Solomon
extend, transpose into columns, pack each column into bytes (low byte
first) and Merkelize. -/
def commit (evaluations : List Nat) : Option Commitment :=
  match log2_strict_usize (evaluations.length * 8) with
  | none => none
  | some log_evaluation_count =>
    let q := choose_row_length_and_count log_evaluation_count
    match pack_rows evaluations q.2.2.2 q.2.2.1 16 with
    | none => none
    | some rows =>
      match extend_rows rows 8 with
      | none => none
      | some extended_rows =>
        match transpose extended_rows with
        | none => none
        | some columns =>
          let packed_columns := columns.map (fun col =>
            (col.map (fun e => [e % 256, e / 256 % 256])).join)
          match merkelize packed_columns with
          | none => none
          | some merkle_tree =>
            some ⟨get_root merkle_tree, packed_columns, merkle_tree, rows, columns⟩

/-- `prove` from `pcs.rs` (`NUM_CHALLENGES = 32`): compute `t_prime` as
the row combination of the committed rows, then the evaluation, the
opened columns and the Merkle branches.  Rust panics (`none` here) are:
a non-power-of-two bit count, a slice `evaluation_point[log_row_length..]`
out of range, the `assert_eq` on the row-combination length, ragged bit
rows in `transpose_bits`, any failure inside `computed_tprimes`, and a
challenge indexing past the committed columns. -/
def prove (commitment : Commitment) (evaluations : List Nat)
    (evaluation_point : List Nat) : Option Proof :=
  match log2_strict_usize (evaluations.length * 8) with
  | none => none
  | some log_evaluation_count =>
    let q := choose_row_length_and_count log_evaluation_count
    let log_row_length := q.1
    let extended_row_length := q.2.2.1 * 8 / 16
    if log_row_length ≤ evaluation_point.length then
      match evaluation_tensor_product (evaluation_point.drop log_row_length) with
      | none => none
      | some row_combination =>
        if row_combination.length = commitment.rows.length then
          let rb := commitment.rows.map (fun row => uint16s_to_bits row)
          if rb.length ≠ 0 ∧ rb.all (fun r => (rb.getD 0 []).length ≤ r.length) then
            match computed_tprimes (transpose_bits rb) row_combination with
            | none => none
            | some t_prime =>
              let challenges := get_challenges commitment.root extended_row_length 32
              match evaluation_tensor_product (evaluation_point.take log_row_length) with
              | none => none
              | some col_combination =>
                match (t_prime.zip col_combination).mapM
                    (fun p => big_mul p.1 p.2) with
                | none => none
                | some multi_result =>
                  match xor_along_axis multi_result 0 with
                  | none => none
                  | some computed_eval =>
                    if challenges.all (fun c => c < commitment.columns.length) then
                      some ⟨evaluation_point, computed_eval, t_prime,
                        challenges.map (fun c => commitment.columns.getD c []),
                        challenges.map (fun c => get_branch commitment.merkle_tree c)⟩
                    else none
          else none
        else none
    else none

-- Validation against the unit tests of `utils.rs` and `binary_field16.rs`.
example : xor_along_axis [[1, 2, 3], [4, 5, 6]] 0 = some [5, 7, 5] := by decide
example : xor_along_axis [[1, 2, 3], [4, 5, 6]] 1 = some [0, 7] := by decide
example :
    (pack_rows [1, 2, 3, 4, 5, 6, 7, 8, 9, 10, 11, 12, 13, 14, 15, 16] 8 16 16).map
      (fun r => r.take 3) = some [[513], [1027], [1541]] := by decide
example : big_mul (int_to_bigbin (3 ^ 29)) (int_to_bigbin (5 ^ 29))
    = some [46732, 49627, 26993, 63626, 14101, 27237, 21150, 0] := by decide
example : evaluation_tensor_product [2, 5]
    = some [int_to_bigbin 12, int_to_bigbin 8, int_to_bigbin 15, int_to_bigbin 10] := by
  decide

/-- C1 fails in the code: for the valid 8-byte input `E = [255; 8]`
(64 = 2^6 bits, grid `row_length = 16`, `row_count = 4`) and the
6-coordinate evaluation point `[1,1,1,1,1,1]`, `commit E` succeeds but
`prove (commit E) E pt` panics, so
`verifier (commit E) (prove (commit E) E pt) pt` cannot return `true`:
`computed_tprimes` rounds the transposed bit rows up to a whole byte
(`num_bits = 8`) and indexes `row_combination[4]` past the
`row_count = 4` entries of the row combination. -/
theorem prove_panics_on_small_input :
    (commit (List.replicate 8 255)).isSome = true ∧
      ((commit (List.replicate 8 255)).bind
        (fun c => prove c (List.replicate 8 255) [1, 1, 1, 1, 1, 1])).isNone
        = true := by
  constructor
  · decide
  · decide
end Binius
